import Mathlib

/-!
Verification of the bioslogtriage deterministic pipeline.

This file shallowly embeds the core of the `triage` Python package:
normalized lines, phase detection (`triage/phases.py`), the rule engine and
fingerprinting (`triage/rules/engine.py`, `triage/fingerprint.py`), stall
detection (`triage/signals/stalls.py`), the LLM payload repair and validation
layer (`triage/llm/repair.py`, `triage/llm/repair_facts.py`,
`triage/cli.py`), and the evidence pack builder
(`triage/llm/evidence_pack.py`).

Conventions of the embedding:
* Python dicts are insertion-ordered association lists; dict assignment
  replaces the value in place when the key exists and appends otherwise.
* Python numbers are modelled as rationals; serialized number rendering is a
  parameter of the serializer because Python float repr is out of scope.
* Regular-expression search, `str.format`, and `hashlib.sha256` are external
  primitives and are modelled as function parameters of the defs that use
  them, applied exactly where the source applies them.
-/

namespace BiosTriage

/-- JSON-like Python value: None, bool, number, str, list, dict.
Dicts keep insertion order, as Python dicts do. -/
inductive Json where
  | null : Json
  | bool : Bool → Json
  | num : ℚ → Json
  | str : String → Json
  | arr : List Json → Json
  | obj : List (String × Json) → Json

/-- Association-list lookup for string-keyed Python dicts. -/
def alLookup {α : Type} (fields : List (String × α)) (k : String) : Option α :=
  match fields with
  | [] => none
  | (k', v) :: rest => if k' = k then some v else alLookup rest k

/-- Association-list assignment with Python dict semantics: replace the
value in place when the key exists, append otherwise. -/
def alSet {α : Type} (fields : List (String × α)) (k : String) (v : α) :
    List (String × α) :=
  match fields with
  | [] => [(k, v)]
  | (k', v') :: rest =>
      if k' = k then (k, v) :: rest else (k', v') :: alSet rest k v

/-- Association-list key removal, Python `d.pop(k, None)`. -/
def alDel {α : Type} (fields : List (String × α)) (k : String) :
    List (String × α) :=
  match fields with
  | [] => []
  | (k', v') :: rest =>
      if k' = k then rest else (k', v') :: alDel rest k

/-- Association-list key membership, Python `k in d`. -/
def alHasKey {α : Type} (fields : List (String × α)) (k : String) : Bool :=
  match fields with
  | [] => false
  | (k', _) :: rest => k' = k || alHasKey rest k

namespace Json

/-- Python `value.get(k)` when `value` is known to be a dict; `none` otherwise. -/
def get? : Json → String → Option Json
  | .obj fields, k => alLookup fields k
  | _, _ => none

/-- Test whether a value is a dict (Python `isinstance(x, dict)`). -/
def isObj : Json → Bool
  | .obj _ => true
  | _ => false

/-- Test whether a value is a list (Python `isinstance(x, list)`). -/
def isArr : Json → Bool
  | .arr _ => true
  | _ => false

/-- Dict fields of a value, empty for non-dicts. -/
def fieldsOf : Json → List (String × Json)
  | .obj fields => fields
  | _ => []

/-- List elements of a value, empty for non-lists. -/
def elemsOf : Json → List Json
  | .arr elems => elems
  | _ => []

end Json

/-- Lowercase hexadecimal digit for a value below 16. -/
def hexDigit (n : Nat) : Char :=
  if n < 10 then Char.ofNat (48 + n) else Char.ofNat (87 + n)

/-- Four lowercase hexadecimal digits, as in Python's `'\u%04x'`. -/
def hex4 (n : Nat) : String :=
  String.mk
    [hexDigit (n / 4096 % 16), hexDigit (n / 256 % 16),
     hexDigit (n / 16 % 16), hexDigit (n % 16)]

/-- Escape one character as `json.dumps` with `ensure_ascii=False` does:
backslash, double quote, and the named control escapes, `\uXXXX` for other
control characters, everything else kept verbatim. -/
def escChar (c : Char) : String :=
  if c = '\\' then "\\\\"
  else if c = '"' then "\\\""
  else if c = '\x08' then "\\b"
  else if c = '\x0c' then "\\f"
  else if c = '\n' then "\\n"
  else if c = '\r' then "\\r"
  else if c = '\t' then "\\t"
  else if c.toNat < 32 then "\\u" ++ hex4 c.toNat
  else String.singleton c

/-- JSON string encoding: quotes around the escaped characters. -/
def encodeString (s : String) : String :=
  "\"" ++ String.join (s.toList.map escChar) ++ "\""

mutual

/-- Serialization mirroring `json.dumps(x, separators=(",", ":"),
ensure_ascii=False)`. Number rendering is a parameter `ns` (Python float
repr is outside the model); dict fields appear in insertion order. -/
def Json.dumps (ns : ℚ → String) : Json → String
  | .null => "null"
  | .bool b => if b then "true" else "false"
  | .num q => ns q
  | .str s => encodeString s
  | .arr elems => "[" ++ Json.dumpsList ns elems ++ "]"
  | .obj fields => "\x7b" ++ Json.dumpsFields ns fields ++ "\x7d"

/-- Comma-separated serialization of list elements. -/
def Json.dumpsList (ns : ℚ → String) : List Json → String
  | [] => ""
  | [x] => Json.dumps ns x
  | x :: y :: rest => Json.dumps ns x ++ "," ++ Json.dumpsList ns (y :: rest)

/-- Comma-separated serialization of dict fields as `"key":value`. -/
def Json.dumpsFields (ns : ℚ → String) : List (String × Json) → String
  | [] => ""
  | [(k, v)] => encodeString k ++ ":" ++ Json.dumps ns v
  | (k, v) :: p :: rest =>
      encodeString k ++ ":" ++ Json.dumps ns v ++ "," ++
        Json.dumpsFields ns (p :: rest)

end

/-- Default number rendering: integral rationals print like Python ints.
Non-integral numbers never occur in the concrete payloads evaluated here;
size statements are parametric in the renderer. -/
def numStrDefault (q : ℚ) : String :=
  if q.den = 1 then toString q.num else toString q

/-- Serialized character count, `len(json.dumps(payload, separators=(",", ":"),
ensure_ascii=False))`. -/
def serializedSizeChars (ns : ℚ → String) (j : Json) : Nat :=
  (Json.dumps ns j).length

mutual

/-- Python `==` on payload values: dict comparison ignores field order
(assuming the unique keys Python dicts guarantee), lists compare pointwise. -/
def Json.pyEq : Json → Json → Bool
  | .null, .null => true
  | .bool a, .bool b => a == b
  | .num a, .num b => a == b
  | .str a, .str b => a == b
  | .arr a, .arr b => Json.pyEqList a b
  | .obj a, .obj b => a.length == b.length && Json.pyEqAll a b
  | _, _ => false

/-- Pointwise Python equality of two lists. -/
def Json.pyEqList : List Json → List Json → Bool
  | [], [] => true
  | x :: xs, y :: ys => Json.pyEq x y && Json.pyEqList xs ys
  | _, _ => false

/-- Every field of the first dict appears in the second with an equal value. -/
def Json.pyEqAll : List (String × Json) → List (String × Json) → Bool
  | [], _ => true
  | (k, v) :: rest, b => Json.pyEqField k v b && Json.pyEqAll rest b

/-- Key `k` maps to a value equal to `v` in the given fields. -/
def Json.pyEqField (k : String) (v : Json) : List (String × Json) → Bool
  | [] => false
  | (k', v') :: rest => if k' = k then Json.pyEq v v' else Json.pyEqField k v rest

end

/-- Python `round` on an exact rational: round half to even. -/
def pyRound (q : ℚ) : ℤ :=
  if q - ⌊q⌋ < 1 / 2 then ⌊q⌋
  else if (1 : ℚ) / 2 < q - ⌊q⌋ then ⌊q⌋ + 1
  else if Even ⌊q⌋ then ⌊q⌋ else ⌊q⌋ + 1

/-- Python `round(x, 2)` on an exact rational. -/
def pyRound2 (q : ℚ) : ℚ :=
  (pyRound (q * 100) : ℚ) / 100

/-! Progress markers (`triage/signals/progress.py`) and stall detection
(`triage/signals/stalls.py`). -/

/-- Marker record from `extract_markers`. -/
structure Marker where
  idx : Int
  kind : String
  value : String
  raw : String
deriving Repr, DecidableEq

/-- A contiguous line span for a boot phase (`triage/phases.py`). -/
structure PhaseSpan where
  phase : String
  start_line : Int
  end_line : Int
  confidence : ℚ
deriving Repr, DecidableEq

/-- The `last_milestone` payload of a stall signal. -/
structure LastMilestone where
  kind : String
  line : Int
  value : String
deriving Repr, DecidableEq

/-- StallSignal record from `detect_stalls`. -/
structure StallSignal where
  phase : String
  start_line : Int
  end_line : Int
  gap_lines : Int
  last_milestone : LastMilestone
  confidence : ℚ
deriving Repr, DecidableEq

/-- Phase lookup by containment; `"unknown"` outside every span
(`_phase_for_line`). -/
def phaseForLine (line_no : Int) (phases : List PhaseSpan) : String :=
  match phases.find?
      (fun p => decide (p.start_line ≤ line_no ∧ line_no ≤ p.end_line)) with
  | some p => p.phase
  | none => "unknown"

/-- Python `sorted(markers, key=idx)`: the unique stable ascending sort,
realized by a stable insertion sort. -/
def sortMarkers (markers : List Marker) : List Marker :=
  List.insertionSort (fun a b => a.idx ≤ b.idx) markers

/-- One iteration of the `detect_stalls` loop body over an adjacent marker
pair, appending at most one stall. -/
def stallStep (phases : List PhaseSpan) (gap_lines : Int)
    (stalls : List StallSignal) (pr : Marker × Marker) : List StallSignal :=
  let phase := phaseForLine pr.1.idx phases
  if phase ≠ phaseForLine pr.2.idx phases then stalls
  else if pr.2.idx - pr.1.idx ≤ gap_lines then stalls
  else
    stalls ++
      [{ phase := phase, start_line := pr.1.idx, end_line := pr.2.idx,
         gap_lines := pr.2.idx - pr.1.idx,
         last_milestone :=
           { kind := pr.1.kind, line := pr.1.idx, value := pr.1.value },
         confidence := 6 / 10 }]

/-- Stall detection from `triage/signals/stalls.py`: sort markers by index,
walk adjacent pairs, and flag large same-phase gaps. -/
def detect_stalls (markers : List Marker) (phases : List PhaseSpan)
    (gap_lines : Int := 5000) : List StallSignal :=
  if markers.length < 2 then []
  else
    ((sortMarkers markers).zip (sortMarkers markers).tail).foldl
      (stallStep phases gap_lines) []

/-- Claim-side description of one adjacent marker pair, following the spec's
words: a pair in the same phase bucket whose index gap strictly exceeds the
threshold yields exactly one stall anchored at the earlier marker with
confidence 0.6; any other pair yields nothing. -/
def stallSpec (phases : List PhaseSpan) (gap_lines : Int)
    (pr : Marker × Marker) : Option StallSignal :=
  if phaseForLine pr.1.idx phases = phaseForLine pr.2.idx phases ∧
      gap_lines < pr.2.idx - pr.1.idx then
    some { phase := phaseForLine pr.1.idx phases, start_line := pr.1.idx,
           end_line := pr.2.idx, gap_lines := pr.2.idx - pr.1.idx,
           last_milestone :=
             { kind := pr.1.kind, line := pr.1.idx, value := pr.1.value },
           confidence := 6 / 10 }
  else none

/-! Phase detection (`triage/phases.py`). Marker regexes are external
primitives, so the `_MARKERS` table is a parameter mapping each phase to its
`(pattern-search, is_strong)` list. -/

/-- A single log line with raw and normalized text (`triage/normalize.py`). -/
structure NormalizedLine where
  idx : Int
  raw : String
  text : String
deriving Repr, DecidableEq

/-- Known boot phases. -/
inductive Phase where
  | SEC
  | PEI
  | DXE
  | BDS
deriving Repr, DecidableEq

/-- Python `Phase.value`. -/
def Phase.value : Phase → String
  | .SEC => "SEC"
  | .PEI => "PEI"
  | .DXE => "DXE"
  | .BDS => "BDS"

/-- Abstract `_MARKERS` table: per phase, the compiled patterns (modelled as
search functions) with their strong flags. -/
abbrev MarkerTable := Phase → List ((String → Bool) × Bool)

/-- `_PHASE_ORDER`. -/
def phaseOrder : List Phase := [.SEC, .PEI, .DXE, .BDS]

/-- `_line_hits_phase`: returns `(matched, has_strong_match, total_matches)`. -/
def lineHitsPhase (tbl : MarkerTable) (text : String) (ph : Phase) :
    Bool × Bool × Nat :=
  let acc := (tbl ph).foldl
    (fun (a : Nat × Bool) m => if m.1 text then (a.1 + 1, a.2 || m.2) else a)
    (0, false)
  (decide (0 < acc.1), acc.2, acc.1)

/-- Accumulated per-phase hit data in the `phase_hits` dict. -/
structure PhaseHit where
  start_line : Int
  strong : Bool
  matchCount : Nat
deriving Repr, DecidableEq

/-- Update of `phase_hits` for one matched line: first hit inserts the entry
with the line index as `start_line`, later hits only accumulate the strong
flag and the match count. -/
def updateHits (hits : List (Phase × PhaseHit)) (ph : Phase) (idx : Int)
    (strong : Bool) (matchCount : Nat) : List (Phase × PhaseHit) :=
  match hits with
  | [] => [(ph, { start_line := idx, strong := strong,
                  matchCount := matchCount })]
  | (p, d) :: rest =>
      if p = ph then
        (p, { start_line := d.start_line, strong := d.strong || strong,
              matchCount := d.matchCount + matchCount }) :: rest
      else (p, d) :: updateHits rest ph idx strong matchCount

/-- Inner loop of `detect_phases` over `_PHASE_ORDER` with its `break`: the
first phase the line matches absorbs the line, later phases are not tried. -/
def recordLineGo (tbl : MarkerTable) (hits : List (Phase × PhaseHit))
    (line : NormalizedLine) : List Phase → List (Phase × PhaseHit)
  | [] => hits
  | ph :: rest =>
      let r := lineHitsPhase tbl line.text ph
      if r.1 then updateHits hits ph line.idx r.2.1 r.2.2
      else recordLineGo tbl hits line rest

/-- Processing of one line in `detect_phases`. -/
def recordLinePhases (tbl : MarkerTable) (hits : List (Phase × PhaseHit))
    (line : NormalizedLine) : List (Phase × PhaseHit) :=
  recordLineGo tbl hits line phaseOrder

/-- Python `sorted(phase_hits.items(), key=start_line)`: stable sort of the
insertion-ordered dict items. -/
def sortHits (hits : List (Phase × PhaseHit)) : List (Phase × PhaseHit) :=
  List.insertionSort (fun a b => a.2.start_line ≤ b.2.start_line) hits

/-- Confidence of a detected span: 0.95 base when a strong marker fired else
0.80, plus 0.03 per extra match, capped at 0.99, rounded to 2 decimals. -/
def hitConfidence (strong : Bool) (matchCount : Nat) : ℚ :=
  let base : ℚ := if strong then 95 / 100 else 8 / 10
  pyRound2
    (min (base + (max 0 ((matchCount : ℤ) - 1) : ℤ) * (3 / 100)) (99 / 100))

/-- Span construction over the sorted hits: each span ends one line before
the next span's start; the last span ends at `maxLine`. -/
def spansFrom (maxLine : Int) : List (Phase × PhaseHit) → List PhaseSpan
  | [] => []
  | [(ph, d)] =>
      [{ phase := ph.value, start_line := d.start_line, end_line := maxLine,
         confidence := hitConfidence d.strong d.matchCount }]
  | (ph, d) :: next :: rest =>
      { phase := ph.value, start_line := d.start_line,
        end_line := next.2.start_line - 1,
        confidence := hitConfidence d.strong d.matchCount } ::
        spansFrom maxLine (next :: rest)

/-- Phase detection from `triage/phases.py`. -/
def detect_phases (tbl : MarkerTable) (lines : List NormalizedLine) :
    List PhaseSpan :=
  let hits := lines.foldl (recordLinePhases tbl) []
  if hits.isEmpty then []
  else
    let maxLine := match lines.getLast? with
      | some l => l.idx
      | none => 0
    spansFrom maxLine (sortHits hits)

/-! Rule engine (`triage/rules/engine.py`) and fingerprinting
(`triage/fingerprint.py`). Regex search is modelled as the rule's
`pattern : String → Option groupdict`; `str.format` and `hashlib.sha256`
are the `fmt` and `hash` parameters of `run_rules`. -/

/-- Python truthiness of an optional string: present and non-empty. -/
def optTruthy : Option String → Bool
  | some s => s ≠ ""
  | none => false

/-- Substring test, Python `needle in hay` for a non-empty needle. -/
def strContains (hay needle : String) : Bool :=
  1 < (hay.splitOn needle).length

/-- Compiled rule (`Rule` dataclass). `pattern` models `re.search` on the
normalized text, returning the match's `groupdict()` in group declaration
order, `none` when the regex does not match. -/
structure Rule where
  id : String
  category : String
  subcategory : Option String
  severity : String
  base_confidence : ℚ
  pattern : String → Option (List (String × Option String))
  required_phase : Option String
  extracts : List (String × String)

/-- Top-level boot segment (`triage/phases.py` `Segment`). -/
structure Segment where
  segment_id : String
  start_line : Int
  end_line : Int
  phases : List PhaseSpan

/-- `_line_location`: first containing segment and first containing phase
span inside it. -/
def lineLocation (line_no : Int) (segments : List Segment) :
    Option String × Option String :=
  match segments.find?
      (fun s => decide (s.start_line ≤ line_no ∧ line_no ≤ s.end_line)) with
  | some seg =>
      match seg.phases.find?
          (fun p => decide (p.start_line ≤ line_no ∧ line_no ≤ p.end_line)) with
      | some span => (some seg.segment_id, some span.phase)
      | none => (some seg.segment_id, none)
  | none => (none, none)

/-- One evidence line entry `{idx, text}`. -/
structure EvidenceLine where
  idx : Int
  text : String
deriving Repr, DecidableEq

/-- Evidence window record; `lines` is present only when evidence line
payloads are included. -/
structure EvidenceWindow where
  ref : String
  kind : String
  start_line : Int
  end_line : Int
  lines : Option (List EvidenceLine)
deriving Repr, DecidableEq

/-- `_event_evidence`: one bounded context window around the hit line. -/
def eventEvidence (lines : List NormalizedLine) (hit_line : Int)
    (segment_id : String) (context_lines : Int) (include_lines : Bool) :
    List EvidenceWindow :=
  let start_line := max 1 (hit_line - context_lines)
  let end_line := min (lines.length : Int) (hit_line + context_lines)
  [{ ref := "log:" ++ segment_id ++ ":" ++ toString start_line ++ "-" ++
       toString end_line,
     kind := "context_window",
     start_line := start_line,
     end_line := end_line,
     lines :=
       if include_lines then
         some (((lines.drop (start_line - 1).toNat).take
            (end_line - start_line + 1).toNat).map
              (fun l => { idx := l.idx, text := l.text }))
       else none }]

/-- The `where` payload of an event: segment, hit line range, optional
phase, and the `other_lines` list that exists only after a duplicate. -/
structure WhereLoc where
  segment_id : String
  lineStart : Int
  lineEnd : Int
  phase : Option String
  other_lines : Option (List Int)
deriving Repr, DecidableEq

/-- One `rule_hits` entry. -/
structure RuleHit where
  rule_id : String
  weight : ℚ
  match_confidence : ℚ
deriving Repr, DecidableEq

/-- Fingerprint payload from `stable_event_fingerprint`. -/
structure Fingerprint where
  stable_key : String
  dedupe_group : String
deriving Repr, DecidableEq

/-- Event record emitted by the deterministic rules. -/
structure Event where
  event_id : String
  category : String
  subcategory : Option String
  severity : String
  confidence : ℚ
  boot_blocking : Bool
  whereLoc : WhereLoc
  extracted : List (String × String)
  rule_hits : List RuleHit
  fingerprint : Fingerprint
  occurrences : Nat
  evidence : List EvidenceWindow
  hit_text : String
deriving Repr, DecidableEq

/-- Canonical fingerprint string: the six dedup fields joined with `"|"`
(`stable_event_fingerprint`'s `canonical`). -/
def canonicalOf (category severity hit_text : String)
    (extracted : List (String × String)) : String :=
  String.intercalate "|"
    [category, severity, hit_text,
     (alLookup extracted "module").getD "",
     (alLookup extracted "file").getD "",
     (alLookup extracted "line").getD ""]

/-- `stable_event_fingerprint` with the sha-256 hex digest abstracted as
`hash`. -/
def stable_event_fingerprint (hash : String → String)
    (category severity : String) (extracted : List (String × String))
    (hit_text : String) : Fingerprint :=
  let stable_key := hash (canonicalOf category severity hit_text extracted)
  let hp := stable_key.take 12
  let dedupe_group :=
    if strContains category "assert" then
      if optTruthy (alLookup extracted "module") &&
          optTruthy (alLookup extracted "file") &&
          optTruthy (alLookup extracted "line") then
        "assert:" ++ (alLookup extracted "module").getD "" ++ ":" ++
          (alLookup extracted "file").getD "" ++ ":" ++
          (alLookup extracted "line").getD ""
      else "assert:" ++ hp
    else if strContains category "watchdog" then "watchdog:" ++ hp
    else if strContains category "reset" then
      if optTruthy (alLookup extracted "cause") then
        "reset:" ++ (alLookup extracted "cause").getD ""
      else "reset:" ++ hp
    else (if category = "" then "event" else category) ++ ":" ++ hp
  { stable_key := stable_key, dedupe_group := dedupe_group }

/-- The `extracts` loop of `run_rules`: aliases copy a captured group, other
values go through `str.format` over the captured groups, falling back to the
literal template on a missing key (`fmt` returns `none` for `KeyError`). -/
def applyExtracts (fmt : String → List (String × String) → Option String)
    (group_values : List (String × String)) :
    List (String × String) → List (String × String) → List (String × String)
  | extracted, [] => extracted
  | extracted, (key, value) :: rest =>
      if alHasKey extracted key then
        applyExtracts fmt group_values extracted rest
      else
        match alLookup group_values value with
        | some v => applyExtracts fmt group_values (alSet extracted key v) rest
        | none =>
            match fmt value group_values with
            | some s =>
                applyExtracts fmt group_values (alSet extracted key s) rest
            | none =>
                applyExtracts fmt group_values (alSet extracted key value) rest

/-- The `memory.mrc`/`spd_addr_zero` special-case normalization of
`run_rules` (engine.py lines 147-153): derive `spd_addr` and `slot` when all
of `mc`, `ch`, `dimm`, `spd` were extracted. -/
def applyMrcSpecial (rule : Rule) (extracted : List (String × String)) :
    List (String × String) :=
  if rule.category = "memory.mrc" ∧ rule.subcategory = some "spd_addr_zero" ∧
      alHasKey extracted "mc" ∧ alHasKey extracted "ch" ∧
      alHasKey extracted "dimm" ∧ alHasKey extracted "spd" then
    let e1 := alSet extracted "spd_addr"
      ("0x" ++ (alLookup extracted "spd").getD "")
    alSet e1 "slot"
      ("MC" ++ (alLookup e1 "mc").getD "" ++ "_C" ++
        (alLookup e1 "ch").getD "" ++ "_D" ++ (alLookup e1 "dimm").getD "")
  else extracted

/-- Hexadecimal digit test for the `_BDF_PATTERN` character classes. -/
def isHexChar (c : Char) : Bool :=
  c.isDigit || (Char.ofNat 97 ≤ c && c ≤ Char.ofNat 102) ||
    (Char.ofNat 65 ≤ c && c ≤ Char.ofNat 70)

/-- Fixed-length all-hex string test. -/
def isHexStr (s : String) (n : Nat) : Bool :=
  s.length = n && s.toList.all isHexChar

/-- Anchored `_BDF_PATTERN.match`: `[domain:]bus:dev.func` with hex fields
and `func` in `0`..`7`; the missing domain defaults to `"0000"` as in the
`or "0000"` of the source. -/
def bdfParse (s : String) : Option (String × String × String × String) :=
  let checkTail := fun (domain bus df : String) =>
    match df.splitOn "." with
    | [dev, func] =>
        if isHexStr bus 2 && isHexStr dev 2 && func.length = 1 &&
            func.toList.all (fun c => Char.ofNat 48 ≤ c && c ≤ Char.ofNat 55)
        then some (domain, bus, dev, func)
        else none
    | _ => none
  match s.splitOn ":" with
  | [bus, df] => checkTail "0000" bus df
  | [domain, bus, df] =>
      if isHexStr domain 4 then checkTail domain bus df else none
  | _ => none

/-- The `bdf` normalization of `run_rules` (engine.py lines 155-162):
canonical lower-case `domain:bus:dev.func` in `bdf_norm`. -/
def applyBdfSpecial (extracted : List (String × String)) :
    List (String × String) :=
  if alHasKey extracted "bdf" && !alHasKey extracted "bdf_norm" then
    match bdfParse ((alLookup extracted "bdf").getD "") with
    | some (domain, bus, dev, func) =>
        alSet extracted "bdf_norm"
          (domain.toLower ++ ":" ++ bus.toLower ++ ":" ++ dev.toLower ++
            "." ++ func)
    | none => extracted
  else extracted

mutual

/-- Scanner for the plain-placeholder fragment of Python `str.format`:
literal text, `\x7b\x7b`/`\x7d\x7d` escapes, and `\x7bname\x7d`
substitution; `none` models the `KeyError` (or malformed template) failure
that `run_rules` catches. -/
def fmtScan (vals : List (String × String)) : List Char → Option String
  | [] => some ""
  | c :: rest =>
      if c = Char.ofNat 123 then
        match rest with
        | [] => none
        | c2 :: rest2 =>
            if c2 = Char.ofNat 123 then
              (fmtScan vals rest2).map (fun s => "\x7b" ++ s)
            else fmtName vals "" (c2 :: rest2)
      else if c = Char.ofNat 125 then
        match rest with
        | [] => none
        | c2 :: rest2 =>
            if c2 = Char.ofNat 125 then
              (fmtScan vals rest2).map (fun s => "\x7d" ++ s)
            else none
      else (fmtScan vals rest).map (fun s => String.singleton c ++ s)

/-- Name accumulation inside a `\x7bname\x7d` placeholder. -/
def fmtName (vals : List (String × String)) (acc : String) :
    List Char → Option String
  | [] => none
  | c :: rest =>
      if c = Char.ofNat 125 then
        match alLookup vals acc with
        | some v => (fmtScan vals rest).map (fun s => v ++ s)
        | none => none
      else fmtName vals (acc.push c) rest

end

/-- Concrete `str.format(**group_values)` model used as the `fmt` argument
in evaluated runs. -/
def pyFormat (tmpl : String) (vals : List (String × String)) :
    Option String :=
  fmtScan vals tmpl.toList

/-- Everything `run_rules` computes for one `(line, rule)` pair before the
dedup decision. -/
structure MatchInfo where
  lineIdx : Int
  hit_text : String
  category : String
  subcategory : Option String
  severity : String
  confidence : ℚ
  rule_id : String
  boot_blocking : Bool
  whereLoc : WhereLoc
  extracted : List (String × String)
  evidence : List EvidenceWindow
deriving Repr, DecidableEq

/-- Canonical fingerprint string of a match. -/
def MatchInfo.canonical (m : MatchInfo) : String :=
  canonicalOf m.category m.severity m.hit_text m.extracted

/-- Fingerprint of a match. -/
def MatchInfo.fp (hash : String → String) (m : MatchInfo) : Fingerprint :=
  stable_event_fingerprint hash m.category m.severity m.extracted m.hit_text

/-- The per-`(line, rule)` body of `run_rules` up to the dedup decision:
required-phase gate, regex search, confidence boost and rounding, extraction
with the special-case normalizations, `where` payload, and evidence window.
Returns `none` when the rule is skipped or does not match. -/
def ruleMatch? (fmt : String → List (String × String) → Option String)
    (lines : List NormalizedLine) (segments : List Segment)
    (context_lines : Int) (include_evidence_lines : Bool)
    (line : NormalizedLine) (rule : Rule) : Option MatchInfo :=
  let loc := lineLocation line.idx segments
  let segment_id := loc.1
  let phase := loc.2
  let resolved_segment :=
    match segment_id with
    | some s => if s = "" then "seg-unknown" else s
    | none => "seg-unknown"
  if optTruthy rule.required_phase ∧ phase ≠ rule.required_phase then none
  else
    match rule.pattern line.text with
    | none => none
    | some groups =>
        let confidence0 := rule.base_confidence
        let confidence1 :=
          if optTruthy rule.required_phase ∧ phase = rule.required_phase then
            min (confidence0 + 3 / 100) (99 / 100)
          else confidence0
        let confidence := pyRound2 confidence1
        let group_values :=
          groups.filterMap (fun p => p.2.map (fun v => (p.1, v)))
        let extracted0 := group_values
        let extracted1 :=
          if rule.extracts.isEmpty then extracted0
          else applyExtracts fmt group_values extracted0 rule.extracts
        let extracted2 := applyMrcSpecial rule extracted1
        let extracted := applyBdfSpecial extracted2
        some
          { lineIdx := line.idx, hit_text := line.text,
            category := rule.category, subcategory := rule.subcategory,
            severity := rule.severity, confidence := confidence,
            rule_id := rule.id,
            boot_blocking := rule.severity = "fatal",
            whereLoc :=
              { segment_id := resolved_segment, lineStart := line.idx,
                lineEnd := line.idx, phase := phase, other_lines := none },
            extracted := extracted,
            evidence := eventEvidence lines line.idx resolved_segment
              context_lines include_evidence_lines }

/-- The evaluation-order stream of all matches of the run, lines outer,
rules inner (the claim's "all regex matches"). -/
def matchStream (fmt : String → List (String × String) → Option String)
    (lines : List NormalizedLine) (segments : List Segment)
    (context_lines : Int) (include_evidence_lines : Bool)
    (rules : List Rule) : List MatchInfo :=
  lines.flatMap (fun line =>
    rules.filterMap
      (ruleMatch? fmt lines segments context_lines include_evidence_lines
        line))

/-- New event allocation for a first-seen fingerprint, at position `n` of
the deduped list (`event_id = "evt-" ++ (n+1)`). -/
def buildEvent (m : MatchInfo) (fp : Fingerprint) (n : Nat) : Event :=
  { event_id := "evt-" ++ toString (n + 1), category := m.category,
    subcategory := m.subcategory, severity := m.severity,
    confidence := m.confidence, boot_blocking := m.boot_blocking,
    whereLoc := m.whereLoc, extracted := m.extracted,
    rule_hits :=
      [{ rule_id := m.rule_id, weight := 1, match_confidence := m.confidence }],
    fingerprint := fp, occurrences := 1, evidence := m.evidence,
    hit_text := m.hit_text }

/-- The dedup hit: increment `occurrences` and append the line index to the
`where["other_lines"]` list created on first duplicate (`setdefault`). -/
def bumpEvent (e : Event) (idx : Int) : Event :=
  { e with occurrences := e.occurrences + 1,
           whereLoc :=
             { e.whereLoc with
               other_lines :=
                 some ((e.whereLoc.other_lines.getD []) ++ [idx]) } }

/-- Engine state of one `run_rules` call: the deduped event list and the
`stable_key -> slot` index. -/
structure RunState where
  deduped : List Event
  index : List (String × Nat)
deriving Repr, DecidableEq

/-- Dedup decision for one match: duplicates mutate the indexed event in
place, first occurrences append a fresh event and index entry. -/
def dedupStep (hash : String → String) (st : RunState) (m : MatchInfo) :
    RunState :=
  let fp := m.fp hash
  match alLookup st.index fp.stable_key with
  | some i =>
      { st with
        deduped := st.deduped.modify (fun e => bumpEvent e m.lineIdx) i }
  | none =>
      { deduped := st.deduped ++ [buildEvent m fp st.deduped.length],
        index := st.index ++ [(fp.stable_key, st.deduped.length)] }

/-- Body of the `run_rules` double loop for one `(line, rule)` pair. -/
def processRule (hash : String → String)
    (fmt : String → List (String × String) → Option String)
    (lines : List NormalizedLine) (segments : List Segment)
    (context_lines : Int) (include_evidence_lines : Bool)
    (line : NormalizedLine) (st : RunState) (rule : Rule) : RunState :=
  match ruleMatch? fmt lines segments context_lines include_evidence_lines
      line rule with
  | none => st
  | some m => dedupStep hash st m

/-- `run_rules` from `triage/rules/engine.py`: run single-line rules and
emit de-duplicated events. -/
def run_rules (hash : String → String)
    (fmt : String → List (String × String) → Option String)
    (lines : List NormalizedLine) (segments : List Segment)
    (rules : List Rule) (context_lines : Int := 20)
    (include_evidence_lines : Bool := true) : List Event :=
  (lines.foldl
    (fun st line =>
      rules.foldl
        (processRule hash fmt lines segments context_lines
          include_evidence_lines line) st)
    { deduped := [], index := [] }).deduped

/-- First-seen canonical fingerprint strings of a match stream, in order of
first occurrence. -/
def firstKeys (ms : List MatchInfo) : List String :=
  ms.foldl
    (fun acc m => if m.canonical ∈ acc then acc else acc ++ [m.canonical]) []

/-- Claim-side description of the single event a canonical group produces:
built from the group's first match (its evidence, hit text and location are
never replaced), with `occurrences` equal to the group size, `other_lines`
listing every later matching line index (absent when the group has one
member), and the sequential id `evt-(j+1)` of its first-seen position. -/
def specEvent (hash : String → String) (grp : List MatchInfo) (j : Nat) :
    Option Event :=
  grp.head?.map (fun m0 =>
    { buildEvent m0 (m0.fp hash) j with
        occurrences := grp.length,
        whereLoc :=
          { m0.whereLoc with
            other_lines :=
              if grp.length ≤ 1 then none
              else some ((grp.drop 1).map (fun m => m.lineIdx)) } })

/-- One spec event per first-seen canonical key, with sequential positions
starting at `n`. -/
def specList (hash : String → String) (ms : List MatchInfo) (n : Nat) :
    List String → List (Option Event)
  | [] => []
  | c :: rest =>
      specEvent hash (ms.filter (fun m => m.canonical = c)) n ::
        specList hash ms (n + 1) rest

/-- The dedup index a run must hold: the hash of each first-seen canonical
key mapped to its slot, slots numbered from `n`. -/
def specIndexFrom (hash : String → String) (n : Nat) :
    List String → List (String × Nat)
  | [] => []
  | c :: rest => (hash c, n) :: specIndexFrom hash (n + 1) rest

/-- Example rule matching only the line `"T|M"`, capturing nothing. -/
def exRuleA : Rule :=
  { id := "r1", category := "c", subcategory := none, severity := "s",
    base_confidence := 1 / 2,
    pattern := (fun t => if t = "T|M" then some [] else none),
    required_phase := none, extracts := [] }

/-- Example rule matching only the line `"T"`, with a literal extract that
sets `module` to `"M|"`. -/
def exRuleB : Rule :=
  { id := "r2", category := "c", subcategory := none, severity := "s",
    base_confidence := 1 / 2,
    pattern := (fun t => if t = "T" then some [] else none),
    required_phase := none, extracts := [("module", "M|")] }

/-- Two-line log for the fingerprint collision example. -/
def exLines : List NormalizedLine :=
  [{ idx := 1, raw := "T|M", text := "T|M" },
   { idx := 2, raw := "T", text := "T" }]

/-- Example `memory.mrc` rule without the `spd_addr_zero` subcategory whose
pattern captures `mc`, `ch`, `dimm` and `spd`. -/
def mrcExRule : Rule :=
  { id := "mrc1", category := "memory.mrc", subcategory := none,
    severity := "high", base_confidence := 1 / 2,
    pattern := (fun t =>
      if t = "SPD zero" then
        some [("mc", some "0"), ("ch", some "1"), ("dimm", some "2"),
              ("spd", some "a0")]
      else none),
    required_phase := none, extracts := [] }

/-! LLM payload repair (`triage/llm/repair.py`, `triage/llm/repair_facts.py`)
and the strict contract validators of `triage/cli.py`
(`_validate_llm_synthesis`, `_validate_llm_facts`). Python float parsing of
strings is the abstract `sf` parameter of the facts repair. -/

/-- Python whitespace characters recognized by `str.strip()` (ASCII). -/
def pyWs (c : Char) : Bool :=
  c = ' ' || c = '\t' || c = '\n' || c = '\r' || c = '\x0b' || c = '\x0c'

/-- Python `str.strip()`. -/
def pyStrip (s : String) : String :=
  String.mk (((s.toList.dropWhile pyWs).reverse.dropWhile pyWs).reverse)

/-- Python `s[:n]` on a string: the first `n` characters. -/
def pyTake (s : String) (n : Nat) : String :=
  String.mk (s.toList.take n)

/-- Python `float(value)` over payload values: numbers pass through, bools
coerce, strings go through the abstract parser `sf`, everything else raises
(`none`). -/
def pyFloat? (sf : String → Option ℚ) : Json → Option ℚ
  | .num q => some q
  | .bool b => some (if b then 1 else 0)
  | .str s => sf s
  | _ => none

/-- The `isinstance(x, str)` list comprehensions of both repair modules:
keep string elements, drop everything else. -/
def strProj : Json → Option String
  | .str s => some s
  | _ => none

/-- `_clamp` from `repair_facts.py`: parse failure yields the default,
otherwise clamp into `[0, 1]`. -/
def clampConf (sf : String → Option ℚ) (value : Option Json) (default : ℚ) :
    ℚ :=
  match value with
  | none => default
  | some v =>
      match pyFloat? sf v with
      | none => default
      | some q => if q < 0 then 0 else if 1 < q then 1 else q

/-- One facts entry of `repair_llm_facts`: non-dict entries, entries without
a non-empty `fact` string, and entries without at least one string
`supporting_event_ids` element are dropped; kept entries are rebuilt with a
clamped confidence. -/
def repairFactItem (sf : String → Option ℚ) (item : Json) : Option Json :=
  match item with
  | .obj fields =>
      match alLookup fields "fact" with
      | some (.str fact_text) =>
          if pyStrip fact_text = "" then none
          else
            match alLookup fields "supporting_event_ids" with
            | some (.arr ids) =>
                if ids.isEmpty then none
                else
                  let cleaned := ids.filterMap strProj
                  if cleaned.isEmpty then none
                  else
                    some (.obj
                      [("fact", .str fact_text),
                       ("supporting_event_ids",
                         .arr (cleaned.map Json.str)),
                       ("confidence",
                         .num (clampConf sf (alLookup fields "confidence")
                           (3 / 10)))])
            | _ => none
      | _ => none
  | _ => none

/-- `repair_llm_facts`: clamp the grounding confidence and rebuild the facts
list, dropping malformed entries. -/
def repair_llm_facts (sf : String → Option ℚ) (candidate : Json) : Json :=
  let repaired := if candidate.isObj then candidate.fieldsOf else []
  let repaired := alSet repaired "overall_grounding_confidence"
    (.num (clampConf sf (alLookup repaired "overall_grounding_confidence")
      (1 / 5)))
  let facts :=
    match alLookup repaired "facts" with
    | some (.arr l) => l
    | _ => []
  .obj (alSet repaired "facts"
    (.arr (facts.filterMap (repairFactItem sf))))

/-- `_action_from_string`: wrap a bare string into a minimal action citing
the best event id. -/
def actionFromString (text : String) (best : String) : Json :=
  .obj [("action", .str (pyTake text 300)),
        ("priority", .str "P1"),
        ("expected_signal", .str "Observe logs/behavior change after action."),
        ("supporting_event_ids", .arr [.str best])]

/-- `_repair_action_item`: strings are wrapped, dicts without a non-empty
`action` string are dropped, bad priorities and signals are defaulted, and
missing or empty supporting ids are replaced by the best event id. -/
def repairActionItem (item : Json) (best : String) : Option Json :=
  match item with
  | .str s =>
      if pyStrip s = "" then none
      else some (actionFromString (pyStrip s) best)
  | .obj fields =>
      match alLookup fields "action" with
      | some (.str action) =>
          if pyStrip action = "" then none
          else
            let priority :=
              match alLookup fields "priority" with
              | some (.str p) =>
                  if p = "P0" || p = "P1" || p = "P2" then p else "P1"
              | _ => "P1"
            let expected_signal :=
              match alLookup fields "expected_signal" with
              | some (.str e) =>
                  if pyStrip e = "" then
                    "Observe logs/behavior change after action."
                  else e
              | _ => "Observe logs/behavior change after action."
            let ids :=
              match alLookup fields "supporting_event_ids" with
              | some (.arr l) =>
                  if l.isEmpty then [best]
                  else
                    let cleaned := l.filterMap strProj
                    if cleaned.isEmpty then [best] else cleaned
              | _ => [best]
            some (.obj
              [("action", .str (pyTake (pyStrip action) 300)),
               ("priority", .str priority),
               ("expected_signal", .str (pyTake (pyStrip expected_signal) 300)),
               ("supporting_event_ids", .arr (ids.map Json.str))])
      | _ => none
  | _ => none

/-- One `root_cause_hypotheses` entry: strings become minimal hypothesis
objects, dicts get their `next_actions` list repaired in place, anything
else passes through. -/
def repairHypItem (best : String) (item : Json) : Json :=
  match item with
  | .str s =>
      .obj [("title", .str (pyTake s 200)),
            ("confidence", .num (3 / 10)),
            ("supporting_event_ids", .arr [.str best]),
            ("reasoning", .str s),
            ("next_actions", .arr [])]
  | .obj fields =>
      match alLookup fields "next_actions" with
      | some (.arr acts) =>
          .obj (alSet fields "next_actions"
            (.arr (acts.filterMap (fun a => repairActionItem a best))))
      | _ => .obj fields
  | other => other

/-- One `missing_evidence` entry: strings become minimal need objects,
anything else passes through. -/
def repairMissingItem (best : String) (item : Json) : Json :=
  match item with
  | .str s =>
      .obj [("need", .str (pyTake s 200)),
            ("why", .str "Model returned narrative text; structured fields missing."),
            ("how", .str "Collect targeted logs/telemetry; rerun triage."),
            ("priority", .str "medium"),
            ("supporting_event_ids", .arr [.str best])]
  | other => other

/-- The `if key not in repaired: repaired[key] = default` statements of
`repair_llm_synthesis`. -/
def fillKey (r : List (String × Json)) (k : String) (v : Json) :
    List (String × Json) :=
  if alHasKey r k then r else alSet r k v

/-- The `if isinstance(section, list): repaired[key] = rebuilt` statements
of `repair_llm_synthesis`: list-valued sections are rebuilt in place, other
values are left untouched. -/
def mapListKey (r : List (String × Json)) (k : String)
    (f : List Json → List Json) : List (String × Json) :=
  match alLookup r k with
  | some (.arr items) => alSet r k (.arr (f items))
  | _ => r

/-- `repair_llm_synthesis` over the candidate dict's fields: fill missing
required keys with defaults, then reshape the three list-valued sections. -/
def repair_llm_synthesis (candidate : List (String × Json)) (best : String) :
    List (String × Json) :=
  let r := candidate
  let r := fillKey r "overall_confidence" (.num (1 / 5))
  let r := fillKey r "executive_summary" (.str "")
  let r := fillKey r "root_cause_hypotheses" (.arr [])
  let r := fillKey r "recommended_next_actions" (.arr [])
  let r := fillKey r "missing_evidence" (.arr [])
  let r := mapListKey r "root_cause_hypotheses"
    (List.map (repairHypItem best))
  let r := mapListKey r "recommended_next_actions"
    (List.filterMap (fun a => repairActionItem a best))
  let r := mapListKey r "missing_evidence" (List.map (repairMissingItem best))
  r

/-- A string value with a jsonschema length range. -/
def strOk (j : Json) (lo hi : Nat) : Bool :=
  match j with
  | .str s => lo ≤ s.length && s.length ≤ hi
  | _ => false

/-- A number value in `[0, 1]` (jsonschema `number` excludes booleans). -/
def numOk01 (j : Json) : Bool :=
  match j with
  | .num q => 0 ≤ q && q ≤ 1
  | _ => false

/-- Whether a value is a string. -/
def Json.isStr : Json → Bool
  | .str _ => true
  | _ => false

/-- A `supporting_event_ids` value: array of strings with at least one. -/
def idsOk (j : Json) : Bool :=
  match j with
  | .arr l => !l.isEmpty && l.all Json.isStr
  | _ => false

/-- An action object of the synthesis contract. -/
def validAction (j : Json) : Bool :=
  match j with
  | .obj fields =>
      (fields.map Prod.fst).all
        (fun k => k = "action" || k = "priority" || k = "expected_signal" ||
          k = "supporting_event_ids") &&
      (match alLookup fields "action" with
       | some v => strOk v 1 300
       | none => false) &&
      (match alLookup fields "priority" with
       | some (.str p) => p = "P0" || p = "P1" || p = "P2"
       | _ => false) &&
      (match alLookup fields "expected_signal" with
       | some v => strOk v 1 300
       | none => false) &&
      (match alLookup fields "supporting_event_ids" with
       | some v => idsOk v
       | none => false)
  | _ => false

/-- A hypothesis object of the synthesis contract. -/
def validHypothesis (j : Json) : Bool :=
  match j with
  | .obj fields =>
      (fields.map Prod.fst).all
        (fun k => k = "title" || k = "confidence" ||
          k = "supporting_event_ids" || k = "reasoning" ||
          k = "next_actions") &&
      (match alLookup fields "title" with
       | some v => strOk v 1 200
       | none => false) &&
      (match alLookup fields "confidence" with
       | some v => numOk01 v
       | none => false) &&
      (match alLookup fields "supporting_event_ids" with
       | some v => idsOk v
       | none => false) &&
      (match alLookup fields "reasoning" with
       | some v => strOk v 1 2000
       | none => false) &&
      (match alLookup fields "next_actions" with
       | some (.arr l) => l.length ≤ 8 && l.all validAction
       | _ => false)
  | _ => false

/-- A missing-evidence object of the synthesis contract. -/
def validMissing (j : Json) : Bool :=
  match j with
  | .obj fields =>
      (fields.map Prod.fst).all
        (fun k => k = "need" || k = "why" || k = "how" || k = "priority" ||
          k = "supporting_event_ids") &&
      (match alLookup fields "need" with
       | some v => strOk v 1 200
       | none => false) &&
      (match alLookup fields "why" with
       | some v => strOk v 1 300
       | none => false) &&
      (match alLookup fields "how" with
       | some v => strOk v 1 300
       | none => false) &&
      (match alLookup fields "priority" with
       | some (.str p) => p = "high" || p = "medium" || p = "low"
       | _ => false) &&
      (match alLookup fields "supporting_event_ids" with
       | some v => idsOk v
       | none => false)
  | _ => false

/-- The `_validate_llm_synthesis` contract of `triage/cli.py` as a decidable
check: required keys, no extra top-level keys beyond `model_info` and
`errors`, and the nested shape constraints of the schema literal. -/
def validateSynthesis (j : Json) : Bool :=
  match j with
  | .obj fields =>
      (fields.map Prod.fst).all
        (fun k => k = "model_info" || k = "overall_confidence" ||
          k = "executive_summary" || k = "root_cause_hypotheses" ||
          k = "recommended_next_actions" || k = "missing_evidence" ||
          k = "errors") &&
      (match alLookup fields "overall_confidence" with
       | some v => numOk01 v
       | none => false) &&
      (match alLookup fields "executive_summary" with
       | some v => strOk v 1 2000
       | none => false) &&
      (match alLookup fields "root_cause_hypotheses" with
       | some (.arr l) => l.length ≤ 5 && l.all validHypothesis
       | _ => false) &&
      (match alLookup fields "recommended_next_actions" with
       | some (.arr l) => l.length ≤ 10 && l.all validAction
       | _ => false) &&
      (match alLookup fields "missing_evidence" with
       | some (.arr l) => l.length ≤ 10 && l.all validMissing
       | _ => false) &&
      (match alLookup fields "model_info" with
       | some v => v.isObj
       | none => true) &&
      (match alLookup fields "errors" with
       | some (.arr l) => l.all Json.isObj
       | some _ => false
       | none => true)
  | _ => false

/-- A facts entry of the facts contract. -/
def validFact (j : Json) : Bool :=
  match j with
  | .obj fields =>
      (fields.map Prod.fst).all
        (fun k => k = "fact" || k = "supporting_event_ids" ||
          k = "confidence") &&
      (match alLookup fields "fact" with
       | some v => strOk v 1 300
       | none => false) &&
      (match alLookup fields "supporting_event_ids" with
       | some v => idsOk v
       | none => false) &&
      (match alLookup fields "confidence" with
       | some v => numOk01 v
       | none => false)
  | _ => false

/-- The `_validate_llm_facts` contract of `triage/cli.py` as a decidable
check. -/
def validateFacts (j : Json) : Bool :=
  match j with
  | .obj fields =>
      (fields.map Prod.fst).all
        (fun k => k = "overall_grounding_confidence" || k = "facts" ||
          k = "errors") &&
      (match alLookup fields "overall_grounding_confidence" with
       | some v => numOk01 v
       | none => false) &&
      (match alLookup fields "facts" with
       | some (.arr l) => l.length ≤ 60 && l.all validFact
       | _ => false) &&
      (match alLookup fields "errors" with
       | some (.arr l) => l.all Json.isObj
       | some _ => false
       | none => true)
  | _ => false

mutual

/-- Well-formed payload values: every dict, at any depth, has distinct keys,
as Python dicts guarantee. -/
def Json.wf : Json → Bool
  | .null => true
  | .bool _ => true
  | .num _ => true
  | .str _ => true
  | .arr l => Json.wfList l
  | .obj fields =>
      (fields.map Prod.fst).Nodup && Json.wfFields fields

/-- Well-formedness of list elements. -/
def Json.wfList : List Json → Bool
  | [] => true
  | x :: xs => Json.wf x && Json.wfList xs

/-- Well-formedness of dict values. -/
def Json.wfFields : List (String × Json) → Bool
  | [] => true
  | (_, v) :: rest => Json.wf v && Json.wfFields rest

end

/-- Example synthesis candidate with an out-of-range confidence and an
action entry that has text but no supporting event ids. -/
def synClampExample : List (String × Json) :=
  [("overall_confidence", .num 5),
   ("executive_summary", .str "s"),
   ("root_cause_hypotheses", .arr []),
   ("recommended_next_actions", .arr
     [.obj [("action", .str "do x"), ("priority", .str "P0"),
            ("expected_signal", .str "watch")]]),
   ("missing_evidence", .arr [])]

/-- An action entry whose `action` and `expected_signal` strings are
already whitespace-stripped. -/
def strippedAction (j : Json) : Bool :=
  match j with
  | .obj fields =>
      (match alLookup fields "action" with
       | some (.str a) => pyStrip a = a
       | _ => true) &&
      (match alLookup fields "expected_signal" with
       | some (.str e) => pyStrip e = e
       | _ => true)
  | _ => true

/-- A hypothesis entry whose nested action entries are all
whitespace-stripped. -/
def strippedHyp (j : Json) : Bool :=
  match j with
  | .obj hf =>
      match alLookup hf "next_actions" with
      | some (.arr acts) => acts.all strippedAction
      | _ => true
  | _ => true

/-- A synthesis payload whose action entries (top level and inside
hypotheses) are all whitespace-stripped. -/
def strippedSyn (j : Json) : Bool :=
  match j with
  | .obj fields =>
      (match alLookup fields "recommended_next_actions" with
       | some (.arr l) => l.all strippedAction
       | _ => true) &&
      (match alLookup fields "root_cause_hypotheses" with
       | some (.arr l) => l.all strippedHyp
       | _ => true)
  | _ => true

/-- A facts entry whose `fact` text does not strip to the empty string. -/
def nonBlankFactText (j : Json) : Bool :=
  match j with
  | .obj fs =>
      match alLookup fs "fact" with
      | some (.str t) => !(pyStrip t == "")
      | _ => true
  | _ => true

/-- A facts payload none of whose fact entries has whitespace-only text. -/
def strippedFacts (j : Json) : Bool :=
  match j with
  | .obj fields =>
      match alLookup fields "facts" with
      | some (.arr l) => l.all nonBlankFactText
      | _ => true
  | _ => true

/-- Example synthesis payload that passes validation but whose action text
carries surrounding whitespace. -/
def synValidPadded : List (String × Json) :=
  [("overall_confidence", .num 1),
   ("executive_summary", .str "s"),
   ("root_cause_hypotheses", .arr []),
   ("recommended_next_actions", .arr
     [.obj [("action", .str " a "), ("priority", .str "P1"),
            ("expected_signal", .str "w"),
            ("supporting_event_ids", .arr [.str "evt-1"])]]),
   ("missing_evidence", .arr [])]

/-- Example valid synthesis payload whose strings are already stripped. -/
def synIdExample : List (String × Json) :=
  [("overall_confidence", .num 1),
   ("executive_summary", .str "s"),
   ("root_cause_hypotheses", .arr []),
   ("recommended_next_actions", .arr
     [.obj [("action", .str "a"), ("priority", .str "P1"),
            ("expected_signal", .str "w"),
            ("supporting_event_ids", .arr [.str "e1"])]]),
   ("missing_evidence", .arr [])]

/-- Example valid facts payload with non-blank fact text. -/
def factsIdExample : Json :=
  .obj [("overall_grounding_confidence", .num 1),
        ("facts", .arr
          [.obj [("fact", .str "f"),
                 ("supporting_event_ids", .arr [.str "e1"]),
                 ("confidence", .num 0)]])]

/-! Evidence-pack construction (`triage/llm/evidence_pack.py`). Machine
numbers are a single rational type: Python's `int`/`float` distinction is
modelled by integrality of the rational (`isIntLike`), and `str()` of an
arbitrary value, `float(s)`, `int(s)` and number rendering in `json.dumps`
are the abstract parameters `ps`, `sf`, `si` and `ns`. A `none` result
models a raised exception. -/

/-- ASCII lowercasing, `str.lower()` on the severity names used here. -/
def pyLower (s : String) : String :=
  String.map Char.toLower s

/-- Python `int()` of a number: truncation toward zero. -/
def pyInt (q : ℚ) : ℤ :=
  if q < 0 then ⌈q⌉ else ⌊q⌋

/-- `isinstance(x, int)` in this model: bools count, and integral rationals
stand for Python ints. -/
def isIntLike : Json → Bool
  | .num q => q.den = 1
  | .bool _ => true
  | _ => false

/-- Python truthiness of a payload value. -/
def jsonTruthy : Json → Bool
  | .null => false
  | .bool b => b
  | .num q => q ≠ 0
  | .str s => s ≠ ""
  | .arr l => !l.isEmpty
  | .obj f => !f.isEmpty

/-- Python `int(x)` over payload values: `si` parses strings, non-numbers
raise. -/
def pyIntOf (si : String → Option ℤ) : Json → Option ℤ
  | .num q => some (pyInt q)
  | .bool b => some (if b then 1 else 0)
  | .str s => si s
  | _ => none

/-- `_SEVERITY_SCORES.get(severity, 0)`. -/
def sevScoreOf (s : String) : ℤ :=
  if s = "fatal" then 100
  else if s = "high" then 60
  else if s = "medium" then 30
  else if s = "low" then 10
  else if s = "info" then 1
  else 0

/-- `_event_rank_score`: explicit numeric scores pass through `int()`,
otherwise severity points plus the rounded confidence bonus; boot-blocking
adds 1000. `none` models `float()` raising. -/
def event_rank_score (ps : Json → String) (sf : String → Option ℚ)
    (event : List (String × Json)) : Option ℤ :=
  let base : Option ℤ :=
    match alLookup event "score" with
    | some (.num q) => some (pyInt q)
    | some (.bool b) => some (if b then 1 else 0)
    | _ =>
        let severity := pyLower
          (match alLookup event "severity" with
           | some v => ps v
           | none => "")
        match
          (match alLookup event "confidence" with
           | some v => pyFloat? sf v
           | none => some 0) with
        | none => none
        | some conf => some (sevScoreOf severity + pyRound (conf * 20))
  match base with
  | none => none
  | some score =>
      if (match alLookup event "boot_blocking" with
          | some v => jsonTruthy v
          | none => false) then some (score + 1000)
      else some score

/-- `event.get("where", {}).get("line_range", {}).get("start", d)`: `none`
models the `AttributeError` on a non-dict link. -/
def whereStartD (event : List (String × Json)) (d : Json) : Option Json :=
  match (alLookup event "where").getD (.obj []) with
  | .obj wf =>
      match (alLookup wf "line_range").getD (.obj []) with
      | .obj lf => some ((alLookup lf "start").getD d)
      | _ => none
  | _ => none

/-- The sort key of `rank_events`: `(_event_rank_score(e), -int(start))`;
`none` when the event is not a dict or a conversion raises. -/
def rank_key (ps : Json → String) (sf : String → Option ℚ)
    (si : String → Option ℤ) (ev : Json) : Option (ℤ × ℤ) :=
  match ev with
  | .obj e =>
      match event_rank_score ps sf e with
      | none => none
      | some sc =>
          match whereStartD e (.num ((10 : ℚ) ^ 9)) with
          | none => none
          | some sv =>
              match pyIntOf si sv with
              | none => none
              | some st => some (sc, -st)
  | _ => none

/-- Lexicographic order on the rank key pairs (Python tuple comparison). -/
def lexKeyLe (p q : ℤ × ℤ) : Prop :=
  p.1 < q.1 ∨ (p.1 = q.1 ∧ p.2 ≤ q.2)

instance (p q : ℤ × ℤ) : Decidable (lexKeyLe p q) := by
  unfold lexKeyLe
  infer_instance

/-- `rank_events`: the stable descending sort by rank key, as events paired
with their fields; `none` when any key computation raises. -/
def rank_events (ps : Json → String) (sf : String → Option ℚ)
    (si : String → Option ℤ) (events : List Json) :
    Option (List (List (String × Json))) :=
  match events.mapM (fun ev => (rank_key ps sf si ev).map
      (fun k => (ev.fieldsOf, k))) with
  | none => none
  | some tagged =>
      some ((List.insertionSort
        (fun (a b : List (String × Json) × (ℤ × ℤ)) => lexKeyLe b.2 a.2)
        tagged).map Prod.fst)

/-- Python iteration over a payload value: lists yield elements, strings
yield one-character strings, dicts yield their keys, everything else
raises. -/
def pyIter : Json → Option (List Json)
  | .arr l => some l
  | .str s => some (s.toList.map (fun c => .str (String.mk [c])))
  | .obj f => some (f.map (fun kv => .str kv.1))
  | _ => none

/-- `_timeline_summary`; `none` models iteration raising on a non-iterable
`segments`/`phases` value. -/
def timeline_summary (output : List (String × Json)) : Option Json :=
  match alLookup output "boot_timeline" with
  | some (.obj tl) =>
      match pyIter ((alLookup tl "segments").getD (.arr [])) with
      | none => none
      | some segs =>
          match segs.mapM (fun seg =>
            match seg with
            | .obj sf2 =>
                match pyIter ((alLookup sf2 "phases").getD (.arr [])) with
                | none => none
                | some phs =>
                    some (some (Json.obj
                      [("segment_id", (alLookup sf2 "segment_id").getD .null),
                       ("start_line", (alLookup sf2 "start_line").getD .null),
                       ("end_line", (alLookup sf2 "end_line").getD .null),
                       ("phases", .arr (phs.filterMap (fun ph =>
                         match ph with
                         | .obj pf => some (Json.obj
                             [("phase", (alLookup pf "phase").getD .null),
                              ("start_line",
                                (alLookup pf "start_line").getD .null),
                              ("end_line",
                                (alLookup pf "end_line").getD .null)])
                         | _ => none)))]))
            | _ => some none) with
          | none => none
          | some summarized =>
              some (.obj
                [("segments", .arr (summarized.filterMap id)),
                 ("boot_blocking_event_id",
                   (alLookup tl "boot_blocking_event_id").getD .null)])
  | _ =>
      some (.obj [("segments", .arr []), ("boot_blocking_event_id", .null)])

/-- The evidence-window fields `_trimmed_event` keeps for one entry. -/
def cleanedEvidenceItem (itf : List (String × Json)) : List (String × Json) :=
  let kept := [("ref", (alLookup itf "ref").getD .null),
               ("kind", (alLookup itf "kind").getD .null),
               ("start_line", (alLookup itf "start_line").getD .null),
               ("end_line", (alLookup itf "end_line").getD .null)]
  if alHasKey itf "lines" then
    kept ++ [("lines", (alLookup itf "lines").getD .null)]
  else kept

/-- `_trimmed_event`: keep the catalogued fields in catalogue order, then
reshape a list-valued `evidence` to the kept window fields. -/
def trimmed_event (event : List (String × Json)) : List (String × Json) :=
  let keep := ["event_id", "category", "subcategory", "severity",
    "confidence", "boot_blocking", "where", "fingerprint", "extracted",
    "rule_hits", "evidence"]
  let trimmed := keep.filterMap
    (fun f => (alLookup event f).map (fun v => (f, v)))
  match alLookup trimmed "evidence" with
  | some (.arr evs) =>
      alSet trimmed "evidence" (.arr (evs.filterMap (fun item =>
        match item with
        | .obj itf => some (.obj (cleanedEvidenceItem itf))
        | _ => none)))
  | _ => trimmed

/-- `_drop_evidence_lines`: pop `lines` from every evidence window, report
whether anything was popped; `none` models iterating a non-iterable
`evidence` value. -/
def drop_evidence_lines (event : List (String × Json)) :
    Option (Bool × List (String × Json)) :=
  match alLookup event "evidence" with
  | none => some (false, event)
  | some (.arr items) =>
      let changed := items.any (fun it =>
        match it with
        | .obj itf => alHasKey itf "lines"
        | _ => false)
      let items2 := items.map (fun it =>
        match it with
        | .obj itf => Json.obj (alDel itf "lines")
        | other => other)
      some (changed, alSet event "evidence" (.arr items2))
  | some (.str _) => some (false, event)
  | some (.obj _) => some (false, event)
  | some _ => none

/-- `_shrink_event_lines_to_hit_line`: replace each evidence window's line
list by the single hit line (the entry whose `idx` equals
`where.line_range.start`, else the first); `none` models a raised
exception. -/
def shrink_event_lines (event : List (String × Json)) :
    Option (Bool × List (String × Json)) :=
  match whereStartD event .null with
  | none => none
  | some start =>
      if isIntLike start then
        match alLookup event "evidence" with
        | none => some (false, event)
        | some (.arr items) =>
            let step := fun (it : Json) =>
              match it with
              | .obj itf =>
                  match alLookup itf "lines" with
                  | some (.arr lines) =>
                      if lines.isEmpty then (false, it)
                      else
                        let hit := (lines.find? (fun ln =>
                          match ln with
                          | .obj lf =>
                              Json.pyEq ((alLookup lf "idx").getD .null) start
                          | _ => false)).getD (lines.headD .null)
                        (true, Json.obj (alSet itf "lines" (.arr [hit])))
                  | _ => (false, it)
              | _ => (false, it)
            let results := items.map step
            some (results.any Prod.fst,
              alSet event "evidence" (.arr (results.map Prod.snd)))
        | some (.str _) => some (false, event)
        | some (.obj _) => some (false, event)
        | some _ => none
      else some (false, event)

/-- The evidence pack before the meta block is attached. -/
def packJson (sv btl : Json) (selected : List (List (String × Json))) :
    Json :=
  .obj [("schema_version", sv), ("boot_timeline", btl),
        ("selected_events", .arr (selected.map Json.obj))]

/-- The evidence pack with the meta block of line 193, as maintained by the
final drop loop. -/
def packMeta (sv btl : Json) (top_k max_chars : ℤ)
    (selected : List (List (String × Json))) (applied : List String) :
    Json :=
  .obj [("schema_version", sv), ("boot_timeline", btl),
        ("selected_events", .arr (selected.map Json.obj)),
        ("evidence_pack_meta", .obj
          [("top_k_requested", .num top_k),
           ("events_included", .num selected.length),
           ("max_chars", .num max_chars),
           ("trimming_applied", .arr ((applied.take 12).map Json.str)),
           ("trimming_count", .num applied.length)])]

/-- Update one meta field in place. -/
def setMeta (pack : Json) (k : String) (v : Json) : Json :=
  match pack with
  | .obj pf =>
      match alLookup pf "evidence_pack_meta" with
      | some (.obj mf) =>
          .obj (alSet pf "evidence_pack_meta" (.obj (alSet mf k v)))
      | _ => pack
  | _ => pack

/-- The first trimming pass: walk the selected indices from last to first,
drop evidence lines, log and re-measure on change, stop early when the
budget is met. -/
def dropLinesLoop (ns : ℚ → String) (sv btl : Json) (max_chars : ℤ) :
    List Nat → List (List (String × Json)) → List String → Nat →
    Option (List (List (String × Json)) × List String × Nat)
  | [], sel, app, fc => some (sel, app, fc)
  | idx :: rest, sel, app, fc =>
      match sel[idx]? with
      | none => none
      | some ev =>
          match drop_evidence_lines ev with
          | none => none
          | some (changed, ev2) =>
              if changed then
                let sel2 := sel.set idx ev2
                let app2 := app ++
                  ["dropped_evidence_lines:event_index=" ++ toString idx]
                let fc2 := serializedSizeChars ns (packJson sv btl sel2)
                if (fc2 : ℤ) ≤ max_chars then some (sel2, app2, fc2)
                else dropLinesLoop ns sv btl max_chars rest sel2 app2 fc2
              else dropLinesLoop ns sv btl max_chars rest sel app fc

/-- The second trimming pass: pop the lowest-ranked event while over budget
and more than one remains. -/
def dropEventsLoop (ns : ℚ → String) (sv btl : Json) (max_chars : ℤ) :
    Nat → List (List (String × Json)) → List String → Nat →
    List (List (String × Json)) × List String × Nat
  | 0, sel, app, fc => (sel, app, fc)
  | fuel + 1, sel, app, fc =>
      if max_chars < (fc : ℤ) ∧ 1 < sel.length then
        let sel2 := sel.dropLast
        let app2 := app ++ ["dropped_low_ranked_event"]
        dropEventsLoop ns sv btl max_chars fuel sel2 app2
          (serializedSizeChars ns (packJson sv btl sel2))
      else (sel, app, fc)

/-- The third trimming pass: walk the selected indices from last to first,
shrink evidence lines to the hit line, log and re-measure on change, stop
early when the budget is met. -/
def shrinkLoop (ns : ℚ → String) (sv btl : Json) (max_chars : ℤ) :
    List Nat → List (List (String × Json)) → List String → Nat →
    Option (List (List (String × Json)) × List String × Nat)
  | [], sel, app, fc => some (sel, app, fc)
  | idx :: rest, sel, app, fc =>
      match sel[idx]? with
      | none => none
      | some ev =>
          match shrink_event_lines ev with
          | none => none
          | some (changed, ev2) =>
              if changed then
                let sel2 := sel.set idx ev2
                let app2 := app ++
                  ["shrunk_to_hit_line:event_index=" ++ toString idx]
                let fc2 := serializedSizeChars ns (packJson sv btl sel2)
                if (fc2 : ℤ) ≤ max_chars then some (sel2, app2, fc2)
                else shrinkLoop ns sv btl max_chars rest sel2 app2 fc2
              else shrinkLoop ns sv btl max_chars rest sel app fc

/-- The last drop loop (line 201): pop while the pack with its meta block is
over budget and more than one event remains, maintaining the meta fields. -/
def dropEventsLoop2 (ns : ℚ → String) (sv btl : Json)
    (top_k max_chars : ℤ) :
    Nat → List (List (String × Json)) → List String →
    List (List (String × Json)) × List String
  | 0, sel, app => (sel, app)
  | fuel + 1, sel, app =>
      if max_chars <
          (serializedSizeChars ns
            (packMeta sv btl top_k max_chars sel app) : ℤ) ∧
          1 < sel.length then
        dropEventsLoop2 ns sv btl top_k max_chars fuel sel.dropLast
          (app ++ ["dropped_low_ranked_event"])
      else (sel, app)

/-- `output.get("events") if isinstance(..., list) else []`. -/
def eventsOf (output : List (String × Json)) : List Json :=
  match alLookup output "events" with
  | some (.arr l) => l
  | _ => []

/-- The initial selection: top-k trimmed events, falling back to the single
best event when the slice is empty but events exist. -/
def selectEvents (ranked : List (List (String × Json))) (events : List Json)
    (top_k : ℤ) : List (List (String × Json)) :=
  let selected0 := (ranked.take (max 0 top_k).toNat).map trimmed_event
  if events.isEmpty then selected0
  else if selected0.isEmpty then [trimmed_event (ranked.headD [])]
  else selected0

/-- The guarded first trimming pass. -/
def phaseA (ns : ℚ → String) (sv btl : Json) (max_chars : ℤ)
    (sel : List (List (String × Json))) :
    Option (List (List (String × Json)) × List String × Nat) :=
  let fc0 := serializedSizeChars ns (packJson sv btl sel)
  if max_chars < (fc0 : ℤ) ∧ ¬ sel.isEmpty then
    dropLinesLoop ns sv btl max_chars (List.range sel.length).reverse
      sel [] fc0
  else some (sel, [], fc0)

/-- The guarded third trimming pass. -/
def phaseC (ns : ℚ → String) (sv btl : Json) (max_chars : ℤ)
    (r : List (List (String × Json)) × List String × Nat) :
    Option (List (List (String × Json)) × List String × Nat) :=
  if max_chars < (r.2.2 : ℤ) ∧ ¬ r.1.isEmpty then
    shrinkLoop ns sv btl max_chars (List.range r.1.length).reverse
      r.1 r.2.1 r.2.2
  else some r

/-- The final stage: attach the meta block, pop while over budget, record
`final_chars`, and compact the meta as a last resort. -/
def finishPack (ns : ℚ → String) (sv btl : Json) (top_k max_chars : ℤ)
    (selC : List (List (String × Json))) (appC : List String) : Json :=
  let rD := dropEventsLoop2 ns sv btl top_k max_chars selC.length selC appC
  let pack1 := packMeta sv btl top_k max_chars rD.1 rD.2
  let fc3 := serializedSizeChars ns pack1
  let pack2 := setMeta pack1 "final_chars" (.num fc3)
  if max_chars < (fc3 : ℤ) then
    let pack3 := setMeta pack2 "trimming_applied"
      (.arr [.str "meta_compacted"])
    setMeta pack3 "final_chars" (.num (serializedSizeChars ns pack3))
  else pack2

/-- `build_evidence_pack`: rank, select, trim to budget in the source's
order, attach and maintain the meta block; `none` models a raised
exception. -/
def build_evidence_pack (ps : Json → String) (sf : String → Option ℚ)
    (si : String → Option ℤ) (ns : ℚ → String)
    (output : List (String × Json)) (top_k max_chars : ℤ) : Option Json :=
  match rank_events ps sf si (eventsOf output) with
  | none => none
  | some ranked =>
      let selected1 := selectEvents ranked (eventsOf output) top_k
      match timeline_summary output with
      | none => none
      | some btl =>
          let sv := (alLookup output "schema_version").getD .null
          match phaseA ns sv btl max_chars selected1 with
          | none => none
          | some (selA, appA, fcA) =>
              let rB := dropEventsLoop ns sv btl max_chars selA.length
                selA appA fcA
              match phaseC ns sv btl max_chars rB with
              | none => none
              | some (selC, appC, _) =>
                  some (finishPack ns sv btl top_k max_chars selC appC)

/-- Remove one meta field. -/
def delMeta (pack : Json) (k : String) : Json :=
  match pack with
  | .obj pf =>
      match alLookup pf "evidence_pack_meta" with
      | some (.obj mf) =>
          .obj (alSet pf "evidence_pack_meta" (.obj (alDel mf k)))
      | _ => pack
  | _ => pack

/-- Read one meta field of a pack. -/
def metaLookup (pack : Json) (k : String) : Option Json :=
  match Json.get? pack "evidence_pack_meta" with
  | some (.obj mf) => alLookup mf k
  | _ => none

/-- Concrete instantiation of the abstract `str()` primitive. -/
def ps0 : Json → String := fun v =>
  match v with
  | .str s => s
  | _ => ""

/-- Concrete instantiation of the abstract `float(str)` parser. -/
def sf0 : String → Option ℚ := fun _ => none

/-- Concrete instantiation of the abstract `int(str)` parser. -/
def si0 : String → Option ℤ := fun _ => none

/-- Two small events with explicit scores and no evidence. -/
def evBudgetOutput : List (String × Json) :=
  [("events", .arr
    [.obj [("event_id", .str "a"), ("score", .num 2)],
     .obj [("event_id", .str "b"), ("score", .num 1)]])]

/-- One event whose single evidence window carries a long hit line. -/
def evTrimOutput : List (String × Json) :=
  [("events", .arr
    [.obj [("event_id", .str "a"),
      ("score", .num 2),
      ("where", .obj [("line_range", .obj [("start", .num 5)])]),
      ("evidence", .arr [.obj [("ref", .str "r"), ("kind", .str "k"),
        ("start_line", .num 1), ("end_line", .num 9),
        ("lines", .arr [.obj [("idx", .num 5),
          ("text", .str "aaaaaaaaaaaaaaaaaaaaaaaaaaaaaaaaaaaaaaaaaaaaaaaaaaaaaaaaaaaaaaaaaaaaaaaaaaaaaaaaaaaaaaaaaaaaaaaaaaaaaaaaaaaaaaaaaaaaaaaaaaaaaaaaaaaaaaaaaaaaaaaaaaaaaaaaaaaaaaaaaaaaaaaaaaaaaaaaaaaaaaaaaaaaaaaaaaaaaaaaaaaaaaaaaaaaaaaaaaaaaaaaaaaaaaaaaaaaaaaaaaaaaaaaaaaaaaaaaaaaaaaaaaaaaaaaaaaaaaaaaaaaaaaaaaaaaaaaaaaaaaaaaaaaaaaaaaaaaaaaaaaaaaaaaaaaaaaaaaaaaaaaaaaaaaaaaaaaaaaaaaaaaaaaaaaaaaaaaaaaaaaaaaaaaaaaaa")]])]])]])]

/-! The LLM synthesis failure handling of `triage/cli.py` (lines 645-668)
and the in-repo fallback output validator
(`triage/schemas/validate.py::_validate_without_jsonschema`). The validator
message raised by `_validate_llm_synthesis` is the abstract parameter
`vmsg`. -/

/-- Python `sorted(d.keys())`. -/
def sortedKeys (fields : List (String × Json)) : List String :=
  List.insertionSort (fun a b => a ≤ b) (fields.map Prod.fst)

/-- `_llm_fallback`: the fixed failure synthesis payload. -/
def llm_fallback (error_type message detail model : String)
    (timeout_s prompt_len : ℤ) (keys : List String) : Json :=
  .obj [("overall_confidence", .num 0),
        ("executive_summary", .str "LLM synthesis failed; see errors."),
        ("root_cause_hypotheses", .arr []),
        ("recommended_next_actions", .arr []),
        ("missing_evidence", .arr []),
        ("errors", .arr [.obj
          [("type", .str error_type),
           ("message", .str message),
           ("detail", .str detail),
           ("model", .str model),
           ("timeout_s", .num timeout_s),
           ("prompt_len", .num prompt_len),
           ("candidate_keys", .arr (keys.map Json.str))]])]

/-- `_select_best_llm_event_id`. -/
def select_best_llm_event_id (output : Json) : String :=
  let fromTimeline : Option String :=
    match output.get? "boot_timeline" with
    | some (.obj bt) =>
        match alLookup bt "boot_blocking_event_id" with
        | some (.str s) => if s = "" then none else some s
        | _ => none
    | _ => none
  match fromTimeline with
  | some s => s
  | none =>
      let fromInput : Option String :=
        match output.get? "llm_input" with
        | some (.obj li) =>
            match alLookup li "selected_events" with
            | some (.arr (first :: _)) =>
                match first with
                | .obj ff =>
                    match alLookup ff "event_id" with
                    | some (.str s) => if s = "" then none else some s
                    | _ => none
                | _ => none
            | _ => none
        | _ => none
      match fromInput with
      | some s => s
      | none =>
          match output.get? "events" with
          | some (.arr (first :: _)) =>
              match first with
              | .obj ff =>
                  match alLookup ff "event_id" with
                  | some (.str s) => if s = "" then "evt-0" else s
                  | _ => "evt-0"
              | _ => "evt-0"
          | _ => "evt-0"

/-- The `llm_synthesis` unwrapping of cli.py lines 647-650: when the
candidate wraps a dict under `llm_synthesis`, work on that dict, and track
the sorted key list used for diagnostics. -/
def unwrapCandidate (cf0 : List (String × Json)) :
    List (String × Json) × List String :=
  match alLookup cf0 "llm_synthesis" with
  | some (.obj inner) => (inner, sortedKeys inner)
  | _ => (cf0, sortedKeys cf0)

/-- cli.py lines 645-668: resolve the candidate, reject echoes, repair,
validate, and substitute the fixed fallback payload on any failure. -/
def llm_synthesis_step (vmsg : Json → String) (output candidate : Json)
    (model : String) (timeout_s prompt_len : ℤ) : Json :=
  match candidate with
  | .obj cf0 =>
      let u := unwrapCandidate cf0
      if alHasKey u.1 "evidence_pack" || alHasKey u.1 "selected_events" then
        llm_fallback "ValueError"
          "Failed to generate or validate LLM synthesis"
          "LLM echoed input evidence pack instead of producing llm_synthesis"
          model timeout_s prompt_len u.2
      else
        let repaired := repair_llm_synthesis u.1
          (select_best_llm_event_id output)
        if validateSynthesis (.obj repaired) then .obj repaired
        else
          llm_fallback "ValueError"
            "Failed to generate or validate LLM synthesis"
            (vmsg (.obj repaired)) model timeout_s prompt_len u.2
  | _ =>
      llm_fallback "ValueError"
        "Failed to generate or validate LLM synthesis"
        "LLM returned non-object JSON" model timeout_s prompt_len []

/-- The `^[0-9]+\.[0-9]+\.[0-9]+$` version check. -/
def semverOk (s : String) : Bool :=
  match s.splitOn "." with
  | [a, b, c] =>
      !a.isEmpty && a.toList.all Char.isDigit &&
      !b.isEmpty && b.toList.all Char.isDigit &&
      !c.isEmpty && c.toList.all Char.isDigit
  | _ => false

/-- `_validate_without_jsonschema` as a decidable check (`True`/`False`
model Python bools counting as ints for `line_count`). -/
def validate_without_jsonschema (data : List (String × Json)) : Bool :=
  alHasKey data "schema_version" && alHasKey data "normalization" &&
  alHasKey data "events" && alHasKey data "llm_enabled" &&
  (match alLookup data "schema_version" with
   | some (.str s) => semverOk s
   | _ => false) &&
  (match alLookup data "normalization" with
   | some (.obj nf) =>
       match alLookup nf "line_count" with
       | some (.num q) => q.den = 1 && 0 ≤ q
       | some (.bool _) => true
       | _ => false
   | _ => false) &&
  (match alLookup data "events" with
   | some (.arr l) => l.all Json.isObj
   | _ => false) &&
  (match alLookup data "llm_enabled" with
   | some (.bool _) => true
   | _ => false)

/-- The validation gate at the end of `main`: exit 2 when the output fails
validation, else exit 0. -/
def validate_exit_code (data : List (String × Json)) : ℤ :=
  if validate_without_jsonschema data then 0 else 2

/-- A model reply wrapping a valid synthesis under `llm_synthesis` while
also echoing `evidence_pack` at its top level. -/
def echoWrapFields : List (String × Json) :=
  [("llm_synthesis", .obj synIdExample), ("evidence_pack", .obj [])]

/-! A store-level model of `build_evidence_pack` for its frame property
(the function never mutates its input). Python objects live in a heap of
cells addressed by allocation order; reading is `h[a]?`, allocation appends
a cell, and in-place mutation overwrites one cell. `copy.deepcopy` and the
construction of fresh dicts are modelled by materializing a value and
re-allocating it cell by cell, which shares nothing with existing cells —
exactly the sharing the mutated parts of the real pack have with the
input (everything the function mutates sits below a `_trimmed_event`
deep copy or inside the freshly built pack/meta dicts). -/

/-- One Python object cell: leaves carry values, containers carry the
addresses of their children. -/
inductive HVal where
  | null
  | bool (b : Bool)
  | num (q : ℚ)
  | str (s : String)
  | arr (elems : List Nat)
  | obj (fields : List (String × Nat))
deriving Repr

/-- The child addresses of a cell. -/
def HVal.children : HVal → List Nat
  | .arr l => l
  | .obj f => f.map Prod.snd
  | _ => []

/-- The heap: cell `a` is `h[a]?`; allocation appends. -/
abbrev Heap := List HVal

/-- Materialize the value rooted at an address (`none` on dangling
addresses or exhausted fuel, i.e. cyclic structures). -/
def heapToJson : Nat → Heap → Nat → Option Json
  | 0, _, _ => none
  | fuel + 1, h, a =>
      match h[a]? with
      | none => none
      | some .null => some .null
      | some (.bool b) => some (.bool b)
      | some (.num q) => some (.num q)
      | some (.str s) => some (.str s)
      | some (.arr l) =>
          match l.mapM (heapToJson fuel h) with
          | none => none
          | some js => some (.arr js)
      | some (.obj f) =>
          match f.mapM (fun kv =>
            (heapToJson fuel h kv.2).map (fun j => (kv.1, j))) with
          | none => none
          | some fs => some (.obj fs)

mutual

/-- Allocate a fresh copy of a value, returning the new heap and the root
address. -/
def heapFromJson : Heap → Json → Heap × Nat
  | h, .null => (h ++ [.null], h.length)
  | h, .bool b => (h ++ [.bool b], h.length)
  | h, .num q => (h ++ [.num q], h.length)
  | h, .str s => (h ++ [.str s], h.length)
  | h, .arr l =>
      let r := heapFromJsonList h l
      (r.1 ++ [.arr r.2], r.1.length)
  | h, .obj f =>
      let r := heapFromJsonFields h f
      (r.1 ++ [.obj r.2], r.1.length)

/-- Allocate fresh copies of list elements. -/
def heapFromJsonList : Heap → List Json → Heap × List Nat
  | h, [] => (h, [])
  | h, x :: xs =>
      let r1 := heapFromJson h x
      let r2 := heapFromJsonList r1.1 xs
      (r2.1, r1.2 :: r2.2)

/-- Allocate fresh copies of dict values. -/
def heapFromJsonFields : Heap → List (String × Json) →
    Heap × List (String × Nat)
  | h, [] => (h, [])
  | h, (k, v) :: rest =>
      let r1 := heapFromJson h v
      let r2 := heapFromJsonFields r1.1 rest
      (r2.1, (k, r1.2) :: r2.2)

end

/-- The `_drop_evidence_lines` loop body over the evidence windows: pop
`lines` in place from each dict window. -/
def dropLinesItems : Heap → List Nat → Bool × Heap
  | h, [] => (false, h)
  | h, it :: rest =>
      let step : Bool × Heap :=
        match h[it]? with
        | some (.obj itf) =>
            if alHasKey itf "lines" then
              (true, h.set it (.obj (alDel itf "lines")))
            else (false, h)
        | _ => (false, h)
      let r := dropLinesItems step.2 rest
      (step.1 || r.1, r.2)

/-- `_drop_evidence_lines` on the heap; `none` models a raised exception
(iterating a non-iterable `evidence` value). -/
def heapDropLines (h : Heap) (ev : Nat) : Option (Bool × Heap) :=
  match h[ev]? with
  | some (.obj ef) =>
      match alLookup ef "evidence" with
      | none => some (false, h)
      | some e =>
          match h[e]? with
          | some (.arr items) => some (dropLinesItems h items)
          | some (.str _) => some (false, h)
          | some (.obj _) => some (false, h)
          | _ => none
  | _ => none

/-- Python `line.get("idx") == line_start` for an integer `line_start`:
only numeric cells compare equal. -/
def hvalEqNum (v : Option HVal) (q : ℚ) : Bool :=
  match v with
  | some (.num q2) => q2 == q
  | some (.bool b) => (if b then (1 : ℚ) else 0) == q
  | _ => false

/-- `event.get("where", {}).get("line_range", {}).get("start")` on the
heap; the outer `none` models the AttributeError on a non-dict link. -/
def heapChainStart (h : Heap) (ef : List (String × Nat)) :
    Option (Option HVal) :=
  match alLookup ef "where" with
  | none => some none
  | some w =>
      match h[w]? with
      | some (.obj wf) =>
          match alLookup wf "line_range" with
          | none => some none
          | some lr =>
              match h[lr]? with
              | some (.obj lf) =>
                  match alLookup lf "start" with
                  | none => some none
                  | some sa => (h[sa]?).map some
              | _ => none
      | _ => none

/-- `isinstance(line_start, int)` (bools included), with the numeric
value. -/
def hvalIntValue : Option HVal → Option ℚ
  | some (.num q) => if q.den = 1 then some q else none
  | some (.bool b) => some (if b then 1 else 0)
  | _ => none

/-- The kept line: the first whose `idx` equals the hit line number, else
the first line. -/
def shrinkHit (h : Heap) (q : ℚ) (lineAddrs : List Nat) : Nat :=
  (lineAddrs.find? (fun ln =>
    match h[ln]? with
    | some (HVal.obj lf) =>
        match alLookup lf "idx" with
        | some ia => hvalEqNum h[ia]? q
        | none => hvalEqNum none q
    | _ => false)).getD (lineAddrs.headD 0)

/-- The `_shrink_event_lines_to_hit_line` loop body: replace each window's
line list in place by the single deep-copied hit line. -/
def shrinkItems (fuel : Nat) (q : ℚ) : Heap → List Nat →
    Option (Bool × Heap)
  | h, [] => some (false, h)
  | h, it :: rest =>
      let step : Option (Bool × Heap) :=
        match h[it]? with
        | some (.obj itf) =>
            match alLookup itf "lines" with
            | some la =>
                match h[la]? with
                | some (.arr lineAddrs) =>
                    if lineAddrs.isEmpty then some (false, h)
                    else
                      let hit := shrinkHit h q lineAddrs
                      match heapToJson fuel h hit with
                      | none => none
                      | some hj =>
                          let rc := heapFromJson h hj
                          some (true, (rc.1 ++ [HVal.arr [rc.2]]).set it
                            (HVal.obj (alSet itf "lines" rc.1.length)))
                | _ => some (false, h)
            | none => some (false, h)
        | _ => some (false, h)
      match step with
      | none => none
      | some (ch, h1) =>
          match shrinkItems fuel q h1 rest with
          | none => none
          | some (ch2, h2) => some (ch || ch2, h2)

/-- `_shrink_event_lines_to_hit_line` on the heap. -/
def heapShrink (fuel : Nat) (h : Heap) (ev : Nat) : Option (Bool × Heap) :=
  match h[ev]? with
  | some (.obj ef) =>
      match heapChainStart h ef with
      | none => none
      | some sv =>
          match hvalIntValue sv with
          | none => some (false, h)
          | some q =>
              match alLookup ef "evidence" with
              | none => some (false, h)
              | some e =>
                  match h[e]? with
                  | some (.arr items) => shrinkItems fuel q h items
                  | some (.str _) => some (false, h)
                  | some (.obj _) => some (false, h)
                  | _ => none
  | _ => none

/-- Serialized size of the heap-resident pack. -/
def heapPackSize (fuel : Nat) (ns : ℚ → String) (h : Heap)
    (packAddr : Nat) : Option Nat :=
  (heapToJson fuel h packAddr).map (serializedSizeChars ns)

/-- The first trimming pass on the heap: walk the selected addresses from
last to first, mutating the deep-copied events in place. -/
def heapDropLoop (fuel : Nat) (ns : ℚ → String) (mc : ℤ) (packAddr : Nat)
    (selAddrs : List Nat) :
    List Nat → Heap → List String → Nat →
    Option (Heap × List String × Nat)
  | [], h, app, fc => some (h, app, fc)
  | idx :: rest, h, app, fc =>
      match selAddrs[idx]? with
      | none => none
      | some ev =>
          match heapDropLines h ev with
          | none => none
          | some (changed, h1) =>
              if changed then
                let app2 := app ++
                  ["dropped_evidence_lines:event_index=" ++ toString idx]
                match heapPackSize fuel ns h1 packAddr with
                | none => none
                | some fc2 =>
                    if (fc2 : ℤ) ≤ mc then some (h1, app2, fc2)
                    else heapDropLoop fuel ns mc packAddr selAddrs rest
                      h1 app2 fc2
              else heapDropLoop fuel ns mc packAddr selAddrs rest h app fc

/-- The third trimming pass on the heap. -/
def heapShrinkLoop (fuel : Nat) (ns : ℚ → String) (mc : ℤ) (packAddr : Nat)
    (selAddrs : List Nat) :
    List Nat → Heap → List String → Nat →
    Option (Heap × List String × Nat)
  | [], h, app, fc => some (h, app, fc)
  | idx :: rest, h, app, fc =>
      match selAddrs[idx]? with
      | none => none
      | some ev =>
          match heapShrink fuel h ev with
          | none => none
          | some (changed, h1) =>
              if changed then
                let app2 := app ++
                  ["shrunk_to_hit_line:event_index=" ++ toString idx]
                match heapPackSize fuel ns h1 packAddr with
                | none => none
                | some fc2 =>
                    if (fc2 : ℤ) ≤ mc then some (h1, app2, fc2)
                    else heapShrinkLoop fuel ns mc packAddr selAddrs rest
                      h1 app2 fc2
              else heapShrinkLoop fuel ns mc packAddr selAddrs rest h app fc

/-- The second trimming pass on the heap: pop the selected-events list in
place while over budget. -/
def heapPopLoop (fuel : Nat) (ns : ℚ → String) (mc : ℤ)
    (packAddr selListAddr : Nat) :
    Nat → Heap → List String → Nat → Option (Heap × List String × Nat)
  | 0, h, app, fc => some (h, app, fc)
  | fuelB + 1, h, app, fc =>
      match h[selListAddr]? with
      | some (.arr addrs) =>
          if mc < (fc : ℤ) ∧ 1 < addrs.length then
            let h1 := h.set selListAddr (.arr addrs.dropLast)
            let app2 := app ++ ["dropped_low_ranked_event"]
            match heapPackSize fuel ns h1 packAddr with
            | none => none
            | some fc2 =>
                heapPopLoop fuel ns mc packAddr selListAddr fuelB h1
                  app2 fc2
          else some (h, app, fc)
      | _ => none

/-- Update one meta field in place, allocating the fresh value. -/
def heapMetaSet (h : Heap) (packAddr : Nat) (k : String) (v : Json) :
    Option Heap :=
  match h[packAddr]? with
  | some (.obj pf) =>
      match alLookup pf "evidence_pack_meta" with
      | some ma =>
          match h[ma]? with
          | some (.obj mf) =>
              let rv := heapFromJson h v
              some (rv.1.set ma (.obj (alSet mf k rv.2)))
          | _ => none
      | _ => none
  | _ => none

/-- The final drop loop on the heap, maintaining the meta fields in
place. -/
def heapPopLoop2 (fuel : Nat) (ns : ℚ → String) (mc : ℤ)
    (packAddr selListAddr : Nat) :
    Nat → Heap → List String → Option (Heap × List String)
  | 0, h, app => some (h, app)
  | fuelB + 1, h, app =>
      match heapPackSize fuel ns h packAddr with
      | none => none
      | some sz =>
          match h[selListAddr]? with
          | some (.arr addrs) =>
              if mc < (sz : ℤ) ∧ 1 < addrs.length then
                let h1 := h.set selListAddr (.arr addrs.dropLast)
                let app2 := app ++ ["dropped_low_ranked_event"]
                match heapMetaSet h1 packAddr "events_included"
                    (.num addrs.dropLast.length) with
                | none => none
                | some h2 =>
                    match heapMetaSet h2 packAddr "trimming_applied"
                        (.arr ((app2.take 12).map Json.str)) with
                    | none => none
                    | some h3 =>
                        match heapMetaSet h3 packAddr "trimming_count"
                            (.num app2.length) with
                        | none => none
                        | some h4 =>
                            heapPopLoop2 fuel ns mc packAddr selListAddr
                              fuelB h4 app2
              else some (h, app)
          | _ => none

/-- The meta block attached by the final stage. -/
def finishMetaJson (top_k mc : ℤ) (addrsC : List Nat)
    (appC : List String) : Json :=
  .obj
    [("top_k_requested", .num top_k),
     ("events_included", .num addrsC.length),
     ("max_chars", .num mc),
     ("trimming_applied", .arr ((appC.take 12).map Json.str)),
     ("trimming_count", .num appC.length)]

/-- The final stage on the heap: attach the meta block, run the last drop
loop, record `final_chars`, compact as a last resort. -/
def heapFinish (fuel : Nat) (ns : ℚ → String) (h : Heap)
    (packAddr selListAddr : Nat) (top_k mc : ℤ)
    (addrsC : List Nat) (appC : List String) : Option (Heap × Nat) :=
  let rmeta := heapFromJson h (finishMetaJson top_k mc addrsC appC)
  match rmeta.1[packAddr]? with
  | some (.obj pf) =>
      let h3 := rmeta.1.set packAddr
        (.obj (alSet pf "evidence_pack_meta" rmeta.2))
      match heapPopLoop2 fuel ns mc packAddr selListAddr addrsC.length h3
          appC with
      | none => none
      | some (hD, _) =>
          match heapPackSize fuel ns hD packAddr with
          | none => none
          | some fc3 =>
              match heapMetaSet hD packAddr "final_chars" (.num fc3) with
              | none => none
              | some h4 =>
                  if mc < (fc3 : ℤ) then
                    match heapMetaSet h4 packAddr "trimming_applied"
                        (.arr [.str "meta_compacted"]) with
                    | none => none
                    | some h5 =>
                        match heapPackSize fuel ns h5 packAddr with
                        | none => none
                        | some fc4 =>
                            match heapMetaSet h5 packAddr "final_chars"
                                (.num fc4) with
                            | none => none
                            | some h6 => some (h6, packAddr)
                  else some (h4, packAddr)
  | _ => none

/-- `build_evidence_pack` on the heap: reads materialize values, all fresh
structure is allocated, and the only in-place writes land in the pack, its
meta block, its selected-events list, and the deep-copied events. -/
def heapBuild (fuel : Nat) (ps : Json → String) (sf : String → Option ℚ)
    (si : String → Option ℤ) (ns : ℚ → String) (h0 : Heap)
    (outAddr : Nat) (top_k mc : ℤ) : Option (Heap × Nat) :=
  match heapToJson fuel h0 outAddr with
  | none => none
  | some outJ =>
      match outJ with
      | .obj outF =>
          match rank_events ps sf si (eventsOf outF) with
          | none => none
          | some ranked =>
              let selected1 := selectEvents ranked (eventsOf outF) top_k
              match timeline_summary outF with
              | none => none
              | some btlJ =>
                  -- the real pack aliases the input's schema_version
                  -- value; it is never mutated, so the alias is modelled
                  -- as a copy
                  let svr := heapFromJson h0
                    ((alLookup outF "schema_version").getD .null)
                  let rsel := heapFromJsonList svr.1
                    (selected1.map Json.obj)
                  let rbtl := heapFromJson rsel.1 btlJ
                  let h1 := rbtl.1 ++ [.arr rsel.2]
                  let selListAddr := rbtl.1.length
                  let h2 := h1 ++ [.obj
                    [("schema_version", svr.2),
                     ("boot_timeline", rbtl.2),
                     ("selected_events", selListAddr)]]
                  let packAddr := h1.length
                  match heapPackSize fuel ns h2 packAddr with
                  | none => none
                  | some fc0 =>
                      match (if mc < (fc0 : ℤ) ∧ ¬ rsel.2 = [] then
                          heapDropLoop fuel ns mc packAddr rsel.2
                            (List.range rsel.2.length).reverse h2 [] fc0
                        else some (h2, [], fc0)) with
                      | none => none
                      | some (hA, appA, fcA) =>
                          match heapPopLoop fuel ns mc packAddr selListAddr
                              rsel.2.length hA appA fcA with
                          | none => none
                          | some (hB, appB, fcB) =>
                              match hB[selListAddr]? with
                              | some (.arr addrsB) =>
                                  match (if mc < (fcB : ℤ) ∧
                                      ¬ addrsB = [] then
                                      heapShrinkLoop fuel ns mc packAddr
                                        addrsB
                                        (List.range addrsB.length).reverse
                                        hB appB fcB
                                    else some (hB, appB, fcB)) with
                                  | none => none
                                  | some (hC, appC, _) =>
                                      match hC[selListAddr]? with
                                      | some (.arr addrsC) =>
                                          heapFinish fuel ns hC packAddr
                                            selListAddr top_k mc addrsC appC
                                      | _ => none
                              | _ => none
      | _ => none

/-- All cells at addresses ≥ `n0` point only at addresses ≥ `n0`: the
fresh segment of the heap never reaches back into the input segment. -/
def freshSeg (n0 : Nat) (h : Heap) : Prop :=
  ∀ b v, h[b]? = some v → n0 ≤ b → ∀ c ∈ HVal.children v, n0 ≤ c

/-- A heap whose fresh segment starts at `n0`. -/
def heapOk (n0 : Nat) (h : Heap) : Prop :=
  n0 ≤ h.length ∧ freshSeg n0 h

/-- `h2` extends `h` without touching any cell below `n0`. -/
def heapExt (n0 : Nat) (h h2 : Heap) : Prop :=
  h.length ≤ h2.length ∧ ∀ a, a < n0 → h2[a]? = h[a]?

/-- A concrete heap holding the two-event output dict, with its root
address. -/
def testHeap0 : Heap × Nat := heapFromJson [] (.obj evBudgetOutput)

/-! ## Theorems -/

/-- The loop body of `detect_stalls` appends exactly the pair's spec result. -/
theorem stallStep_eq (phases : List PhaseSpan) (g : Int)
    (acc : List StallSignal) (pr : Marker × Marker) :
    stallStep phases g acc pr = acc ++ (stallSpec phases g pr).toList := by
  unfold stallStep stallSpec
  by_cases h1 : phaseForLine pr.1.idx phases = phaseForLine pr.2.idx phases
  · by_cases h2 : pr.2.idx - pr.1.idx ≤ g
    · have h3 : ¬ g < pr.2.idx - pr.1.idx := not_lt.mpr h2
      simp [h1, h2, h3]
    · have h3 : g < pr.2.idx - pr.1.idx := not_le.mp h2
      simp [h1, h2, h3]
  · simp [h1, Ne.symm h1]

/-- Folding the stall loop body over any pair list collects the spec results. -/
theorem foldl_stallStep (phases : List PhaseSpan) (g : Int)
    (l : List (Marker × Marker)) (acc : List StallSignal) :
    l.foldl (stallStep phases g) acc = acc ++ l.filterMap (stallSpec phases g) := by
  induction l generalizing acc with
  | nil => simp
  | cons pr rest ih =>
      rw [List.foldl_cons, ih, stallStep_eq]
      cases h : stallSpec phases g pr <;> simp [h]

/-- A phase already present keeps every key and start line unchanged; a new
phase is appended at the end with the current line index as start line. -/
theorem updateHits_keys_starts (hits : List (Phase × PhaseHit)) (ph : Phase)
    (idx : Int) (strong : Bool) (cnt : Nat) :
    (ph ∉ hits.map Prod.fst →
      updateHits hits ph idx strong cnt =
        hits ++ [(ph, { start_line := idx, strong := strong,
                        matchCount := cnt })]) ∧
    (ph ∈ hits.map Prod.fst →
      (updateHits hits ph idx strong cnt).map Prod.fst = hits.map Prod.fst ∧
      (updateHits hits ph idx strong cnt).map (fun e => e.2.start_line) =
        hits.map (fun e => e.2.start_line)) := by
  induction hits with
  | nil => simp [updateHits]
  | cons e rest ih =>
      obtain ⟨p, d⟩ := e
      by_cases hp : p = ph
      · subst hp
        refine ⟨fun h => absurd (by simp) h, fun _ => ?_⟩
        simp [updateHits]
      · constructor
        · intro h
          have hrest : ph ∉ rest.map Prod.fst := by
            simp only [List.map_cons, List.mem_cons] at h
            tauto
          simp [updateHits, hp, ih.1 hrest]
        · intro h
          have hrest : ph ∈ rest.map Prod.fst := by
            simp only [List.map_cons, List.mem_cons] at h
            rcases h with h | h
            · exact absurd h.symm hp
            · exact h
          simp [updateHits, hp, (ih.2 hrest).1, (ih.2 hrest).2]

/-- The inner phase loop of one line preserves the `phase_hits` invariants:
strictly increasing start lines (in insertion order), start lines bounded by
the current line index, and no duplicate phase keys. -/
theorem recordLineGo_inv (tbl : MarkerTable) (line : NormalizedLine)
    (b : Int) (hits : List (Phase × PhaseHit)) (phs : List Phase)
    (h1 : (hits.map (fun e => e.2.start_line)).Pairwise (· < ·))
    (h2 : ∀ x ∈ hits.map (fun e => e.2.start_line), x ≤ b)
    (h3 : (hits.map Prod.fst).Nodup)
    (hb : b < line.idx) :
    ((recordLineGo tbl hits line phs).map
        (fun e => e.2.start_line)).Pairwise (· < ·) ∧
    (∀ x ∈ (recordLineGo tbl hits line phs).map
        (fun e => e.2.start_line), x ≤ line.idx) ∧
    ((recordLineGo tbl hits line phs).map Prod.fst).Nodup := by
  induction phs with
  | nil =>
      refine ⟨h1, fun x hx => le_trans (h2 x hx) (le_of_lt hb), h3⟩
  | cons ph rest ih =>
      rw [recordLineGo]
      by_cases hm : (lineHitsPhase tbl line.text ph).1
      · rw [if_pos hm]
        by_cases hkey : ph ∈ hits.map Prod.fst
        · obtain ⟨hkeys, hstarts⟩ :=
            (updateHits_keys_starts hits ph line.idx _ _).2 hkey
          rw [hkeys, hstarts]
          exact ⟨h1, fun x hx => le_trans (h2 x hx) (le_of_lt hb), h3⟩
        · rw [(updateHits_keys_starts hits ph line.idx _ _).1 hkey]
          refine ⟨?_, ?_, ?_⟩
          · rw [List.map_append]
            rw [List.pairwise_append]
            refine ⟨h1, by simp, ?_⟩
            intro x hx y hy
            simp at hy
            subst hy
            exact lt_of_le_of_lt (h2 x hx) hb
          · intro x hx
            rw [List.map_append] at hx
            rcases List.mem_append.mp hx with hx | hx
            · exact le_trans (h2 x hx) (le_of_lt hb)
            · simp at hx
              simp [hx]
          · rw [List.map_append]
            simp only [List.map_cons, List.map_nil]
            rw [List.nodup_append]
            refine ⟨h3, List.nodup_singleton ph, ?_⟩
            intro x hx
            simp
            intro hxe
            subst hxe
            exact hkey hx
      · rw [if_neg hm]
        exact ih

/-- Folding line processing over strictly increasing line indices keeps the
`phase_hits` start lines strictly increasing and the phase keys distinct. -/
theorem foldl_recordLine_inv (tbl : MarkerTable) :
    ∀ (lines : List NormalizedLine) (hits : List (Phase × PhaseHit)) (b : Int),
    (lines.map NormalizedLine.idx).Pairwise (· < ·) →
    (∀ l ∈ lines, b < l.idx) →
    (hits.map (fun e => e.2.start_line)).Pairwise (· < ·) →
    (∀ x ∈ hits.map (fun e => e.2.start_line), x ≤ b) →
    (hits.map Prod.fst).Nodup →
    ((lines.foldl (recordLinePhases tbl) hits).map
        (fun e => e.2.start_line)).Pairwise (· < ·) ∧
    ((lines.foldl (recordLinePhases tbl) hits).map Prod.fst).Nodup := by
  intro lines
  induction lines with
  | nil =>
      intro hits b _ _ h3 _ h5
      exact ⟨h3, h5⟩
  | cons l rest ih =>
      intro hits b hchain hlt h3 h4 h5
      rw [List.foldl_cons]
      obtain ⟨g1, g2, g3⟩ :=
        recordLineGo_inv tbl l b hits phaseOrder h3 h4 h5 (hlt l (by simp))
      have hpc := List.pairwise_cons.mp
        (show (l.idx :: rest.map NormalizedLine.idx).Pairwise (· < ·) by
          simpa using hchain)
      have hlt' : ∀ l' ∈ rest, l.idx < l'.idx := fun l' hl' =>
        hpc.1 l'.idx (List.mem_map_of_mem _ hl')
      exact ih (recordLinePhases tbl hits l) l.idx hpc.2 hlt' g1 g2 g3

/-- The stable sort of `phase_hits` items is ordered by start line. -/
theorem sortHits_sorted (hits : List (Phase × PhaseHit)) :
    (sortHits hits).Pairwise (fun a b => a.2.start_line ≤ b.2.start_line) := by
  haveI : IsTotal (Phase × PhaseHit)
      (fun a b => a.2.start_line ≤ b.2.start_line) := ⟨fun a b => le_total _ _⟩
  haveI : IsTrans (Phase × PhaseHit)
      (fun a b => a.2.start_line ≤ b.2.start_line) :=
    ⟨fun _ _ _ => le_trans⟩
  exact List.sorted_insertionSort _ hits

/-- Sorting keeps distinct start lines strictly increasing. -/
theorem sortHits_strict (hits : List (Phase × PhaseHit))
    (h : (hits.map (fun e => e.2.start_line)).Pairwise (· < ·)) :
    ((sortHits hits).map (fun e => e.2.start_line)).Pairwise (· < ·) := by
  have hperm : List.Perm ((sortHits hits).map (fun e => e.2.start_line))
      (hits.map (fun e => e.2.start_line)) :=
    (List.perm_insertionSort _ hits).map _
  have hnd : ((sortHits hits).map (fun e => e.2.start_line)).Nodup :=
    hperm.nodup_iff.mpr (h.imp ne_of_lt)
  have hle : ((sortHits hits).map (fun e => e.2.start_line)).Pairwise (· ≤ ·) :=
    List.pairwise_map.mpr (sortHits_sorted hits)
  exact (hle.and hnd).imp fun hab => lt_of_le_of_ne hab.1 hab.2

/-- Start lines of the spans are exactly the start lines of the sorted hits. -/
theorem spansFrom_map_start (m : Int) :
    ∀ hs : List (Phase × PhaseHit),
      (spansFrom m hs).map PhaseSpan.start_line =
        hs.map (fun e => e.2.start_line)
  | [] => rfl
  | [(_, _)] => rfl
  | (ph, d) :: next :: rest => by
      have h := spansFrom_map_start m (next :: rest)
      simp only [spansFrom, List.map_cons] at h ⊢
      exact congrArg _ h

/-- Phase names of the spans are the phase keys of the sorted hits. -/
theorem spansFrom_map_phase (m : Int) :
    ∀ hs : List (Phase × PhaseHit),
      (spansFrom m hs).map PhaseSpan.phase =
        (hs.map Prod.fst).map Phase.value
  | [] => rfl
  | [(_, _)] => rfl
  | (ph, d) :: next :: rest => by
      have h := spansFrom_map_phase m (next :: rest)
      simp only [spansFrom, List.map_cons] at h ⊢
      exact congrArg _ h

/-- Head start line of a span list built from a non-empty hit list. -/
theorem spansFrom_head_start (m : Int) (next : Phase × PhaseHit)
    (rest : List (Phase × PhaseHit)) :
    (spansFrom m (next :: rest)).head?.map PhaseSpan.start_line =
      some next.2.start_line := by
  obtain ⟨ph, d⟩ := next
  cases rest <;> rfl

/-- Spans are contiguous: each span ends one line before the next begins. -/
theorem spansFrom_contiguous (m : Int) :
    ∀ hs : List (Phase × PhaseHit),
      (spansFrom m hs).Chain' (fun a b => a.end_line + 1 = b.start_line)
  | [] => List.chain'_nil
  | [(_, _)] => List.chain'_singleton _
  | (ph, d) :: next :: rest => by
      have htail := spansFrom_contiguous m (next :: rest)
      have hhead := spansFrom_head_start m next rest
      show List.Chain' _ (_ :: spansFrom m (next :: rest))
      rw [List.chain'_cons']
      refine ⟨?_, htail⟩
      intro y hy
      have : some y.start_line = some next.2.start_line := by
        rw [← hhead, hy]
        rfl
      simp at this
      simp [this]

/-- The last span built from a non-empty hit list ends at `maxLine`. -/
theorem spansFrom_getLast_end (m : Int) :
    ∀ hs : List (Phase × PhaseHit),
      (spansFrom m hs).getLast?.map PhaseSpan.end_line =
        if hs.isEmpty then none else some m
  | [] => rfl
  | [(_, _)] => rfl
  | (ph, d) :: next :: rest => by
      have h := spansFrom_getLast_end m (next :: rest)
      cases htail : spansFrom m (next :: rest) with
      | nil =>
          rw [htail] at h
          simp at h
      | cons s ss =>
          rw [htail] at h
          show (List.getLast? (_ :: spansFrom m (next :: rest))).map _ = _
          rw [htail, List.getLast?_cons_cons]
          simpa using h

/-- A line matching no phase leaves `phase_hits` unchanged. -/
theorem recordLineGo_nomatch (tbl : MarkerTable)
    (hits : List (Phase × PhaseHit)) (line : NormalizedLine) :
    ∀ phs : List Phase,
      (∀ ph ∈ phs, (lineHitsPhase tbl line.text ph).1 = false) →
      recordLineGo tbl hits line phs = hits
  | [], _ => rfl
  | ph :: rest, h => by
      rw [recordLineGo]
      rw [if_neg (by simp [h ph (by simp)])]
      exact recordLineGo_nomatch tbl hits line rest
        (fun p hp => h p (by simp [hp]))

/-- Phase names are pairwise distinct strings. -/
theorem Phase.value_injective : Function.Injective Phase.value := by
  intro a b h
  cases a <;> cases b <;> revert h <;> decide

/-- C4: on a log whose line indices strictly increase, `detect_phases`
returns spans strictly increasing in `start_line`, contiguous
(`end_line + 1` equals the next `start_line`), with the last span ending at
the last line's index, at most one span per phase, and no spans at all when
no phase marker matched any line. -/
theorem detect_phases_invariants (tbl : MarkerTable)
    (lines : List NormalizedLine)
    (hmono : (lines.map NormalizedLine.idx).Pairwise (· < ·)) :
    ((detect_phases tbl lines).map PhaseSpan.start_line).Pairwise (· < ·) ∧
    (detect_phases tbl lines).Chain'
      (fun a b => a.end_line + 1 = b.start_line) ∧
    (∀ h : detect_phases tbl lines ≠ [],
      ∃ h' : lines ≠ [],
        ((detect_phases tbl lines).getLast h).end_line =
          (lines.getLast h').idx) ∧
    ((detect_phases tbl lines).map PhaseSpan.phase).Nodup ∧
    ((∀ l ∈ lines, ∀ ph : Phase, (lineHitsPhase tbl l.text ph).1 = false) →
      detect_phases tbl lines = []) := by
  have hempty_all :
      (∀ l ∈ lines, ∀ ph : Phase, (lineHitsPhase tbl l.text ph).1 = false) →
      detect_phases tbl lines = [] := by
    intro hno
    have hfold : lines.foldl (recordLinePhases tbl) [] = [] := by
      have : ∀ (ls : List NormalizedLine),
          (∀ l ∈ ls, ∀ ph : Phase, (lineHitsPhase tbl l.text ph).1 = false) →
          ∀ hits, ls.foldl (recordLinePhases tbl) hits = hits := by
        intro ls
        induction ls with
        | nil => intro _ hits; rfl
        | cons l rest ih =>
            intro hno' hits
            rw [List.foldl_cons]
            rw [show recordLinePhases tbl hits l = hits from
              recordLineGo_nomatch tbl hits l phaseOrder
                (fun ph _ => hno' l (by simp) ph)]
            exact ih (fun l' hl' => hno' l' (by simp [hl'])) hits
      exact this lines hno []
    simp [detect_phases, hfold]
  cases lines with
  | nil =>
      refine ⟨?_, ?_, ?_, ?_, hempty_all⟩ <;>
        simp [detect_phases, List.foldl_nil]
  | cons l0 rest =>
      obtain ⟨hstrict0, hnodup0⟩ :=
        foldl_recordLine_inv tbl (l0 :: rest) [] (l0.idx - 1) hmono
          (by
            intro l hl
            rcases List.mem_cons.mp hl with h | h
            · subst h; omega
            · have hpc := List.pairwise_cons.mp
                (show (l0.idx :: rest.map NormalizedLine.idx).Pairwise
                    (· < ·) by simpa using hmono)
              have := hpc.1 l.idx (List.mem_map_of_mem _ h)
              omega)
          (by simp) (by simp) (by simp)
      set H := (l0 :: rest).foldl (recordLinePhases tbl) [] with hH
      by_cases hne : H.isEmpty
      · have hdet : detect_phases tbl (l0 :: rest) = [] := by
          simp [detect_phases, ← hH, hne]
        refine ⟨?_, ?_, ?_, ?_, hempty_all⟩ <;> simp [hdet]
      · have hHne : H ≠ [] := fun hcon => hne (by simp [hcon])
        have hsortne : sortHits H ≠ [] := by
          intro hcon
          apply hHne
          have hlen := (List.perm_insertionSort
            (fun a b => a.2.start_line ≤ b.2.start_line) H).length_eq
          rw [show List.insertionSort
              (fun a b => a.2.start_line ≤ b.2.start_line) H =
              sortHits H from rfl, hcon] at hlen
          exact List.length_eq_zero.mp hlen.symm
        have hdet : detect_phases tbl (l0 :: rest) =
            spansFrom ((l0 :: rest).getLast (List.cons_ne_nil _ _)).idx
              (sortHits H) := by
          simp only [detect_phases, ← hH]
          rw [if_neg (by simp [hne])]
          rw [List.getLast?_eq_getLast _ (List.cons_ne_nil l0 rest)]
        set m := ((l0 :: rest).getLast (List.cons_ne_nil _ _)).idx
        refine ⟨?_, ?_, ?_, ?_, hempty_all⟩
        · rw [hdet, spansFrom_map_start]
          exact sortHits_strict H hstrict0
        · rw [hdet]
          exact spansFrom_contiguous m (sortHits H)
        · intro h
          refine ⟨List.cons_ne_nil _ _, ?_⟩
          have hq : (detect_phases tbl (l0 :: rest)).getLast? =
              some ((detect_phases tbl (l0 :: rest)).getLast h) :=
            List.getLast?_eq_getLast _ h
          have hlast := spansFrom_getLast_end m (sortHits H)
          rw [if_neg (by simpa using hsortne)] at hlast
          rw [← hdet, hq] at hlast
          simpa using hlast
        · rw [hdet, spansFrom_map_phase]
          refine List.Nodup.map Phase.value_injective ?_
          exact ((List.perm_insertionSort _ H).map Prod.fst).nodup_iff.mpr
            hnodup0

/-- Mapping `some` over a list commutes with an index update. -/
theorem map_some_modify {α : Type} (f : α → α) :
    ∀ (l : List α) (j : Nat),
      (l.modify f j).map Option.some =
        (l.map Option.some).modify (Option.map f) j
  | [], _ => by simp
  | x :: xs, 0 => by simp
  | x :: xs, j + 1 => by
      simp only [List.modify_succ_cons, List.map_cons]
      rw [map_some_modify f xs j]

/-- Appending one key to the spec index appends one slot entry. -/
theorem specIndexFrom_append (hash : String → String) (c : String) :
    ∀ (ks : List String) (n : Nat),
      specIndexFrom hash n (ks ++ [c]) =
        specIndexFrom hash n ks ++ [(hash c, n + ks.length)]
  | [], n => by simp [specIndexFrom]
  | k :: rest, n => by
      simp only [List.cons_append, specIndexFrom, List.length_cons,
        List.append_eq, specIndexFrom_append hash c rest (n + 1)]
      have harith : n + 1 + rest.length = n + (rest.length + 1) := by omega
      rw [harith]

/-- A canonical key absent from the spec index is not found by lookup. -/
theorem alLookup_specIndexFrom_none (hash : String → String)
    (hinj : Function.Injective hash) (c : String) :
    ∀ (ks : List String) (n : Nat), c ∉ ks →
      alLookup (specIndexFrom hash n ks) (hash c) = none
  | [], n, _ => rfl
  | k :: rest, n, h => by
      have hk : hash k ≠ hash c := fun he =>
        h (by simp [hinj he])
      simp only [specIndexFrom, alLookup, if_neg hk]
      exact alLookup_specIndexFrom_none hash hinj c rest (n + 1)
        (fun hc => h (by simp [hc]))

/-- Spec list over an extended key list. -/
theorem specList_append (hash : String → String) (ms : List MatchInfo)
    (c : String) :
    ∀ (ks : List String) (n : Nat),
      specList hash ms n (ks ++ [c]) =
        specList hash ms n ks ++
          [specEvent hash (ms.filter (fun m => m.canonical = c))
            (n + ks.length)]
  | [], n => by simp [specList]
  | k :: rest, n => by
      simp only [List.cons_append, specList, List.length_cons,
        List.append_eq, specList_append hash ms c rest (n + 1)]
      have harith : n + 1 + rest.length = n + (rest.length + 1) := by omega
      rw [harith]

/-- Spec lists agree when the per-key match groups agree. -/
theorem specList_congr (hash : String → String) (ms1 ms2 : List MatchInfo) :
    ∀ (ks : List String) (n : Nat),
      (∀ c ∈ ks, ms1.filter (fun m => m.canonical = c) =
        ms2.filter (fun m => m.canonical = c)) →
      specList hash ms1 n ks = specList hash ms2 n ks
  | [], _, _ => rfl
  | k :: rest, n, h => by
      simp only [specList]
      rw [h k (by simp),
        specList_congr hash ms1 ms2 rest (n + 1)
          (fun c hc => h c (by simp [hc]))]

/-- Length of the spec list. -/
theorem specList_length (hash : String → String) (ms : List MatchInfo) :
    ∀ (ks : List String) (n : Nat), (specList hash ms n ks).length = ks.length
  | [], _ => rfl
  | k :: rest, n => by
      simp [specList, specList_length hash ms rest (n + 1)]

/-- Membership in the first-seen keys is membership among the canonicals. -/
theorem mem_firstKeys (c : String) (ms : List MatchInfo) :
    c ∈ firstKeys ms ↔ c ∈ ms.map MatchInfo.canonical := by
  have general : ∀ (ms : List MatchInfo) (acc : List String),
      (c ∈ ms.foldl
        (fun acc m =>
          if m.canonical ∈ acc then acc else acc ++ [m.canonical]) acc) ↔
      c ∈ acc ∨ c ∈ ms.map MatchInfo.canonical := by
    intro ms
    induction ms with
    | nil => intro acc; simp
    | cons m rest ih =>
        intro acc
        rw [List.foldl_cons]
        by_cases hm : m.canonical ∈ acc
        · rw [if_pos hm, ih]
          constructor
          · rintro (h | h)
            · exact Or.inl h
            · exact Or.inr (by simp [h])
          · rintro (h | h)
            · exact Or.inl h
            · simp only [List.map_cons, List.mem_cons] at h
              rcases h with h | h
              · exact Or.inl (h ▸ hm)
              · exact Or.inr h
        · rw [if_neg hm, ih]
          constructor
          · rintro (h | h)
            · rcases List.mem_append.mp h with h | h
              · exact Or.inl h
              · simp at h
                exact Or.inr (by simp [h])
            · exact Or.inr (by simp [h])
          · rintro (h | h)
            · exact Or.inl (List.mem_append.mpr (Or.inl h))
            · simp only [List.map_cons, List.mem_cons] at h
              rcases h with h | h
              · exact Or.inl (List.mem_append.mpr (Or.inr (by simp [h])))
              · exact Or.inr h
  rw [firstKeys, general]
  simp

/-- The first-seen keys are distinct. -/
theorem firstKeys_nodup (ms : List MatchInfo) : (firstKeys ms).Nodup := by
  have general : ∀ (ms : List MatchInfo) (acc : List String), acc.Nodup →
      (ms.foldl
        (fun acc m =>
          if m.canonical ∈ acc then acc else acc ++ [m.canonical]) acc).Nodup := by
    intro ms
    induction ms with
    | nil => intro acc h; exact h
    | cons m rest ih =>
        intro acc h
        rw [List.foldl_cons]
        by_cases hm : m.canonical ∈ acc
        · rw [if_pos hm]; exact ih acc h
        · rw [if_neg hm]
          refine ih _ ?_
          rw [List.nodup_append]
          exact ⟨h, List.nodup_singleton _, by
            intro x hx
            simp
            intro he
            subst he
            exact hm hx⟩
  exact general ms [] List.nodup_nil

/-- First-seen keys of a one-match extension of the stream. -/
theorem firstKeys_append_singleton (p : List MatchInfo) (m : MatchInfo) :
    firstKeys (p ++ [m]) =
      if m.canonical ∈ firstKeys p then firstKeys p
      else firstKeys p ++ [m.canonical] := by
  rw [firstKeys, List.foldl_append]
  rfl

/-- A key that never occurs among the canonicals selects no matches. -/
theorem filter_canonical_nil (p : List MatchInfo) (c : String)
    (h : c ∉ firstKeys p) :
    p.filter (fun m => m.canonical = c) = [] := by
  rw [List.filter_eq_nil_iff]
  intro m hm hcan
  simp at hcan
  exact h ((mem_firstKeys c p).mpr (hcan ▸ List.mem_map_of_mem _ hm))

/-- Extending a non-empty canonical group by one duplicate is exactly the
occurrence bump on its spec event. -/
theorem specEvent_append_dup (hash : String → String) (grp : List MatchInfo)
    (m : MatchInfo) (j : Nat) (hne : grp ≠ []) :
    specEvent hash (grp ++ [m]) j =
      (specEvent hash grp j).map (fun e => bumpEvent e m.lineIdx) := by
  match grp, hne with
  | m0 :: rest, _ =>
      cases rest with
      | nil => simp [specEvent, bumpEvent, buildEvent]
      | cons r rs =>
          simp [specEvent, bumpEvent, buildEvent, List.length_append]

/-- Lookup and update behaviour of a duplicate canonical key against the
spec index and spec list: the key is found at its unique slot, and bumping
that slot turns the spec of the old stream into the spec of the extended
stream. -/
theorem dedup_dup_case (hash : String → String)
    (hinj : Function.Injective hash) (p : List MatchInfo) (m : MatchInfo)
    (hfil : p.filter (fun x => x.canonical = m.canonical) ≠ []) :
    ∀ (ks : List String) (n : Nat), ks.Nodup → m.canonical ∈ ks →
      ∃ j, alLookup (specIndexFrom hash n ks) (hash m.canonical) =
          some (n + j) ∧
        (specList hash p n ks).modify
            (Option.map (fun e => bumpEvent e m.lineIdx)) j =
          specList hash (p ++ [m]) n ks
  | k :: rest, n, hnd, hmem => by
      by_cases hk : k = m.canonical
      · subst hk
        refine ⟨0, ?_, ?_⟩
        · simp [specIndexFrom, alLookup]
        · have hrest_ne : ∀ c ∈ rest, ¬ m.canonical = c := by
            intro c hc he
            exact (List.nodup_cons.mp hnd).1 (he ▸ hc)
          simp only [specList, List.modify_zero_cons]
          rw [List.filter_append]
          rw [show List.filter (fun x => decide (x.canonical = m.canonical))
              [m] = [m] by simp]
          rw [specEvent_append_dup hash _ m n hfil]
          congr 1
          refine (specList_congr hash p (p ++ [m]) rest (n + 1) ?_)
          intro c hc
          rw [List.filter_append]
          rw [show List.filter (fun x => decide (x.canonical = c)) [m] = []
            by simp [hrest_ne c hc]]
          simp
      · have hmem' : m.canonical ∈ rest := by
          rcases List.mem_cons.mp hmem with h | h
          · exact absurd h.symm hk
          · exact h
        obtain ⟨j, hlook, hmod⟩ :=
          dedup_dup_case hash hinj p m hfil rest (n + 1)
            (List.nodup_cons.mp hnd).2 hmem'
        refine ⟨j + 1, ?_, ?_⟩
        · have hne : hash k ≠ hash m.canonical := fun he => hk (hinj he)
          simp only [specIndexFrom, alLookup, if_neg hne]
          rw [hlook]
          congr 1
          omega
        · have hkm : ¬ m.canonical = k := fun he => hk he.symm
          simp only [specList, List.modify_succ_cons]
          rw [hmod]
          congr 1
          rw [List.filter_append]
          rw [show List.filter (fun x => decide (x.canonical = k)) [m] = []
            by simp [hkm]]
          simp

/-- The stable key of a match's fingerprint is the hash of its canonical
string. -/
theorem fp_stable_key (hash : String → String) (m : MatchInfo) :
    (m.fp hash).stable_key = hash m.canonical := rfl

/-- The rule loop over one line is the dedup fold over that line's matches. -/
theorem rules_foldl_eq (hash : String → String)
    (fmt : String → List (String × String) → Option String)
    (lines : List NormalizedLine) (segments : List Segment)
    (cl : Int) (iel : Bool) (line : NormalizedLine) :
    ∀ (rules : List Rule) (st : RunState),
      rules.foldl (processRule hash fmt lines segments cl iel line) st =
        (rules.filterMap (ruleMatch? fmt lines segments cl iel line)).foldl
          (dedupStep hash) st
  | [], st => rfl
  | rule :: rest, st => by
      rw [List.foldl_cons, List.filterMap_cons]
      cases h : ruleMatch? fmt lines segments cl iel line rule with
      | none =>
          rw [rules_foldl_eq hash fmt lines segments cl iel line rest]
          simp [processRule, h]
      | some m =>
          rw [rules_foldl_eq hash fmt lines segments cl iel line rest]
          simp [processRule, h]

/-- The `run_rules` double loop is the dedup fold over the match stream. -/
theorem lines_foldl_eq (hash : String → String)
    (fmt : String → List (String × String) → Option String)
    (allLines : List NormalizedLine) (segments : List Segment)
    (cl : Int) (iel : Bool) (rules : List Rule) :
    ∀ (ls : List NormalizedLine) (st : RunState),
      ls.foldl
        (fun st line =>
          rules.foldl (processRule hash fmt allLines segments cl iel line) st)
        st =
      (ls.flatMap (fun line =>
        rules.filterMap (ruleMatch? fmt allLines segments cl iel line))).foldl
          (dedupStep hash) st
  | [], st => rfl
  | line :: rest, st => by
      rw [List.foldl_cons, List.flatMap_cons, List.foldl_append]
      rw [rules_foldl_eq hash fmt allLines segments cl iel line rules st]
      exact lines_foldl_eq hash fmt allLines segments cl iel rules rest _

/-- Every match produced by `ruleMatch?` starts with no `other_lines`. -/
theorem ruleMatch?_other_lines_none
    (fmt : String → List (String × String) → Option String)
    (lines : List NormalizedLine) (segments : List Segment)
    (cl : Int) (iel : Bool) (line : NormalizedLine) (rule : Rule)
    (m : MatchInfo)
    (h : ruleMatch? fmt lines segments cl iel line rule = some m) :
    m.whereLoc.other_lines = none := by
  unfold ruleMatch? at h
  simp only at h
  by_cases hg : optTruthy rule.required_phase = true ∧
      (lineLocation line.idx segments).2 ≠ rule.required_phase
  · rw [if_pos hg] at h
    exact absurd h (by simp)
  · rw [if_neg hg] at h
    cases hp : rule.pattern line.text with
    | none =>
        rw [hp] at h
        exact absurd h (by simp)
    | some groups =>
        rw [hp] at h
        rw [Option.some.injEq] at h
        subst h
        rfl

/-- Every match in a match stream starts with no `other_lines`. -/
theorem matchStream_other_lines_none
    (fmt : String → List (String × String) → Option String)
    (lines : List NormalizedLine) (segments : List Segment)
    (cl : Int) (iel : Bool) (rules : List Rule) :
    ∀ m ∈ matchStream fmt lines segments cl iel rules,
      m.whereLoc.other_lines = none := by
  intro m hm
  rw [matchStream, List.mem_flatMap] at hm
  obtain ⟨line, _, hm⟩ := hm
  rw [List.mem_filterMap] at hm
  obtain ⟨rule, _, hrm⟩ := hm
  exact ruleMatch?_other_lines_none fmt lines segments cl iel line rule m hrm

/-- Invariant of the dedup fold: after any match stream whose matches carry
no initial `other_lines`, the deduped list is the spec list over the
first-seen canonicals, and the index is the spec index. -/
theorem fold_dedup_spec (hash : String → String)
    (hinj : Function.Injective hash) (ms : List MatchInfo)
    (hol : ∀ m ∈ ms, m.whereLoc.other_lines = none) :
    ((ms.foldl (dedupStep hash) { deduped := [], index := [] }).deduped).map
        Option.some =
      specList hash ms 0 (firstKeys ms) ∧
    (ms.foldl (dedupStep hash) { deduped := [], index := [] }).index =
      specIndexFrom hash 0 (firstKeys ms) := by
  induction ms using List.reverseRecOn with
  | nil => exact ⟨rfl, rfl⟩
  | append_singleton p m ih =>
      have hol_p : ∀ x ∈ p, x.whereLoc.other_lines = none := fun x hx =>
        hol x (List.mem_append.mpr (Or.inl hx))
      have hol_m : m.whereLoc.other_lines = none :=
        hol m (List.mem_append.mpr (Or.inr (by simp)))
      obtain ⟨ihD, ihX⟩ := ih hol_p
      rw [List.foldl_append, List.foldl_cons, List.foldl_nil]
      set st := p.foldl (dedupStep hash) { deduped := [], index := [] }
        with hst
      by_cases hc : m.canonical ∈ firstKeys p
      · have hfil : p.filter (fun x => x.canonical = m.canonical) ≠ [] := by
          intro hnil
          have hmem := (mem_firstKeys _ p).mp hc
          rw [List.mem_map] at hmem
          obtain ⟨x, hx, hxc⟩ := hmem
          have : x ∈ p.filter (fun x => x.canonical = m.canonical) :=
            List.mem_filter.mpr ⟨hx, by simp [hxc]⟩
          rw [hnil] at this
          exact absurd this (by simp)
        obtain ⟨j, hlook, hmod⟩ :=
          dedup_dup_case hash hinj p m hfil (firstKeys p) 0
            (firstKeys_nodup p) hc
        have hkeys : firstKeys (p ++ [m]) = firstKeys p := by
          rw [firstKeys_append_singleton, if_pos hc]
        rw [Nat.zero_add] at hlook
        constructor
        · show ((dedupStep hash st m).deduped).map Option.some = _
          simp only [dedupStep, fp_stable_key, ihX, hlook]
          rw [hkeys, map_some_modify, ihD, hmod]
        · show (dedupStep hash st m).index = _
          simp only [dedupStep, fp_stable_key, ihX, hlook]
          rw [hkeys]
      · have hlook : alLookup (specIndexFrom hash 0 (firstKeys p))
            (hash m.canonical) = none :=
          alLookup_specIndexFrom_none hash hinj m.canonical (firstKeys p) 0 hc
        have hkeys : firstKeys (p ++ [m]) =
            firstKeys p ++ [m.canonical] := by
          rw [firstKeys_append_singleton, if_neg hc]
        have hlen : st.deduped.length = (firstKeys p).length := by
          have := congrArg List.length ihD
          simpa [specList_length] using this
        constructor
        · show ((dedupStep hash st m).deduped).map Option.some = _
          rw [dedupStep, fp_stable_key, ihX, hlook]
          simp only [List.map_append, ihD, hkeys]
          rw [specList_append]
          congr 1
          · refine specList_congr hash p (p ++ [m]) (firstKeys p) 0 ?_
            intro c hcmem
            rw [List.filter_append]
            have hne_c : ¬ m.canonical = c := fun he => hc (he ▸ hcmem)
            rw [show List.filter (fun x => decide (x.canonical = c)) [m] = []
              by simp [hne_c]]
            simp
          · rw [List.filter_append, filter_canonical_nil p m.canonical hc]
            rw [show List.filter
                (fun x => decide (x.canonical = m.canonical)) [m] = [m]
              by simp]
            have hwl : ({ m.whereLoc with other_lines := none } : WhereLoc) =
                m.whereLoc := by
              rw [← hol_m]
            rw [hlen]
            simp [specEvent, buildEvent, hwl, Nat.zero_add]
        · show (dedupStep hash st m).index = _
          rw [dedupStep, fp_stable_key, ihX, hlook]
          simp only [hkeys]
          rw [specIndexFrom_append, hlen]
          simp

/-- C1 counterexample: a run with two matches whose
`(category, severity, hit text, module, file, line)` tuples are distinct —
`("c","s","T|M","","","")` from the first line and `("c","s","T","M|","","")`
from the second — still yields a single event with `occurrences = 2`
(and `other_lines = [2]`), because the dedup key is the pipe-joined
canonical string, which collides here; the claim would require two events
with one occurrence each. -/
theorem run_rules_tuple_dedup_counterexample :
    (matchStream pyFormat exLines [] 20 true [exRuleA, exRuleB]).map
        (fun m => (m.category, m.severity, m.hit_text,
          (alLookup m.extracted "module").getD "",
          (alLookup m.extracted "file").getD "",
          (alLookup m.extracted "line").getD "")) =
      [("c", "s", "T|M", "", "", ""), ("c", "s", "T", "M|", "", "")] ∧
    ("c", "s", "T|M", "", "", "") ≠ ("c", "s", "T", "M|", "", "") ∧
    (run_rules (fun s => s) pyFormat exLines [] [exRuleA, exRuleB]).map
        (fun e => (e.event_id, e.occurrences,
          e.whereLoc.other_lines)) =
      [("evt-1", 2, some [2])] := by
  refine ⟨rfl, by decide, rfl⟩

/-- C1 (amended): with a collision-free hash, `run_rules` produces exactly
one event per distinct canonical fingerprint string (the six dedup fields
joined with `"|"`), not per distinct field tuple: in first-seen order, each
event is built from its group's first match (keeping that match's evidence,
hit text and location), carries the sequential id `evt-(j+1)`, has
`occurrences` equal to the group's total match count, and `other_lines`
listing every non-first matching line index; duplicates create no new
event, evidence, or id. -/
theorem run_rules_dedup_canonical (hash : String → String)
    (hinj : Function.Injective hash)
    (fmt : String → List (String × String) → Option String)
    (lines : List NormalizedLine) (segments : List Segment)
    (rules : List Rule) (cl : Int) (iel : Bool) :
    (run_rules hash fmt lines segments rules cl iel).map Option.some =
      specList hash (matchStream fmt lines segments cl iel rules) 0
        (firstKeys (matchStream fmt lines segments cl iel rules)) := by
  rw [run_rules, lines_foldl_eq]
  exact (fold_dedup_spec hash hinj _
    (matchStream_other_lines_none fmt lines segments cl iel rules)).1

/-- Witness for C1 (amended): the identity hash is injective and the
theorem applies to the collision example run. -/
theorem run_rules_dedup_canonical_witness :
    Function.Injective (fun s : String => s) ∧
    (run_rules (fun s : String => s) pyFormat exLines [] [exRuleA, exRuleB]
        20 true).map Option.some =
      specList (fun s : String => s)
        (matchStream pyFormat exLines [] 20 true [exRuleA, exRuleB]) 0
        (firstKeys
          (matchStream pyFormat exLines [] 20 true [exRuleA, exRuleB])) :=
  ⟨fun _ _ h => h,
    run_rules_dedup_canonical (fun s => s) (fun _ _ h => h) pyFormat exLines
      [] [exRuleA, exRuleB] 20 true⟩

/-- Setting a key makes it found with the new value. -/
theorem alLookup_alSet_self {α : Type} (k : String) (v : α) :
    ∀ l : List (String × α), alLookup (alSet l k v) k = some v
  | [] => by simp [alSet, alLookup]
  | (k', v') :: rest => by
      by_cases h : k' = k
      · simp [alSet, alLookup, h]
      · simp only [alSet, if_neg h, alLookup, if_neg h]
        exact alLookup_alSet_self k v rest

/-- Setting one key leaves lookups of other keys unchanged. -/
theorem alLookup_alSet_ne {α : Type} (k' k : String) (v : α) (hne : k' ≠ k) :
    ∀ l : List (String × α), alLookup (alSet l k' v) k = alLookup l k
  | [] => by simp [alSet, alLookup, hne]
  | (k0, v0) :: rest => by
      by_cases h : k0 = k'
      · subst h
        simp [alSet, alLookup, hne]
      · simp only [alSet, if_neg h, alLookup]
        by_cases h0 : k0 = k
        · simp [h0]
        · simp only [if_neg h0]
          exact alLookup_alSet_ne k' k v hne rest

/-- C8 counterexample: a `memory.mrc` rule whose match extracts all of
`mc`, `ch`, `dimm`, `spd` but whose subcategory is not `spd_addr_zero`
derives neither `spd_addr` nor `slot` — the engine's special case also
requires `subcategory == "spd_addr_zero"`. -/
theorem mrc_derivation_counterexample :
    mrcExRule.category = "memory.mrc" ∧
    (run_rules (fun s => s) pyFormat
        [{ idx := 1, raw := "SPD zero", text := "SPD zero" }] []
        [mrcExRule]).map Event.extracted =
      [[("mc", "0"), ("ch", "1"), ("dimm", "2"), ("spd", "a0")]] ∧
    alHasKey [("mc", "0"), ("ch", "1"), ("dimm", "2"), ("spd", "a0")]
        "spd_addr" = false ∧
    alHasKey [("mc", "0"), ("ch", "1"), ("dimm", "2"), ("spd", "a0")]
        "slot" = false := by
  exact ⟨rfl, rfl, rfl, rfl⟩

/-- C8 (amended): when the rule's category is `memory.mrc`, its subcategory
is `spd_addr_zero`, and the extracted fields contain all of `mc`, `ch`,
`dimm` and `spd`, the engine's special case derives
`spd_addr = "0x" ++ spd` and `slot = "MC{mc}_C{ch}_D{dimm}"`. -/
theorem applyMrcSpecial_derives (rule : Rule)
    (extracted : List (String × String))
    (hcat : rule.category = "memory.mrc")
    (hsub : rule.subcategory = some "spd_addr_zero")
    (hmc : alHasKey extracted "mc" = true)
    (hch : alHasKey extracted "ch" = true)
    (hdimm : alHasKey extracted "dimm" = true)
    (hspd : alHasKey extracted "spd" = true) :
    alLookup (applyMrcSpecial rule extracted) "spd_addr" =
      some ("0x" ++ (alLookup extracted "spd").getD "") ∧
    alLookup (applyMrcSpecial rule extracted) "slot" =
      some ("MC" ++ (alLookup extracted "mc").getD "" ++ "_C" ++
        (alLookup extracted "ch").getD "" ++ "_D" ++
        (alLookup extracted "dimm").getD "") := by
  rw [applyMrcSpecial, if_pos ⟨hcat, hsub, hmc, hch, hdimm, hspd⟩]
  constructor
  · rw [alLookup_alSet_ne "slot" "spd_addr" _ (by decide)]
    exact alLookup_alSet_self _ _ _
  · rw [alLookup_alSet_self]
    rw [alLookup_alSet_ne "spd_addr" "mc" _ (by decide)]
    rw [alLookup_alSet_ne "spd_addr" "ch" _ (by decide)]
    rw [alLookup_alSet_ne "spd_addr" "dimm" _ (by decide)]

/-- Witness for C8 (amended): a concrete `spd_addr_zero` rule and extracted
mapping satisfy the hypotheses and get both derived fields. -/
theorem applyMrcSpecial_derives_witness :
    ({ mrcExRule with subcategory := some "spd_addr_zero" } : Rule).category =
        "memory.mrc" ∧
    (alLookup (applyMrcSpecial
        { mrcExRule with subcategory := some "spd_addr_zero" }
        [("mc", "0"), ("ch", "1"), ("dimm", "2"), ("spd", "a0")])
      "spd_addr" = some "0xa0" ∧
     alLookup (applyMrcSpecial
        { mrcExRule with subcategory := some "spd_addr_zero" }
        [("mc", "0"), ("ch", "1"), ("dimm", "2"), ("spd", "a0")])
      "slot" = some "MC0_C1_D2") := by
  refine ⟨rfl, ?_⟩
  have h := applyMrcSpecial_derives
    { mrcExRule with subcategory := some "spd_addr_zero" }
    [("mc", "0"), ("ch", "1"), ("dimm", "2"), ("spd", "a0")]
    rfl rfl rfl rfl rfl rfl
  refine ⟨?_, ?_⟩
  · rw [h.1]
    rfl
  · rw [h.2]
    rfl

/-- Witness for C4: a concrete two-line log with strictly increasing line
indices and an empty marker table satisfies the hypotheses and the span
invariants. -/
theorem detect_phases_invariants_witness :
    (([{ idx := 1, raw := "a", text := "x" },
       { idx := 2, raw := "b", text := "y" }] :
        List NormalizedLine).map NormalizedLine.idx).Pairwise (· < ·) ∧
    (((detect_phases (fun _ => [])
        [{ idx := 1, raw := "a", text := "x" },
         { idx := 2, raw := "b", text := "y" }]).map
          PhaseSpan.start_line).Pairwise (· < ·) ∧
      (detect_phases (fun _ => [])
        [{ idx := 1, raw := "a", text := "x" },
         { idx := 2, raw := "b", text := "y" }]).Chain'
          (fun a b => a.end_line + 1 = b.start_line) ∧
      (∀ h : detect_phases (fun _ => [])
          [{ idx := 1, raw := "a", text := "x" },
           { idx := 2, raw := "b", text := "y" }] ≠ [],
        ∃ h' : ([{ idx := 1, raw := "a", text := "x" },
                 { idx := 2, raw := "b", text := "y" }] :
            List NormalizedLine) ≠ [],
          ((detect_phases (fun _ => [])
            [{ idx := 1, raw := "a", text := "x" },
             { idx := 2, raw := "b", text := "y" }]).getLast h).end_line =
            (([{ idx := 1, raw := "a", text := "x" },
               { idx := 2, raw := "b", text := "y" }] :
                List NormalizedLine).getLast h').idx) ∧
      ((detect_phases (fun _ => [])
        [{ idx := 1, raw := "a", text := "x" },
         { idx := 2, raw := "b", text := "y" }]).map PhaseSpan.phase).Nodup ∧
      ((∀ l ∈ ([{ idx := 1, raw := "a", text := "x" },
                { idx := 2, raw := "b", text := "y" }] :
          List NormalizedLine), ∀ ph : Phase,
          (lineHitsPhase (fun _ => []) l.text ph).1 = false) →
        detect_phases (fun _ => [])
          [{ idx := 1, raw := "a", text := "x" },
           { idx := 2, raw := "b", text := "y" }] = [])) :=
  ⟨by decide,
    detect_phases_invariants (fun _ => [])
      [{ idx := 1, raw := "a", text := "x" },
       { idx := 2, raw := "b", text := "y" }] (by decide)⟩

/-- Setting a key makes it present. -/
theorem alHasKey_alSet_self {α : Type} (k : String) (v : α) :
    ∀ l : List (String × α), alHasKey (alSet l k v) k = true
  | [] => by simp [alSet, alHasKey]
  | (k', v') :: rest => by
      by_cases h : k' = k
      · simp [alSet, alHasKey, h]
      · simp only [alSet, if_neg h, alHasKey, h]
        simp [alHasKey_alSet_self k v rest]

/-- Setting any key keeps every present key present. -/
theorem alHasKey_alSet_mono {α : Type} (k' k : String) (v : α) :
    ∀ l : List (String × α), alHasKey l k = true →
      alHasKey (alSet l k' v) k = true
  | [], h => by simp [alHasKey] at h
  | (k0, v0) :: rest, h => by
      by_cases h0 : k0 = k'
      · subst h0
        simp only [alSet, if_pos rfl, alHasKey]
        simp only [alHasKey] at h
        rcases Bool.or_eq_true_iff.mp h with h | h
        · simp [h]
        · simp [h]
      · simp only [alSet, if_neg h0, alHasKey] at h ⊢
        rcases Bool.or_eq_true_iff.mp h with h | h
        · simp [h]
        · simp [alHasKey_alSet_mono k' k v rest h]

/-- A key that looks up is present. -/
theorem alHasKey_of_alLookup {α : Type} (k : String) (v : α) :
    ∀ l : List (String × α), alLookup l k = some v → alHasKey l k = true
  | [], h => by simp [alLookup] at h
  | (k0, v0) :: rest, h => by
      by_cases h0 : k0 = k
      · simp [alHasKey, h0]
      · simp only [alLookup, if_neg h0] at h
        simp only [alHasKey, h0]
        simp [alHasKey_of_alLookup k v rest h]

/-- Filling a key makes it present. -/
theorem alHasKey_fillKey_self (r : List (String × Json)) (k : String)
    (v : Json) : alHasKey (fillKey r k v) k = true := by
  rw [fillKey]
  by_cases h : alHasKey r k
  · simp [h]
  · simp [h, alHasKey_alSet_self]

/-- Filling any key keeps present keys present. -/
theorem alHasKey_fillKey_mono (r : List (String × Json)) (k' k : String)
    (v : Json) (h : alHasKey r k = true) :
    alHasKey (fillKey r k' v) k = true := by
  rw [fillKey]
  by_cases h' : alHasKey r k'
  · simpa [h']
  · simp [h', alHasKey_alSet_mono k' k v r h]

/-- Rebuilding a list section keeps present keys present. -/
theorem alHasKey_mapListKey_mono (r : List (String × Json)) (k' k : String)
    (f : List Json → List Json) (h : alHasKey r k = true) :
    alHasKey (mapListKey r k' f) k = true := by
  rw [mapListKey]
  cases hl : alLookup r k' with
  | none => simpa
  | some v => cases v <;> simp [h, alHasKey_alSet_mono k' k _ r h]

/-- Filling a key leaves other lookups unchanged. -/
theorem alLookup_fillKey_ne (r : List (String × Json)) (k' k : String)
    (v : Json) (hne : k' ≠ k) :
    alLookup (fillKey r k' v) k = alLookup r k := by
  rw [fillKey]
  by_cases h : alHasKey r k'
  · simp [h]
  · simp [h, alLookup_alSet_ne k' k v hne r]

/-- Rebuilding a list section leaves other lookups unchanged. -/
theorem alLookup_mapListKey_ne (r : List (String × Json)) (k' k : String)
    (f : List Json → List Json) (hne : k' ≠ k) :
    alLookup (mapListKey r k' f) k = alLookup r k := by
  rw [mapListKey]
  cases hl : alLookup r k' with
  | none => simp
  | some v => cases v <;> simp [alLookup_alSet_ne k' k _ hne r]

/-- Filling an already-present key changes nothing. -/
theorem fillKey_of_present (r : List (String × Json)) (k : String) (v : Json)
    (h : alHasKey r k = true) : fillKey r k v = r := by
  simp [fillKey, h]

/-- Rebuilding a present list section rebuilds exactly its items. -/
theorem alLookup_mapListKey_self (r : List (String × Json)) (k : String)
    (f : List Json → List Json) (items : List Json)
    (h : alLookup r k = some (.arr items)) :
    alLookup (mapListKey r k f) k = some (.arr (f items)) := by
  rw [mapListKey, h]
  exact alLookup_alSet_self k _ r

/-- C7 counterexample: the synthesis repair leaves an out-of-range
`overall_confidence` of 5 unclamped, and keeps an action entry that has no
supporting event ids, defaulting its ids to the best event id instead of
dropping it — both contradicting the claim. -/
theorem repair_clamp_drop_counterexample :
    alLookup (repair_llm_synthesis synClampExample "evt-1")
        "overall_confidence" = some (.num 5) ∧
    ¬ ((5 : ℚ) ≤ 1) ∧
    alLookup (repair_llm_synthesis synClampExample "evt-1")
        "recommended_next_actions" =
      some (.arr [.obj
        [("action", .str "do x"), ("priority", .str "P0"),
         ("expected_signal", .str "watch"),
         ("supporting_event_ids", .arr [.str "evt-1"])]]) := by
  refine ⟨?_, by norm_num, ?_⟩ <;>
    simp [synClampExample, repair_llm_synthesis, fillKey, mapListKey,
      alLookup, alSet, alHasKey, repairHypItem, repairActionItem,
      repairMissingItem, actionFromString, pyStrip, pyWs, pyTake]

/-- The clamp helper always lands in `[0, 1]` when its default does. -/
theorem clampConf_mem (sf : String → Option ℚ) (v : Option Json) (d : ℚ)
    (h0 : 0 ≤ d) (h1 : d ≤ 1) :
    0 ≤ clampConf sf v d ∧ clampConf sf v d ≤ 1 := by
  cases v with
  | none => simpa [clampConf] using ⟨h0, h1⟩
  | some j =>
      cases hq : pyFloat? sf j with
      | none => simpa [clampConf, hq] using ⟨h0, h1⟩
      | some q =>
          simp only [clampConf, hq]
          by_cases hlt : q < 0
          · simp [hlt]
          · by_cases hgt : 1 < q
            · simp [hlt, hgt]
            · simp only [if_neg hlt, if_neg hgt]
              exact ⟨le_of_not_lt hlt, le_of_not_lt hgt⟩

/-- C7 (amended): both repairs fill every missing required top-level key
with its default; clamping into `[0, 1]` happens only in the facts repair
(the grounding confidence and each kept fact's confidence), while the
synthesis repair passes a present numeric `overall_confidence` through
unchanged; fact entries lacking a non-empty text or any string supporting
id are dropped; action entries lacking a non-empty action text are dropped,
but action entries lacking supporting ids are kept with the best event id
as their sole citation rather than dropped. -/
theorem repair_defaults_clamp_drop (sf : String → Option ℚ)
    (candidate : List (String × Json)) (best : String) (fc : Json) :
    (∀ k ∈ (["overall_confidence", "executive_summary",
        "root_cause_hypotheses", "recommended_next_actions",
        "missing_evidence"] : List String),
      alHasKey (repair_llm_synthesis candidate best) k = true) ∧
    (∀ q : ℚ, alLookup candidate "overall_confidence" = some (.num q) →
      alLookup (repair_llm_synthesis candidate best) "overall_confidence" =
        some (.num q)) ∧
    (alHasKey (Json.fieldsOf (repair_llm_facts sf fc))
        "overall_grounding_confidence" = true ∧
      alHasKey (Json.fieldsOf (repair_llm_facts sf fc)) "facts" = true) ∧
    (∃ q : ℚ, Json.get? (repair_llm_facts sf fc)
        "overall_grounding_confidence" = some (.num q) ∧ 0 ≤ q ∧ q ≤ 1) ∧
    (∀ item out : Json, repairFactItem sf item = some out →
      ∃ (t : String) (ids : List String) (q : ℚ),
        out = .obj [("fact", .str t),
          ("supporting_event_ids", .arr (ids.map Json.str)),
          ("confidence", .num q)] ∧
        pyStrip t ≠ "" ∧ ids ≠ [] ∧ 0 ≤ q ∧ q ≤ 1 ∧
        Json.get? item "fact" = some (.str t)) ∧
    (∀ fields : List (String × Json),
      (∀ s : String, alLookup fields "action" = some (.str s) →
        pyStrip s = "") →
      repairActionItem (.obj fields) best = none) ∧
    (∀ (fields : List (String × Json)) (a : String),
      alLookup fields "action" = some (.str a) → pyStrip a ≠ "" →
      alLookup fields "supporting_event_ids" = none →
      ∃ pr es : String,
        repairActionItem (.obj fields) best = some (.obj
          [("action", .str (pyTake (pyStrip a) 300)),
           ("priority", .str pr),
           ("expected_signal", .str es),
           ("supporting_event_ids", .arr [.str best])])) := by
  refine ⟨?_, ?_, ?_, ?_, ?_, ?_, ?_⟩
  · intro k hk
    simp only [repair_llm_synthesis]
    fin_cases hk
    · exact alHasKey_mapListKey_mono _ _ _ _ (alHasKey_mapListKey_mono _ _ _ _
        (alHasKey_mapListKey_mono _ _ _ _ (alHasKey_fillKey_mono _ _ _ _
          (alHasKey_fillKey_mono _ _ _ _ (alHasKey_fillKey_mono _ _ _ _
            (alHasKey_fillKey_mono _ _ _ _
              (alHasKey_fillKey_self candidate _ _)))))))
    · exact alHasKey_mapListKey_mono _ _ _ _ (alHasKey_mapListKey_mono _ _ _ _
        (alHasKey_mapListKey_mono _ _ _ _ (alHasKey_fillKey_mono _ _ _ _
          (alHasKey_fillKey_mono _ _ _ _ (alHasKey_fillKey_mono _ _ _ _
            (alHasKey_fillKey_self _ _ _))))))
    · exact alHasKey_mapListKey_mono _ _ _ _ (alHasKey_mapListKey_mono _ _ _ _
        (alHasKey_mapListKey_mono _ _ _ _ (alHasKey_fillKey_mono _ _ _ _
          (alHasKey_fillKey_mono _ _ _ _ (alHasKey_fillKey_self _ _ _)))))
    · exact alHasKey_mapListKey_mono _ _ _ _ (alHasKey_mapListKey_mono _ _ _ _
        (alHasKey_mapListKey_mono _ _ _ _ (alHasKey_fillKey_mono _ _ _ _
          (alHasKey_fillKey_self _ _ _))))
    · exact alHasKey_mapListKey_mono _ _ _ _ (alHasKey_mapListKey_mono _ _ _ _
        (alHasKey_mapListKey_mono _ _ _ _ (alHasKey_fillKey_self _ _ _)))
  · intro q hq
    simp only [repair_llm_synthesis]
    rw [alLookup_mapListKey_ne _ _ _ _ (by decide),
      alLookup_mapListKey_ne _ _ _ _ (by decide),
      alLookup_mapListKey_ne _ _ _ _ (by decide),
      alLookup_fillKey_ne _ _ _ _ (by decide),
      alLookup_fillKey_ne _ _ _ _ (by decide),
      alLookup_fillKey_ne _ _ _ _ (by decide),
      alLookup_fillKey_ne _ _ _ _ (by decide),
      fillKey_of_present _ _ _ (alHasKey_of_alLookup _ _ _ hq)]
    exact hq
  · constructor
    · simp only [repair_llm_facts, Json.fieldsOf]
      exact alHasKey_alSet_mono _ _ _ _ (alHasKey_alSet_self _ _ _)
    · simp only [repair_llm_facts, Json.fieldsOf]
      exact alHasKey_alSet_self _ _ _
  · simp only [repair_llm_facts, Json.get?]
    rw [alLookup_alSet_ne _ _ _ (by decide), alLookup_alSet_self]
    exact ⟨_, rfl,
      (clampConf_mem sf _ (1 / 5) (by norm_num) (by norm_num)).1,
      (clampConf_mem sf _ (1 / 5) (by norm_num) (by norm_num)).2⟩
  · intro item out h
    cases item with
    | obj fields =>
        rw [repairFactItem] at h
        cases hf : alLookup fields "fact" with
        | none => simp [hf] at h
        | some fv =>
            cases fv with
            | str t =>
                simp only [hf] at h
                by_cases hs : pyStrip t = ""
                · rw [if_pos hs] at h
                  exact absurd h (by simp)
                · rw [if_neg hs] at h
                  cases hi : alLookup fields "supporting_event_ids" with
                  | none => simp [hi] at h
                  | some iv =>
                      cases iv with
                      | arr ids =>
                          simp only [hi] at h
                          by_cases hie : ids.isEmpty
                          · rw [if_pos hie] at h
                            exact absurd h (by simp)
                          · rw [if_neg hie] at h
                            by_cases hce : (ids.filterMap strProj).isEmpty
                            · rw [if_pos hce] at h
                              exact absurd h (by simp)
                            · rw [if_neg hce] at h
                              rw [Option.some.injEq] at h
                              refine ⟨t, _, _, h.symm, hs, ?_, ?_, ?_, ?_⟩
                              · intro hc
                                rw [hc] at hce
                                exact hce rfl
                              · exact (clampConf_mem sf _ (3 / 10)
                                  (by norm_num) (by norm_num)).1
                              · exact (clampConf_mem sf _ (3 / 10)
                                  (by norm_num) (by norm_num)).2
                              · simpa [Json.get?] using hf
                      | null => simp [hi] at h
                      | bool b => simp [hi] at h
                      | num q => simp [hi] at h
                      | str s => simp [hi] at h
                      | obj o => simp [hi] at h
            | null => simp [hf] at h
            | bool b => simp [hf] at h
            | num q => simp [hf] at h
            | arr l => simp [hf] at h
            | obj o => simp [hf] at h
    | null => simp [repairFactItem] at h
    | bool b => simp [repairFactItem] at h
    | num q => simp [repairFactItem] at h
    | str s => simp [repairFactItem] at h
    | arr l => simp [repairFactItem] at h
  · intro fields hs
    rw [repairActionItem]
    cases ha : alLookup fields "action" with
    | none => rfl
    | some av =>
        cases av with
        | str a => simp [hs a ha]
        | null => rfl
        | bool b => rfl
        | num q => rfl
        | arr l => rfl
        | obj o => rfl
  · intro fields a ha hne hids
    simp only [repairActionItem, ha, if_neg hne, hids]
    exact ⟨_, _, rfl⟩

/-- Witness: on a concrete synthesis payload whose overall_confidence is 5,
the repair pass keeps the out-of-range value 5 unchanged. -/
theorem repair_defaults_clamp_drop_witness :
    alLookup synClampExample "overall_confidence" = some (.num 5) ∧
    alLookup (repair_llm_synthesis synClampExample "evt-1")
      "overall_confidence" = some (.num 5) :=
  ⟨rfl, (repair_defaults_clamp_drop (fun _ => none) synClampExample "evt-1"
    (.obj [])).2.1 5 rfl⟩

/-- C5: `detect_stalls` sorts markers by index and, for each adjacent pair in
the same phase bucket (containment lookup, `"unknown"` outside every span),
emits exactly one StallSignal with confidence 0.6 anchored at the earlier
marker (`start_line` and `last_milestone` from the earlier marker,
`gap_lines` the index difference) iff the gap strictly exceeds the
threshold; pairs in different phases emit nothing. In particular two
same-phase markers 6000 lines apart with threshold 5000 yield exactly one
stall with `gap_lines = 6000`. -/
theorem detect_stalls_adjacent_pairs :
    (∀ (markers : List Marker) (phases : List PhaseSpan) (g : Int),
      detect_stalls markers phases g =
        ((sortMarkers markers).zip (sortMarkers markers).tail).filterMap
          (stallSpec phases g)) ∧
    detect_stalls
        [{ idx := 7000, kind := "progress", value := "PEI", raw := "b" },
         { idx := 1000, kind := "postcode", value := "AB12CD34", raw := "a" }]
        [{ phase := "PEI", start_line := 1, end_line := 8000,
           confidence := 9 / 10 }] 5000 =
      [{ phase := "PEI", start_line := 1000, end_line := 7000,
         gap_lines := 6000,
         last_milestone :=
           { kind := "postcode", line := 1000, value := "AB12CD34" },
         confidence := 6 / 10 }] := by
  constructor
  · intro markers phases g
    unfold detect_stalls
    by_cases h : markers.length < 2
    · have hlen : (sortMarkers markers).length = markers.length :=
        (List.perm_insertionSort _ markers).length_eq
      match hs : sortMarkers markers with
      | [] => simp [h]
      | [m] => simp [h]
      | m₁ :: m₂ :: rest =>
          exfalso
          rw [hs] at hlen
          simp at hlen
          omega
    · rw [if_neg h, foldl_stallStep, List.nil_append]
  · rfl

/-- A key is held exactly when it appears in the key list. -/
theorem alHasKey_iff_mem {α : Type} (k : String) :
    ∀ l : List (String × α), alHasKey l k = true ↔ k ∈ l.map Prod.fst
  | [] => by simp [alHasKey]
  | (k0, v0) :: rest => by
      simp only [alHasKey, List.map_cons, List.mem_cons, Bool.or_eq_true,
        decide_eq_true_eq]
      rw [alHasKey_iff_mem k rest]
      constructor
      · rintro (h | h)
        · exact Or.inl h.symm
        · exact Or.inr h
      · rintro (h | h)
        · exact Or.inl h.symm
        · exact Or.inr h

/-- Setting a present key preserves the key list. -/
theorem alSet_map_fst_of_hasKey {α : Type} (k : String) (v : α) :
    ∀ l : List (String × α), alHasKey l k = true →
      (alSet l k v).map Prod.fst = l.map Prod.fst
  | [], h => by simp [alHasKey] at h
  | (k0, v0) :: rest, h => by
      by_cases h0 : k0 = k
      · subst h0
        simp [alSet]
      · simp only [alHasKey, Bool.or_eq_true, decide_eq_true_eq] at h
        rcases h with h | h
        · exact absurd h h0
        · simp only [alSet, if_neg h0, List.map_cons]
          rw [alSet_map_fst_of_hasKey k v rest h]

/-- Setting a present key preserves the field count. -/
theorem alSet_length_of_hasKey {α : Type} (k : String) (v : α)
    (l : List (String × α)) (h : alHasKey l k = true) :
    (alSet l k v).length = l.length := by
  have h2 := congrArg List.length (alSet_map_fst_of_hasKey k v l h)
  simpa using h2

/-- Setting a key to the value it already holds is the identity. -/
theorem alSet_lookup_self {α : Type} (k : String) (v : α) :
    ∀ l : List (String × α), alLookup l k = some v → alSet l k v = l
  | [], h => by simp [alLookup] at h
  | (k0, v0) :: rest, h => by
      simp only [alLookup] at h
      simp only [alSet]
      by_cases h0 : k0 = k
      · rw [if_pos h0] at h
        injection h with h1
        rw [if_pos h0, h0, ← h1]
      · rw [if_neg h0] at h
        rw [if_neg h0, alSet_lookup_self k v rest h]

/-- A successful lookup's key/value pair is a member of the list. -/
theorem mem_of_alLookup {α : Type} (k : String) (v : α) :
    ∀ l : List (String × α), alLookup l k = some v → (k, v) ∈ l
  | [], h => by simp [alLookup] at h
  | (k0, v0) :: rest, h => by
      simp only [alLookup] at h
      by_cases h0 : k0 = k
      · rw [if_pos h0] at h
        injection h with h1
        rw [← h0, ← h1]
        exact List.mem_cons_self _ _
      · rw [if_neg h0] at h
        exact List.mem_cons_of_mem _ (mem_of_alLookup k v rest h)

/-- Under distinct keys, membership determines the lookup result. -/
theorem alLookup_of_mem_nodup {α : Type} (k : String) (v : α) :
    ∀ l : List (String × α), (l.map Prod.fst).Nodup → (k, v) ∈ l →
      alLookup l k = some v
  | [], _, hm => absurd hm (List.not_mem_nil _)
  | (k0, v0) :: rest, hnd, hm => by
      simp only [List.map_cons, List.nodup_cons] at hnd
      rcases List.mem_cons.mp hm with he | ht
      · injection he with h1 h2
        subst h1
        subst h2
        simp [alLookup]
      · have hne : k0 ≠ k := by
          intro h0
          subst h0
          exact hnd.1 (List.mem_map.mpr ⟨(k0, v), ht, rfl⟩)
        simp only [alLookup, if_neg hne]
        exact alLookup_of_mem_nodup k v rest hnd.2 ht

/-- Under distinct keys, a member of `alSet l k v` is either the new pair or
an untouched original pair with a different key. -/
theorem mem_alSet_elim {α : Type} (k : String) (v : α) (k2 : String) (v2 : α) :
    ∀ l : List (String × α), (l.map Prod.fst).Nodup →
      (k2, v2) ∈ alSet l k v →
      (k2 = k ∧ v2 = v) ∨ ((k2, v2) ∈ l ∧ k2 ≠ k)
  | [], _, hm => by
      simp only [alSet, List.mem_singleton] at hm
      injection hm with h1 h2
      exact Or.inl ⟨h1, h2⟩
  | (k0, v0) :: rest, hnd, hm => by
      simp only [List.map_cons, List.nodup_cons] at hnd
      simp only [alSet] at hm
      by_cases h0 : k0 = k
      · rw [if_pos h0] at hm
        rcases List.mem_cons.mp hm with he | ht
        · injection he with h1 h2
          exact Or.inl ⟨h1, h2⟩
        · refine Or.inr ⟨List.mem_cons_of_mem _ ht, ?_⟩
          intro hk
          exact hnd.1 (List.mem_map.mpr ⟨(k2, v2), ht, hk.trans h0.symm⟩)
      · rw [if_neg h0] at hm
        rcases List.mem_cons.mp hm with he | ht
        · injection he with h1 h2
          refine Or.inr ⟨?_, ?_⟩
          · rw [h1, h2]
            exact List.mem_cons_self _ _
          · rw [h1]
            exact h0
        · rcases mem_alSet_elim k v k2 v2 rest hnd.2 ht with h | h
          · exact Or.inl h
          · exact Or.inr ⟨List.mem_cons_of_mem _ h.1, h.2⟩

/-- A field equal to the looked-up value passes the per-field dict check. -/
theorem pyEqField_of_lookup (k : String) (w v : Json) :
    ∀ l : List (String × Json), alLookup l k = some v →
      Json.pyEq w v = true → Json.pyEqField k w l = true
  | [], h, _ => by simp [alLookup] at h
  | (k0, v0) :: rest, h, he => by
      simp only [alLookup] at h
      simp only [Json.pyEqField]
      by_cases h0 : k0 = k
      · rw [if_pos h0] at h
        injection h with h1
        rw [if_pos h0, h1]
        exact he
      · rw [if_neg h0] at h
        rw [if_neg h0]
        exact pyEqField_of_lookup k w v rest h he

/-- The subset direction of dict equality follows from per-field checks. -/
theorem pyEqAll_of_forall (l : List (String × Json)) :
    ∀ sub : List (String × Json),
      (∀ k v, (k, v) ∈ sub → Json.pyEqField k v l = true) →
      Json.pyEqAll sub l = true
  | [], _ => by simp [Json.pyEqAll]
  | (k0, v0) :: rest, h => by
      simp only [Json.pyEqAll, Bool.and_eq_true]
      exact ⟨h k0 v0 (List.mem_cons_self _ _),
        pyEqAll_of_forall l rest
          (fun k v hm => h k v (List.mem_cons_of_mem _ hm))⟩

/-- Two dicts are Python-equal when they have the same size and every field
of the first looks up to an equal value in the second. -/
theorem pyEq_obj_of_lookup (g f : List (String × Json))
    (hlen : g.length = f.length)
    (h : ∀ k v, (k, v) ∈ g →
      ∃ w, alLookup f k = some w ∧ Json.pyEq v w = true) :
    Json.pyEq (.obj g) (.obj f) = true := by
  simp only [Json.pyEq, Bool.and_eq_true, beq_iff_eq]
  refine ⟨hlen, pyEqAll_of_forall f g ?_⟩
  intro k v hm
  obtain ⟨w, hw, he⟩ := h k v hm
  exact pyEqField_of_lookup k v w f hw he

/-- The values of a well-formed dict are well-formed. -/
theorem wfFields_mem : ∀ l : List (String × Json), Json.wfFields l = true →
    ∀ k v, (k, v) ∈ l → Json.wf v = true
  | [], _, k, v, hm => absurd hm (List.not_mem_nil _)
  | (k0, v0) :: rest, h, k, v, hm => by
      simp only [Json.wfFields, Bool.and_eq_true] at h
      rcases List.mem_cons.mp hm with he | ht
      · injection he with h1 h2
        rw [h2]
        exact h.1
      · exact wfFields_mem rest h.2 k v ht

/-- The elements of a well-formed list are well-formed. -/
theorem wfList_mem : ∀ l : List Json, Json.wfList l = true →
    ∀ x ∈ l, Json.wf x = true
  | [], _, x, hm => absurd hm (List.not_mem_nil _)
  | y :: rest, h, x, hm => by
      simp only [Json.wfList, Bool.and_eq_true] at h
      rcases List.mem_cons.mp hm with he | ht
      · rw [he]
        exact h.1
      · exact wfList_mem rest h.2 x ht

mutual

/-- Python equality is reflexive on well-formed values. -/
theorem Json.pyEq_refl : ∀ j : Json, Json.wf j = true → Json.pyEq j j = true
  | .null, _ => by simp [Json.pyEq]
  | .bool b, _ => by simp [Json.pyEq]
  | .num q, _ => by simp [Json.pyEq]
  | .str s, _ => by simp [Json.pyEq]
  | .arr l, h => by
      simp only [Json.wf] at h
      simp only [Json.pyEq]
      exact Json.pyEqList_refl l h
  | .obj f, h => by
      simp only [Json.wf, Bool.and_eq_true] at h
      refine pyEq_obj_of_lookup f f rfl ?_
      intro k v hm
      exact ⟨v, alLookup_of_mem_nodup k v f (by simpa using h.1) hm,
        Json.pyEq_vals f h.2 k v hm⟩

/-- Python equality is reflexive on well-formed list elements. -/
theorem Json.pyEqList_refl : ∀ l : List Json, Json.wfList l = true →
    Json.pyEqList l l = true
  | [], _ => by simp [Json.pyEqList]
  | x :: xs, h => by
      simp only [Json.wfList, Bool.and_eq_true] at h
      simp only [Json.pyEqList, Bool.and_eq_true]
      exact ⟨Json.pyEq_refl x h.1, Json.pyEqList_refl xs h.2⟩

/-- Python equality is reflexive on well-formed dict values. -/
theorem Json.pyEq_vals : ∀ f : List (String × Json), Json.wfFields f = true →
    ∀ k v, (k, v) ∈ f → Json.pyEq v v = true
  | [], _, k, v, hm => absurd hm (List.not_mem_nil _)
  | (k0, v0) :: rest, h, k, v, hm => by
      simp only [Json.wfFields, Bool.and_eq_true] at h
      rcases List.mem_cons.mp hm with he | ht
      · have h0 := Json.pyEq_refl v0 h.1
        injection he with h1 h2
        rw [h2]
        exact h0
      · exact Json.pyEq_vals rest h.2 k v ht

end

/-- Pointwise-equal mapped lists are Python-equal. -/
theorem pyEqList_map_of (m : Json → Json) :
    ∀ l : List Json, (∀ x ∈ l, Json.pyEq (m x) x = true) →
      Json.pyEqList (l.map m) l = true
  | [], _ => by simp [Json.pyEqList]
  | x :: xs, h => by
      simp only [List.map_cons, Json.pyEqList, Bool.and_eq_true]
      exact ⟨h x (List.mem_cons_self _ _),
        pyEqList_map_of m xs (fun y hy => h y (List.mem_cons_of_mem _ hy))⟩

/-- A filterMap that keeps every element pointwise-equal is Python-equal. -/
theorem pyEqList_filterMap_of (f : Json → Option Json) :
    ∀ l : List Json,
      (∀ x ∈ l, ∃ y, f x = some y ∧ Json.pyEq y x = true) →
      Json.pyEqList (l.filterMap f) l = true
  | [], _ => by simp [Json.pyEqList]
  | x :: xs, h => by
      obtain ⟨y, hy, he⟩ := h x (List.mem_cons_self _ _)
      rw [List.filterMap_cons_some hy]
      simp only [Json.pyEqList, Bool.and_eq_true]
      exact ⟨he, pyEqList_filterMap_of f xs
        (fun z hz => h z (List.mem_cons_of_mem _ hz))⟩

/-- Python slicing with a bound at least the length is the identity. -/
theorem pyTake_of_le (s : String) (n : Nat) (h : s.length ≤ n) :
    pyTake s n = s := by
  simp only [pyTake, String.toList]
  rw [List.take_of_length_le h]

/-- A string of positive length is not empty. -/
theorem string_ne_empty_of_len (s : String) (h : 1 ≤ s.length) : s ≠ "" := by
  intro he
  rw [he] at h
  exact absurd h (by decide)

/-- A list of string values is the image of a string list. -/
theorem exists_map_str : ∀ l : List Json, l.all Json.isStr = true →
    ∃ ss : List String, l = ss.map Json.str
  | [], _ => ⟨[], rfl⟩
  | x :: xs, h => by
      simp only [List.all_cons, Bool.and_eq_true] at h
      obtain ⟨ss, hss⟩ := exists_map_str xs h.2
      cases x with
      | str s => exact ⟨s :: ss, by rw [List.map_cons, hss]⟩
      | null => simp [Json.isStr] at h
      | bool b => simp [Json.isStr] at h
      | num q => simp [Json.isStr] at h
      | arr a => simp [Json.isStr] at h
      | obj o => simp [Json.isStr] at h

/-- Projecting strings out of a list of string values recovers the list. -/
theorem filterMap_strProj (ss : List String) :
    (ss.map Json.str).filterMap strProj = ss := by
  induction ss with
  | nil => rfl
  | cons s rest ih => simp [strProj, ih]

/-- String values are recognized as strings. -/
theorem all_isStr_map_str (ss : List String) :
    (ss.map Json.str).all Json.isStr = true := by
  induction ss with
  | nil => rfl
  | cons s rest ih => simp [Json.isStr, ih]

/-- A dict with distinct keys, all from a duplicate-free catalogue, holding
every catalogued key, has exactly one field per catalogued key. -/
theorem length_eq_of_keys {α : Type} (l : List (String × α)) (ks : List String)
    (hnd : (l.map Prod.fst).Nodup) (hks : ks.Nodup)
    (hsub : ∀ x ∈ l.map Prod.fst, x ∈ ks)
    (hreq : ∀ k ∈ ks, alHasKey l k = true) :
    l.length = ks.length := by
  have h1 : (l.map Prod.fst).length ≤ ks.length :=
    (List.subperm_of_subset hnd hsub).length_le
  have h2 : ks.length ≤ (l.map Prod.fst).length :=
    (List.subperm_of_subset hks
      (fun k hk => (alHasKey_iff_mem k l).mp (hreq k hk))).length_le
  have h3 : (l.map Prod.fst).length = ks.length := le_antisymm h1 h2
  simpa using h3

/-- Invert a required-field check over an optional value. -/
theorem someMatch_inv (P : Json → Bool) (o : Option Json)
    (h : (match o with | some v => P v | none => false) = true) :
    ∃ v, o = some v ∧ P v = true := by
  match o with
  | none => exact absurd h Bool.false_ne_true
  | some v => exact ⟨v, rfl, h⟩

/-- Invert a required-array check over an optional value. -/
theorem arrMatch_inv (P : List Json → Bool) (o : Option Json)
    (h : (match o with | some (.arr l) => P l | _ => false) = true) :
    ∃ l, o = some (.arr l) ∧ P l = true := by
  match o with
  | some (.arr l) => exact ⟨l, rfl, h⟩
  | none => exact absurd h Bool.false_ne_true
  | some .null => exact absurd h Bool.false_ne_true
  | some (.bool c) => exact absurd h Bool.false_ne_true
  | some (.num q) => exact absurd h Bool.false_ne_true
  | some (.str s) => exact absurd h Bool.false_ne_true
  | some (.obj f) => exact absurd h Bool.false_ne_true

/-- Invert a required-string check over an optional value. -/
theorem strMatch_inv (P : String → Bool) (o : Option Json)
    (h : (match o with | some (.str s) => P s | _ => false) = true) :
    ∃ s, o = some (.str s) ∧ P s = true := by
  match o with
  | some (.str s) => exact ⟨s, rfl, h⟩
  | none => exact absurd h Bool.false_ne_true
  | some .null => exact absurd h Bool.false_ne_true
  | some (.bool c) => exact absurd h Bool.false_ne_true
  | some (.num q) => exact absurd h Bool.false_ne_true
  | some (.arr l) => exact absurd h Bool.false_ne_true
  | some (.obj f) => exact absurd h Bool.false_ne_true

/-- Invert the string bounds check. -/
theorem strOk_inv (v : Json) (lo hi : Nat) (h : strOk v lo hi = true) :
    ∃ s : String, v = .str s ∧ lo ≤ s.length ∧ s.length ≤ hi := by
  cases v with
  | str s =>
      refine ⟨s, rfl, ?_⟩
      simpa [strOk] using h
  | null => simp [strOk] at h
  | bool b => simp [strOk] at h
  | num q => simp [strOk] at h
  | arr l => simp [strOk] at h
  | obj f => simp [strOk] at h

/-- Invert the unit-interval number check. -/
theorem numOk01_inv (v : Json) (h : numOk01 v = true) :
    ∃ q : ℚ, v = .num q ∧ 0 ≤ q ∧ q ≤ 1 := by
  cases v with
  | num q =>
      refine ⟨q, rfl, ?_⟩
      simpa [numOk01] using h
  | null => simp [numOk01] at h
  | bool b => simp [numOk01] at h
  | str s => simp [numOk01] at h
  | arr l => simp [numOk01] at h
  | obj f => simp [numOk01] at h

/-- Invert the supporting-event-ids check. -/
theorem idsOk_inv (v : Json) (h : idsOk v = true) :
    ∃ ss : List String, v = .arr (ss.map Json.str) ∧ ss ≠ [] := by
  cases v with
  | arr l =>
      simp only [idsOk, Bool.and_eq_true] at h
      obtain ⟨ss, hss⟩ := exists_map_str l h.2
      refine ⟨ss, by rw [hss], ?_⟩
      intro he
      rw [he] at hss
      rw [hss] at h
      simp at h
  | null => simp [idsOk] at h
  | bool b => simp [idsOk] at h
  | num q => simp [idsOk] at h
  | str s => simp [idsOk] at h
  | obj f => simp [idsOk] at h

/-- Repairing a dict-shaped missing-evidence entry is the identity. -/
theorem repairMissingItem_obj (best : String)
    (fs : List (String × Json)) :
    repairMissingItem best (.obj fs) = .obj fs := rfl

/-- A valid, already-stripped action entry is rebuilt unchanged and still
validates. -/
theorem repairActionItem_of_valid (best : String) (a : Json)
    (hwf : Json.wf a = true) (hv : validAction a = true)
    (hs : strippedAction a = true) :
    ∃ a', repairActionItem a best = some a' ∧ Json.pyEq a' a = true ∧
      validAction a' = true := by
  cases a with
  | null => simp [validAction] at hv
  | bool b => simp [validAction] at hv
  | num q => simp [validAction] at hv
  | str s => simp [validAction] at hv
  | arr l => simp [validAction] at hv
  | obj fields =>
    simp only [validAction, Bool.and_eq_true] at hv
    obtain ⟨⟨⟨⟨hkeys, hact⟩, hpri⟩, hsig⟩, hids⟩ := hv
    obtain ⟨av, ha, hok⟩ := someMatch_inv _ _ hact
    obtain ⟨act, rfl, hl1, hl2⟩ := strOk_inv av 1 300 hok
    obtain ⟨p, hp, henum⟩ := strMatch_inv _ _ hpri
    obtain ⟨ev, he, heok⟩ := someMatch_inv _ _ hsig
    obtain ⟨e, rfl, he1, he2⟩ := strOk_inv ev 1 300 heok
    obtain ⟨iv, hi, hiok⟩ := someMatch_inv _ _ hids
    obtain ⟨ss, rfl, hss⟩ := idsOk_inv iv hiok
    simp only [strippedAction, ha, he, Bool.and_eq_true,
      decide_eq_true_eq] at hs
    have hneA : act ≠ "" := string_ne_empty_of_len act hl1
    have hne : pyStrip act ≠ "" := by
      rw [hs.1]
      exact hneA
    have hneE : pyStrip e ≠ "" := by
      rw [hs.2]
      exact string_ne_empty_of_len e he1
    have him : ((ss.map Json.str).isEmpty = true) → False := by
      cases ss with
      | nil => exact fun _ => hss rfl
      | cons z zs => simp
    have hsse : (ss.isEmpty = true) → False := by
      cases ss with
      | nil => exact fun _ => hss rfl
      | cons z zs => simp
    simp only [Json.wf, Bool.and_eq_true] at hwf
    refine ⟨.obj [("action", .str act), ("priority", .str p),
        ("expected_signal", .str e),
        ("supporting_event_ids", .arr (ss.map Json.str))], ?_, ?_, ?_⟩
    · simp only [repairActionItem, ha, hp, he, hi]
      rw [if_neg hne, if_pos henum, if_neg hneE, if_neg him,
        filterMap_strProj, if_neg hsse]
      rw [hs.1, hs.2, pyTake_of_le act 300 hl2, pyTake_of_le e 300 he2]
    · have hnd : (fields.map Prod.fst).Nodup := by simpa using hwf.1
      refine pyEq_obj_of_lookup _ fields ?_ ?_
      · refine (length_eq_of_keys fields
          ["action", "priority", "expected_signal", "supporting_event_ids"]
          hnd (by decide) ?_ ?_).symm
        · intro x hx
          have hx2 := List.all_eq_true.mp hkeys x hx
          simp only [Bool.or_eq_true, decide_eq_true_eq] at hx2
          simp only [List.mem_cons, List.not_mem_nil, or_false]
          tauto
        · intro k hk
          fin_cases hk
          · exact alHasKey_of_alLookup _ _ _ ha
          · exact alHasKey_of_alLookup _ _ _ hp
          · exact alHasKey_of_alLookup _ _ _ he
          · exact alHasKey_of_alLookup _ _ _ hi
      · intro k v hm
        rcases List.mem_cons.mp hm with h1 | hm
        · injection h1 with hk1 hv1
          subst hk1
          subst hv1
          exact ⟨_, ha, Json.pyEq_vals fields hwf.2 _ _ (mem_of_alLookup _ _ _ ha)⟩
        rcases List.mem_cons.mp hm with h1 | hm
        · injection h1 with hk1 hv1
          subst hk1
          subst hv1
          exact ⟨_, hp, Json.pyEq_vals fields hwf.2 _ _ (mem_of_alLookup _ _ _ hp)⟩
        rcases List.mem_cons.mp hm with h1 | hm
        · injection h1 with hk1 hv1
          subst hk1
          subst hv1
          exact ⟨_, he, Json.pyEq_vals fields hwf.2 _ _ (mem_of_alLookup _ _ _ he)⟩
        rcases List.mem_cons.mp hm with h1 | hm
        · injection h1 with hk1 hv1
          subst hk1
          subst hv1
          exact ⟨_, hi, Json.pyEq_vals fields hwf.2 _ _ (mem_of_alLookup _ _ _ hi)⟩
        · exact absurd hm (List.not_mem_nil _)
    · have him2 : (ss.map Json.str).isEmpty = false := by
        cases hq : (ss.map Json.str).isEmpty
        · rfl
        · exact absurd (him hq) id
      simp [validAction, alLookup, strOk, idsOk, hl1, hl2, he1, he2,
        all_isStr_map_str, him2]
      simpa using henum

/-- A valid, already-stripped hypothesis entry is rebuilt pointwise-equal
and still validates. -/
theorem repairHypItem_of_valid (best : String) (j : Json)
    (hwf : Json.wf j = true) (hv : validHypothesis j = true)
    (hs : strippedHyp j = true) :
    Json.pyEq (repairHypItem best j) j = true ∧
    validHypothesis (repairHypItem best j) = true := by
  cases j with
  | null => simp [validHypothesis] at hv
  | bool b => simp [validHypothesis] at hv
  | num q => simp [validHypothesis] at hv
  | str s => simp [validHypothesis] at hv
  | arr l => simp [validHypothesis] at hv
  | obj hf =>
    simp only [validHypothesis, Bool.and_eq_true] at hv
    obtain ⟨⟨⟨⟨⟨hkeys, htit⟩, hconf⟩, hids⟩, hreas⟩, hna⟩ := hv
    obtain ⟨acts, hnaLook, hacts⟩ := arrMatch_inv _ _ hna
    simp only [Bool.and_eq_true, decide_eq_true_eq] at hacts
    simp only [strippedHyp, hnaLook] at hs
    simp only [Json.wf, Bool.and_eq_true] at hwf
    have hnd : (hf.map Prod.fst).Nodup := by simpa using hwf.1
    have hactsWf : ∀ x ∈ acts, Json.wf x = true := by
      intro x hx
      have hwfa : Json.wf (.arr acts) = true :=
        wfFields_mem hf hwf.2 _ _ (mem_of_alLookup _ _ _ hnaLook)
      simp only [Json.wf] at hwfa
      exact wfList_mem acts hwfa x hx
    have hone : ∀ x ∈ acts, ∃ y, repairActionItem x best = some y ∧
        Json.pyEq y x = true ∧ validAction y = true := by
      intro x hx
      exact repairActionItem_of_valid best x (hactsWf x hx)
        (List.all_eq_true.mp hacts.2 x hx)
        (List.all_eq_true.mp hs x hx)
    have hrepair : repairHypItem best (.obj hf) =
        .obj (alSet hf "next_actions"
          (.arr (acts.filterMap (fun a => repairActionItem a best)))) := by
      simp only [repairHypItem, hnaLook]
    rw [hrepair]
    have hne1 : ∀ k2 : String, ("next_actions" : String) ≠ k2 →
        alLookup (alSet hf "next_actions"
          (.arr (acts.filterMap (fun a => repairActionItem a best)))) k2 =
        alLookup hf k2 :=
      fun k2 h2 => alLookup_alSet_ne _ _ _ h2 hf
    constructor
    · refine pyEq_obj_of_lookup _ hf
        (alSet_length_of_hasKey _ _ hf (alHasKey_of_alLookup _ _ _ hnaLook)) ?_
      intro k v hm
      rcases mem_alSet_elim _ _ k v hf hnd hm with ⟨hk, hv2⟩ | ⟨hm2, hk⟩
      · subst hk
        subst hv2
        refine ⟨.arr acts, hnaLook, ?_⟩
        simp only [Json.pyEq]
        refine pyEqList_filterMap_of _ acts ?_
        intro x hx
        obtain ⟨y, hy1, hy2, _⟩ := hone x hx
        exact ⟨y, hy1, hy2⟩
      · exact ⟨v, alLookup_of_mem_nodup k v hf hnd hm2,
          Json.pyEq_vals hf hwf.2 k v hm2⟩
    · simp only [validHypothesis, Bool.and_eq_true]
      have hk1 := alSet_map_fst_of_hasKey "next_actions"
        (.arr (acts.filterMap (fun a => repairActionItem a best))) hf
        (alHasKey_of_alLookup _ _ _ hnaLook)
      refine ⟨⟨⟨⟨⟨?_, ?_⟩, ?_⟩, ?_⟩, ?_⟩, ?_⟩
      · rw [hk1]
        exact hkeys
      · rw [hne1 "title" (by decide)]
        exact htit
      · rw [hne1 "confidence" (by decide)]
        exact hconf
      · rw [hne1 "supporting_event_ids" (by decide)]
        exact hids
      · rw [hne1 "reasoning" (by decide)]
        exact hreas
      · rw [alLookup_alSet_self]
        simp only [Bool.and_eq_true, decide_eq_true_eq]
        refine ⟨le_trans (List.length_filterMap_le _ _) hacts.1, ?_⟩
        refine List.all_eq_true.mpr ?_
        intro y hy
        obtain ⟨x, hx, hxy⟩ := List.mem_filterMap.mp hy
        obtain ⟨y', hy', _, hval⟩ := hone x hx
        rw [hy'] at hxy
        injection hxy with hxy2
        rw [← hxy2]
        exact hval

/-- A valid fact entry with non-blank text is rebuilt unchanged and still
validates. -/
theorem repairFactItem_of_valid (sf : String → Option ℚ) (j : Json)
    (hwf : Json.wf j = true) (hv : validFact j = true)
    (hnb : nonBlankFactText j = true) :
    ∃ out, repairFactItem sf j = some out ∧ Json.pyEq out j = true ∧
      validFact out = true := by
  cases j with
  | null => simp [validFact] at hv
  | bool b => simp [validFact] at hv
  | num q => simp [validFact] at hv
  | str s => simp [validFact] at hv
  | arr l => simp [validFact] at hv
  | obj fs =>
    simp only [validFact, Bool.and_eq_true] at hv
    obtain ⟨⟨⟨hkeys, hfact⟩, hids⟩, hconf⟩ := hv
    obtain ⟨fv, hf, hfok⟩ := someMatch_inv _ _ hfact
    obtain ⟨t, rfl, ht1, ht2⟩ := strOk_inv fv 1 300 hfok
    obtain ⟨iv, hi, hiok⟩ := someMatch_inv _ _ hids
    obtain ⟨ss, rfl, hss⟩ := idsOk_inv iv hiok
    obtain ⟨cv, hc, hcok⟩ := someMatch_inv _ _ hconf
    obtain ⟨q, rfl, hq0, hq1⟩ := numOk01_inv cv hcok
    simp only [nonBlankFactText, hf] at hnb
    have hnbt : ¬ pyStrip t = "" := by simpa using hnb
    have him : ((ss.map Json.str).isEmpty = true) → False := by
      cases ss with
      | nil => exact fun _ => hss rfl
      | cons z zs => simp
    have hsse : (ss.isEmpty = true) → False := by
      cases ss with
      | nil => exact fun _ => hss rfl
      | cons z zs => simp
    simp only [Json.wf, Bool.and_eq_true] at hwf
    have hnd : (fs.map Prod.fst).Nodup := by simpa using hwf.1
    have hclamp : clampConf sf (alLookup fs "confidence") (3 / 10) = q := by
      rw [hc]
      simp only [clampConf, pyFloat?]
      rw [if_neg (not_lt.mpr hq0), if_neg (not_lt.mpr hq1)]
    refine ⟨.obj [("fact", .str t),
        ("supporting_event_ids", .arr (ss.map Json.str)),
        ("confidence", .num q)], ?_, ?_, ?_⟩
    · simp only [repairFactItem, hf, hi]
      rw [if_neg hnbt, if_neg him, filterMap_strProj, if_neg hsse, hclamp]
    · refine pyEq_obj_of_lookup _ fs ?_ ?_
      · refine (length_eq_of_keys fs
          ["fact", "supporting_event_ids", "confidence"] hnd
          (by decide) ?_ ?_).symm
        · intro x hx
          have hx2 := List.all_eq_true.mp hkeys x hx
          simp only [Bool.or_eq_true, decide_eq_true_eq] at hx2
          simp only [List.mem_cons, List.not_mem_nil, or_false]
          tauto
        · intro k hk
          fin_cases hk
          · exact alHasKey_of_alLookup _ _ _ hf
          · exact alHasKey_of_alLookup _ _ _ hi
          · exact alHasKey_of_alLookup _ _ _ hc
      · intro k v hm
        rcases List.mem_cons.mp hm with h1 | hm
        · injection h1 with hk1 hv1
          subst hk1
          subst hv1
          exact ⟨_, hf,
            Json.pyEq_vals fs hwf.2 _ _ (mem_of_alLookup _ _ _ hf)⟩
        rcases List.mem_cons.mp hm with h1 | hm
        · injection h1 with hk1 hv1
          subst hk1
          subst hv1
          exact ⟨_, hi,
            Json.pyEq_vals fs hwf.2 _ _ (mem_of_alLookup _ _ _ hi)⟩
        rcases List.mem_cons.mp hm with h1 | hm
        · injection h1 with hk1 hv1
          subst hk1
          subst hv1
          exact ⟨_, hc,
            Json.pyEq_vals fs hwf.2 _ _ (mem_of_alLookup _ _ _ hc)⟩
        · exact absurd hm (List.not_mem_nil _)
    · have him2 : (ss.map Json.str).isEmpty = false := by
        cases hq2 : (ss.map Json.str).isEmpty
        · rfl
        · exact absurd (him hq2) id
      simp [validFact, alLookup, strOk, idsOk, numOk01, ht1, ht2, hq0, hq1,
        all_isStr_map_str, him2]

/-- Repairing an already-valid facts payload whose fact texts are non-blank
is a Python-equality identity, and the result still validates. -/
theorem repair_llm_facts_id (sf : String → Option ℚ) (fc : Json)
    (hwf : Json.wf fc = true) (hv : validateFacts fc = true)
    (hsf : strippedFacts fc = true) :
    Json.pyEq (repair_llm_facts sf fc) fc = true ∧
    validateFacts (repair_llm_facts sf fc) = true := by
  cases fc with
  | null => simp [validateFacts] at hv
  | bool b => simp [validateFacts] at hv
  | num q => simp [validateFacts] at hv
  | str s => simp [validateFacts] at hv
  | arr l => simp [validateFacts] at hv
  | obj fields =>
    simp only [validateFacts, Bool.and_eq_true] at hv
    obtain ⟨⟨⟨hkeys, hogc⟩, hfactsM⟩, herr⟩ := hv
    obtain ⟨gv, hg, hgok⟩ := someMatch_inv _ _ hogc
    obtain ⟨g, rfl, hg0, hg1⟩ := numOk01_inv gv hgok
    obtain ⟨facts, hfl, hfok⟩ := arrMatch_inv _ _ hfactsM
    simp only [Bool.and_eq_true, decide_eq_true_eq] at hfok
    simp only [strippedFacts, hfl] at hsf
    simp only [Json.wf, Bool.and_eq_true] at hwf
    have hnd : (fields.map Prod.fst).Nodup := by simpa using hwf.1
    have hfactsWf : ∀ x ∈ facts, Json.wf x = true := by
      intro x hx
      have hwfa : Json.wf (.arr facts) = true :=
        wfFields_mem fields hwf.2 _ _ (mem_of_alLookup _ _ _ hfl)
      simp only [Json.wf] at hwfa
      exact wfList_mem facts hwfa x hx
    have hone : ∀ x ∈ facts, ∃ y, repairFactItem sf x = some y ∧
        Json.pyEq y x = true ∧ validFact y = true := by
      intro x hx
      exact repairFactItem_of_valid sf x (hfactsWf x hx)
        (List.all_eq_true.mp hfok.2 x hx)
        (List.all_eq_true.mp hsf x hx)
    have hclampG : clampConf sf
        (alLookup fields "overall_grounding_confidence") (1 / 5) = g := by
      rw [hg]
      simp only [clampConf, pyFloat?]
      rw [if_neg (not_lt.mpr hg0), if_neg (not_lt.mpr hg1)]
    have hrw : repair_llm_facts sf (.obj fields) =
        .obj (alSet fields "facts"
          (.arr (facts.filterMap (repairFactItem sf)))) := by
      simp only [repair_llm_facts, Json.isObj, Json.fieldsOf, if_true]
      rw [hclampG, alSet_lookup_self _ _ fields hg, hfl]
    rw [hrw]
    have hkF : alHasKey fields "facts" = true := alHasKey_of_alLookup _ _ _ hfl
    have hne1 : ∀ k2 : String, ("facts" : String) ≠ k2 →
        alLookup (alSet fields "facts"
          (.arr (facts.filterMap (repairFactItem sf)))) k2 =
        alLookup fields k2 :=
      fun k2 h2 => alLookup_alSet_ne _ _ _ h2 fields
    constructor
    · refine pyEq_obj_of_lookup _ fields
        (alSet_length_of_hasKey _ _ fields hkF) ?_
      intro k v hm
      rcases mem_alSet_elim _ _ k v fields hnd hm with ⟨hk, hv2⟩ | ⟨hm2, hk⟩
      · subst hk
        subst hv2
        refine ⟨.arr facts, hfl, ?_⟩
        simp only [Json.pyEq]
        refine pyEqList_filterMap_of _ facts ?_
        intro x hx
        obtain ⟨y, hy1, hy2, _⟩ := hone x hx
        exact ⟨y, hy1, hy2⟩
      · exact ⟨v, alLookup_of_mem_nodup k v fields hnd hm2,
          Json.pyEq_vals fields hwf.2 k v hm2⟩
    · simp only [validateFacts, Bool.and_eq_true]
      refine ⟨⟨⟨?_, ?_⟩, ?_⟩, ?_⟩
      · rw [alSet_map_fst_of_hasKey _ _ fields hkF]
        exact hkeys
      · rw [hne1 "overall_grounding_confidence" (by decide), hg]
        simp only [numOk01, Bool.and_eq_true, decide_eq_true_eq]
        exact ⟨hg0, hg1⟩
      · rw [alLookup_alSet_self]
        simp only [Bool.and_eq_true, decide_eq_true_eq]
        refine ⟨le_trans (List.length_filterMap_le _ _) hfok.1, ?_⟩
        refine List.all_eq_true.mpr ?_
        intro y hy
        obtain ⟨x, hx, hxy⟩ := List.mem_filterMap.mp hy
        obtain ⟨y', hy', _, hval⟩ := hone x hx
        rw [hy'] at hxy
        injection hxy with hxy2
        rw [← hxy2]
        exact hval
      · rw [hne1 "errors" (by decide)]
        exact herr

/-- Repairing an already-valid, already-stripped synthesis payload is a
Python-equality identity, and the result still validates. -/
theorem repair_llm_synthesis_id (best : String)
    (fields : List (String × Json))
    (hwf : Json.wf (.obj fields) = true)
    (hv : validateSynthesis (.obj fields) = true)
    (hs : strippedSyn (.obj fields) = true) :
    Json.pyEq (.obj (repair_llm_synthesis fields best)) (.obj fields) = true ∧
    validateSynthesis (.obj (repair_llm_synthesis fields best)) = true := by
  simp only [validateSynthesis, Bool.and_eq_true] at hv
  obtain ⟨⟨⟨⟨⟨⟨⟨hkeys, hoc⟩, hes⟩, hrch⟩, hrna⟩, hme⟩, hmi⟩, herr⟩ := hv
  obtain ⟨ocv, hocL, hocok⟩ := someMatch_inv _ _ hoc
  obtain ⟨esv, hesL, hesok⟩ := someMatch_inv _ _ hes
  obtain ⟨hyps, hLh, hhok⟩ := arrMatch_inv _ _ hrch
  obtain ⟨acts, hLa, haok⟩ := arrMatch_inv _ _ hrna
  obtain ⟨miss, hLm, hmok⟩ := arrMatch_inv _ _ hme
  simp only [Bool.and_eq_true, decide_eq_true_eq] at hhok haok hmok
  simp only [strippedSyn, hLa, hLh, Bool.and_eq_true] at hs
  simp only [Json.wf, Bool.and_eq_true] at hwf
  have hnd : (fields.map Prod.fst).Nodup := by simpa using hwf.1
  have wfOf : ∀ (kk : String) (l : List Json),
      alLookup fields kk = some (.arr l) → ∀ x ∈ l, Json.wf x = true := by
    intro kk l hl x hx
    have hwfa : Json.wf (.arr l) = true :=
      wfFields_mem fields hwf.2 _ _ (mem_of_alLookup _ _ _ hl)
    simp only [Json.wf] at hwfa
    exact wfList_mem l hwfa x hx
  have honeA : ∀ x ∈ acts, ∃ y, repairActionItem x best = some y ∧
      Json.pyEq y x = true ∧ validAction y = true := by
    intro x hx
    exact repairActionItem_of_valid best x (wfOf _ _ hLa x hx)
      (List.all_eq_true.mp haok.2 x hx) (List.all_eq_true.mp hs.1 x hx)
  have honeH : ∀ x ∈ hyps, Json.pyEq (repairHypItem best x) x = true ∧
      validHypothesis (repairHypItem best x) = true := by
    intro x hx
    exact repairHypItem_of_valid best x (wfOf _ _ hLh x hx)
      (List.all_eq_true.mp hhok.2 x hx) (List.all_eq_true.mp hs.2 x hx)
  have honeM : ∀ x ∈ miss, repairMissingItem best x = x := by
    intro x hx
    have hvm := List.all_eq_true.mp hmok.2 x hx
    cases x with
    | obj o => exact repairMissingItem_obj best o
    | null => simp [validMissing] at hvm
    | bool b => simp [validMissing] at hvm
    | num q => simp [validMissing] at hvm
    | str s => simp [validMissing] at hvm
    | arr l2 => simp [validMissing] at hvm
  have hk1 : alHasKey fields "overall_confidence" = true :=
    alHasKey_of_alLookup _ _ _ hocL
  have hk2 : alHasKey fields "executive_summary" = true :=
    alHasKey_of_alLookup _ _ _ hesL
  have hk3 : alHasKey fields "root_cause_hypotheses" = true :=
    alHasKey_of_alLookup _ _ _ hLh
  have hk4 : alHasKey fields "recommended_next_actions" = true :=
    alHasKey_of_alLookup _ _ _ hLa
  have hk5 : alHasKey fields "missing_evidence" = true :=
    alHasKey_of_alLookup _ _ _ hLm
  have m1 : mapListKey fields "root_cause_hypotheses"
      (List.map (repairHypItem best)) =
      alSet fields "root_cause_hypotheses"
        (.arr (hyps.map (repairHypItem best))) := by
    simp only [mapListKey, hLh]
  have l2 : alLookup (alSet fields "root_cause_hypotheses"
      (.arr (hyps.map (repairHypItem best)))) "recommended_next_actions" =
      some (.arr acts) := by
    rw [alLookup_alSet_ne _ _ _ (by decide) fields]
    exact hLa
  have m2 : mapListKey (alSet fields "root_cause_hypotheses"
      (.arr (hyps.map (repairHypItem best)))) "recommended_next_actions"
      (List.filterMap (fun a => repairActionItem a best)) =
      alSet (alSet fields "root_cause_hypotheses"
        (.arr (hyps.map (repairHypItem best)))) "recommended_next_actions"
        (.arr (acts.filterMap (fun a => repairActionItem a best))) := by
    simp only [mapListKey, l2]
  have l3 : alLookup (alSet (alSet fields "root_cause_hypotheses"
      (.arr (hyps.map (repairHypItem best)))) "recommended_next_actions"
      (.arr (acts.filterMap (fun a => repairActionItem a best))))
      "missing_evidence" = some (.arr miss) := by
    rw [alLookup_alSet_ne _ _ _ (by decide),
      alLookup_alSet_ne _ _ _ (by decide) fields]
    exact hLm
  have m3 : mapListKey (alSet (alSet fields "root_cause_hypotheses"
      (.arr (hyps.map (repairHypItem best)))) "recommended_next_actions"
      (.arr (acts.filterMap (fun a => repairActionItem a best))))
      "missing_evidence" (List.map (repairMissingItem best)) =
      alSet (alSet (alSet fields "root_cause_hypotheses"
        (.arr (hyps.map (repairHypItem best)))) "recommended_next_actions"
        (.arr (acts.filterMap (fun a => repairActionItem a best))))
        "missing_evidence" (.arr (miss.map (repairMissingItem best))) := by
    simp only [mapListKey, l3]
  have hrw : repair_llm_synthesis fields best =
      alSet (alSet (alSet fields "root_cause_hypotheses"
        (.arr (hyps.map (repairHypItem best)))) "recommended_next_actions"
        (.arr (acts.filterMap (fun a => repairActionItem a best))))
        "missing_evidence" (.arr (miss.map (repairMissingItem best))) := by
    simp only [repair_llm_synthesis]
    rw [fillKey_of_present _ _ _ hk1, fillKey_of_present _ _ _ hk2,
      fillKey_of_present _ _ _ hk3, fillKey_of_present _ _ _ hk4,
      fillKey_of_present _ _ _ hk5, m1, m2, m3]
  rw [hrw]
  have hnd1 : ((alSet fields "root_cause_hypotheses"
      (.arr (hyps.map (repairHypItem best)))).map Prod.fst).Nodup := by
    rw [alSet_map_fst_of_hasKey _ _ fields hk3]
    exact hnd
  have hnd2 : ((alSet (alSet fields "root_cause_hypotheses"
      (.arr (hyps.map (repairHypItem best)))) "recommended_next_actions"
      (.arr (acts.filterMap (fun a => repairActionItem a best)))).map
        Prod.fst).Nodup := by
    rw [alSet_map_fst_of_hasKey _ _ _ (alHasKey_alSet_mono _ _ _ fields hk4),
      alSet_map_fst_of_hasKey _ _ fields hk3]
    exact hnd
  have hLout : ∀ k2 : String, ("missing_evidence" : String) ≠ k2 →
      ("recommended_next_actions" : String) ≠ k2 →
      ("root_cause_hypotheses" : String) ≠ k2 →
      alLookup (alSet (alSet (alSet fields "root_cause_hypotheses"
          (.arr (hyps.map (repairHypItem best)))) "recommended_next_actions"
          (.arr (acts.filterMap (fun a => repairActionItem a best))))
          "missing_evidence" (.arr (miss.map (repairMissingItem best)))) k2 =
      alLookup fields k2 := by
    intro k2 h3 h2 h1
    rw [alLookup_alSet_ne _ _ _ h3, alLookup_alSet_ne _ _ _ h2,
      alLookup_alSet_ne _ _ _ h1 fields]
  constructor
  · refine pyEq_obj_of_lookup _ fields ?_ ?_
    · rw [alSet_length_of_hasKey _ _ _
        (alHasKey_alSet_mono _ _ _ _ (alHasKey_alSet_mono _ _ _ fields hk5)),
        alSet_length_of_hasKey _ _ _ (alHasKey_alSet_mono _ _ _ fields hk4),
        alSet_length_of_hasKey _ _ fields hk3]
    · intro k v hm
      rcases mem_alSet_elim _ _ k v _ hnd2 hm with ⟨hk, hv2⟩ | ⟨hm2, hkne⟩
      · subst hk
        subst hv2
        refine ⟨.arr miss, hLm, ?_⟩
        simp only [Json.pyEq]
        refine pyEqList_map_of _ miss ?_
        intro x hx
        rw [honeM x hx]
        exact Json.pyEq_refl x (wfOf _ _ hLm x hx)
      rcases mem_alSet_elim _ _ k v _ hnd1 hm2 with ⟨hk, hv2⟩ | ⟨hm3, hkne2⟩
      · subst hk
        subst hv2
        refine ⟨.arr acts, hLa, ?_⟩
        simp only [Json.pyEq]
        refine pyEqList_filterMap_of _ acts ?_
        intro x hx
        obtain ⟨y, hy1, hy2, _⟩ := honeA x hx
        exact ⟨y, hy1, hy2⟩
      rcases mem_alSet_elim _ _ k v fields hnd hm3 with ⟨hk, hv2⟩ | ⟨hm4, hkne3⟩
      · subst hk
        subst hv2
        refine ⟨.arr hyps, hLh, ?_⟩
        simp only [Json.pyEq]
        refine pyEqList_map_of _ hyps ?_
        intro x hx
        exact (honeH x hx).1
      · exact ⟨v, alLookup_of_mem_nodup k v fields hnd hm4,
          Json.pyEq_vals fields hwf.2 k v hm4⟩
  · simp only [validateSynthesis, Bool.and_eq_true]
    refine ⟨⟨⟨⟨⟨⟨⟨?_, ?_⟩, ?_⟩, ?_⟩, ?_⟩, ?_⟩, ?_⟩, ?_⟩
    · rw [alSet_map_fst_of_hasKey _ _ _
        (alHasKey_alSet_mono _ _ _ _ (alHasKey_alSet_mono _ _ _ fields hk5)),
        alSet_map_fst_of_hasKey _ _ _ (alHasKey_alSet_mono _ _ _ fields hk4),
        alSet_map_fst_of_hasKey _ _ fields hk3]
      exact hkeys
    · rw [hLout "overall_confidence" (by decide) (by decide) (by decide)]
      exact hoc
    · rw [hLout "executive_summary" (by decide) (by decide) (by decide)]
      exact hes
    · rw [alLookup_alSet_ne _ _ _ (by decide),
        alLookup_alSet_ne _ _ _ (by decide), alLookup_alSet_self]
      simp only [Bool.and_eq_true, decide_eq_true_eq]
      constructor
      · rw [List.length_map]
        exact hhok.1
      · refine List.all_eq_true.mpr ?_
        intro y hy
        obtain ⟨x, hx, hxy⟩ := List.mem_map.mp hy
        rw [← hxy]
        exact (honeH x hx).2
    · rw [alLookup_alSet_ne _ _ _ (by decide), alLookup_alSet_self]
      simp only [Bool.and_eq_true, decide_eq_true_eq]
      refine ⟨le_trans (List.length_filterMap_le _ _) haok.1, ?_⟩
      refine List.all_eq_true.mpr ?_
      intro y hy
      obtain ⟨x, hx, hxy⟩ := List.mem_filterMap.mp hy
      obtain ⟨y', hy', _, hval⟩ := honeA x hx
      rw [hy'] at hxy
      injection hxy with hxy2
      rw [← hxy2]
      exact hval
    · rw [alLookup_alSet_self]
      simp only [Bool.and_eq_true, decide_eq_true_eq]
      constructor
      · rw [List.length_map]
        exact hmok.1
      · refine List.all_eq_true.mpr ?_
        intro y hy
        obtain ⟨x, hx, hxy⟩ := List.mem_map.mp hy
        rw [← hxy, honeM x hx]
        exact List.all_eq_true.mp hmok.2 x hx
    · rw [hLout "model_info" (by decide) (by decide) (by decide)]
      exact hmi
    · rw [hLout "errors" (by decide) (by decide) (by decide)]
      exact herr

/-- C9 counterexample: a synthesis payload that passes the contract
validation but whose action text carries surrounding whitespace is changed
by `repair_llm_synthesis` — the action is stripped, so the repaired payload
is not Python-equal to the input, refuting unconditional idempotence on
valid payloads. -/
theorem repair_identity_counterexample :
    validateSynthesis (.obj synValidPadded) = true ∧
    Json.wf (.obj synValidPadded) = true ∧
    Json.pyEq (.obj (repair_llm_synthesis synValidPadded "x"))
      (.obj synValidPadded) = false := by
  refine ⟨by decide, by decide, ?_⟩
  simp [repair_llm_synthesis, fillKey, mapListKey, alLookup, alSet, alHasKey,
    repairHypItem, repairActionItem, repairMissingItem, actionFromString,
    strProj, pyStrip, pyWs, pyTake, synValidPadded,
    Json.pyEq, Json.pyEqList, Json.pyEqAll, Json.pyEqField]

/-- C9 (amended): repairing an already-valid payload with Python-dict
well-formedness is a Python-equality identity — and the result still
validates — provided additionally that no accepted text field is changed by
stripping: for facts payloads, every fact's text must not strip to empty;
for synthesis payloads, every action's `action` and `expected_signal`
strings (top level and inside hypotheses) must already be stripped.
Without those provisos the repair can rewrite the payload (see the
counterexample). -/
theorem repair_identity_on_valid (sf : String → Option ℚ) (best : String) :
    (∀ fc : Json, Json.wf fc = true → validateFacts fc = true →
        strippedFacts fc = true →
      Json.pyEq (repair_llm_facts sf fc) fc = true ∧
      validateFacts (repair_llm_facts sf fc) = true) ∧
    (∀ fields : List (String × Json), Json.wf (.obj fields) = true →
        validateSynthesis (.obj fields) = true →
        strippedSyn (.obj fields) = true →
      Json.pyEq (.obj (repair_llm_synthesis fields best))
          (.obj fields) = true ∧
      validateSynthesis (.obj (repair_llm_synthesis fields best)) = true) :=
  ⟨fun fc hwf hv hsf => repair_llm_facts_id sf fc hwf hv hsf,
   fun fields hwf hv hs => repair_llm_synthesis_id best fields hwf hv hs⟩

/-- Witness for C9 (amended): concrete valid facts and synthesis payloads
satisfy the hypotheses, and repair leaves both Python-equal to the input. -/
theorem repair_identity_on_valid_witness :
    (Json.wf factsIdExample = true ∧ validateFacts factsIdExample = true ∧
      strippedFacts factsIdExample = true ∧
      Json.pyEq (repair_llm_facts (fun _ => none) factsIdExample)
        factsIdExample = true) ∧
    (Json.wf (.obj synIdExample) = true ∧
      validateSynthesis (.obj synIdExample) = true ∧
      strippedSyn (.obj synIdExample) = true ∧
      Json.pyEq (.obj (repair_llm_synthesis synIdExample "e1"))
        (.obj synIdExample) = true) :=
  ⟨⟨by decide, by decide, by decide,
    ((repair_identity_on_valid (fun _ => none) "e1").1 factsIdExample
      (by decide) (by decide) (by decide)).1⟩,
   ⟨by decide, by decide, by decide,
    ((repair_identity_on_valid (fun _ => none) "e1").2 synIdExample
      (by decide) (by decide) (by decide)).1⟩⟩

/-- The first trimming pass preserves the event count and only appends
line-drop log entries. -/
theorem dropLinesLoop_spec (ns : ℚ → String) (sv btl : Json) (mc : ℤ) :
    ∀ (idxs : List Nat) (sel : List (List (String × Json)))
      (app : List String) (fc : Nat) sel2 app2 fc2,
      dropLinesLoop ns sv btl mc idxs sel app fc = some (sel2, app2, fc2) →
      sel2.length = sel.length ∧
      ∃ neu, app2 = app ++ neu ∧
        ∀ m ∈ neu, ∃ i : Nat,
          m = "dropped_evidence_lines:event_index=" ++ toString i
  | [], sel, app, fc, sel2, app2, fc2, h => by
      simp only [dropLinesLoop, Option.some.injEq, Prod.mk.injEq] at h
      obtain ⟨h1, h2, h3⟩ := h
      refine ⟨by rw [h1], [], by rw [h2, List.append_nil], by simp⟩
  | idx :: rest, sel, app, fc, sel2, app2, fc2, h => by
      simp only [dropLinesLoop] at h
      cases hg : sel[idx]? with
      | none => simp [hg] at h
      | some ev =>
          simp only [hg] at h
          cases hd : drop_evidence_lines ev with
          | none => simp [hd] at h
          | some pr =>
              obtain ⟨changed, ev2⟩ := pr
              simp only [hd] at h
              cases changed with
              | false =>
                  rw [if_neg (by simp)] at h
                  exact dropLinesLoop_spec ns sv btl mc rest sel app fc
                    sel2 app2 fc2 h
              | true =>
                  rw [if_pos rfl] at h
                  by_cases hfc : ((serializedSizeChars ns
                      (packJson sv btl (sel.set idx ev2))) : ℤ) ≤ mc
                  · rw [if_pos hfc] at h
                    simp only [Option.some.injEq, Prod.mk.injEq] at h
                    obtain ⟨h1, h2, h3⟩ := h
                    refine ⟨?_, ["dropped_evidence_lines:event_index=" ++
                        toString idx], by rw [h2], ?_⟩
                    · rw [← h1, List.length_set]
                    · intro m hm
                      rw [List.mem_singleton] at hm
                      exact ⟨idx, hm⟩
                  · rw [if_neg hfc] at h
                    obtain ⟨h1, neu, h2, h3⟩ := dropLinesLoop_spec ns sv btl
                      mc rest (sel.set idx ev2)
                      (app ++ ["dropped_evidence_lines:event_index=" ++
                        toString idx]) _ sel2 app2 fc2 h
                    refine ⟨by rw [h1, List.length_set], ?_⟩
                    refine ⟨("dropped_evidence_lines:event_index=" ++
                      toString idx) :: neu, by rw [h2, List.append_assoc]; rfl, ?_⟩
                    intro m hm
                    rcases List.mem_cons.mp hm with he | hmem
                    · exact ⟨idx, he⟩
                    · exact h3 m hmem

/-- The third trimming pass preserves the event count and only appends
shrink log entries. -/
theorem shrinkLoop_spec (ns : ℚ → String) (sv btl : Json) (mc : ℤ) :
    ∀ (idxs : List Nat) (sel : List (List (String × Json)))
      (app : List String) (fc : Nat) sel2 app2 fc2,
      shrinkLoop ns sv btl mc idxs sel app fc = some (sel2, app2, fc2) →
      sel2.length = sel.length ∧
      ∃ neu, app2 = app ++ neu ∧
        ∀ m ∈ neu, ∃ i : Nat,
          m = "shrunk_to_hit_line:event_index=" ++ toString i
  | [], sel, app, fc, sel2, app2, fc2, h => by
      simp only [shrinkLoop, Option.some.injEq, Prod.mk.injEq] at h
      obtain ⟨h1, h2, h3⟩ := h
      refine ⟨by rw [h1], [], by rw [h2, List.append_nil], by simp⟩
  | idx :: rest, sel, app, fc, sel2, app2, fc2, h => by
      simp only [shrinkLoop] at h
      cases hg : sel[idx]? with
      | none => simp [hg] at h
      | some ev =>
          simp only [hg] at h
          cases hd : shrink_event_lines ev with
          | none => simp [hd] at h
          | some pr =>
              obtain ⟨changed, ev2⟩ := pr
              simp only [hd] at h
              cases changed with
              | false =>
                  rw [if_neg (by simp)] at h
                  exact shrinkLoop_spec ns sv btl mc rest sel app fc
                    sel2 app2 fc2 h
              | true =>
                  rw [if_pos rfl] at h
                  by_cases hfc : ((serializedSizeChars ns
                      (packJson sv btl (sel.set idx ev2))) : ℤ) ≤ mc
                  · rw [if_pos hfc] at h
                    simp only [Option.some.injEq, Prod.mk.injEq] at h
                    obtain ⟨h1, h2, h3⟩ := h
                    refine ⟨?_, ["shrunk_to_hit_line:event_index=" ++
                        toString idx], by rw [h2], ?_⟩
                    · rw [← h1, List.length_set]
                    · intro m hm
                      rw [List.mem_singleton] at hm
                      exact ⟨idx, hm⟩
                  · rw [if_neg hfc] at h
                    obtain ⟨h1, neu, h2, h3⟩ := shrinkLoop_spec ns sv btl
                      mc rest (sel.set idx ev2)
                      (app ++ ["shrunk_to_hit_line:event_index=" ++
                        toString idx]) _ sel2 app2 fc2 h
                    refine ⟨by rw [h1, List.length_set], ?_⟩
                    refine ⟨("shrunk_to_hit_line:event_index=" ++
                      toString idx) :: neu, by rw [h2, List.append_assoc]; rfl, ?_⟩
                    intro m hm
                    rcases List.mem_cons.mp hm with he | hmem
                    · exact ⟨idx, he⟩
                    · exact h3 m hmem

/-- The second trimming pass never empties the selection and only appends
event-drop log entries. -/
theorem dropEventsLoop_spec (ns : ℚ → String) (sv btl : Json) (mc : ℤ) :
    ∀ (fuel : Nat) (sel : List (List (String × Json)))
      (app : List String) (fc : Nat),
      (sel ≠ [] → (dropEventsLoop ns sv btl mc fuel sel app fc).1 ≠ []) ∧
      ∃ neu, (dropEventsLoop ns sv btl mc fuel sel app fc).2.1 =
          app ++ neu ∧
        ∀ m ∈ neu, m = "dropped_low_ranked_event"
  | 0, sel, app, fc => by
      refine ⟨fun h => h, [], by simp [dropEventsLoop], by simp⟩
  | fuel + 1, sel, app, fc => by
      by_cases hc : mc < (fc : ℤ) ∧ 1 < sel.length
      · rw [dropEventsLoop, if_pos hc]
        have hne : sel.dropLast ≠ [] := by
          have hlen : sel.dropLast.length = sel.length - 1 :=
            List.length_dropLast sel
          intro he
          rw [he] at hlen
          simp at hlen
          omega
        obtain ⟨hne2, neu, h2, h3⟩ := dropEventsLoop_spec ns sv btl mc fuel
          sel.dropLast (app ++ ["dropped_low_ranked_event"])
          (serializedSizeChars ns (packJson sv btl sel.dropLast))
        refine ⟨fun _ => hne2 hne, "dropped_low_ranked_event" :: neu,
          by rw [h2, List.append_assoc]; rfl, ?_⟩
        intro m hm
        rcases List.mem_cons.mp hm with he | hmem
        · exact he
        · exact h3 m hmem
      · rw [dropEventsLoop, if_neg hc]
        exact ⟨fun h => h, [], by simp, by simp⟩

/-- The final drop loop never empties the selection, only appends event-drop
log entries, and with enough fuel ends under budget or with at most one
event. -/
theorem dropEventsLoop2_spec (ns : ℚ → String) (sv btl : Json)
    (topk mc : ℤ) :
    ∀ (fuel : Nat) (sel : List (List (String × Json))) (app : List String),
      (sel ≠ [] → (dropEventsLoop2 ns sv btl topk mc fuel sel app).1 ≠ []) ∧
      (∃ neu, (dropEventsLoop2 ns sv btl topk mc fuel sel app).2 =
          app ++ neu ∧
        ∀ m ∈ neu, m = "dropped_low_ranked_event") ∧
      (sel.length ≤ fuel →
        mc < (serializedSizeChars ns (packMeta sv btl topk mc
            (dropEventsLoop2 ns sv btl topk mc fuel sel app).1
            (dropEventsLoop2 ns sv btl topk mc fuel sel app).2) : ℤ) →
        (dropEventsLoop2 ns sv btl topk mc fuel sel app).1.length ≤ 1)
  | 0, sel, app => by
      refine ⟨fun h => h, ⟨[], by simp [dropEventsLoop2], by simp⟩, ?_⟩
      intro hlen _
      show sel.length ≤ 1
      omega
  | fuel + 1, sel, app => by
      by_cases hc : mc < (serializedSizeChars ns
          (packMeta sv btl topk mc sel app) : ℤ) ∧ 1 < sel.length
      · rw [dropEventsLoop2, if_pos hc]
        have hlen : sel.dropLast.length = sel.length - 1 :=
          List.length_dropLast sel
        have hne : sel.dropLast ≠ [] := by
          intro he
          rw [he] at hlen
          simp at hlen
          omega
        obtain ⟨hne2, ⟨neu, h2, h3⟩, hpost⟩ := dropEventsLoop2_spec ns sv btl
          topk mc fuel sel.dropLast (app ++ ["dropped_low_ranked_event"])
        refine ⟨fun _ => hne2 hne, ⟨"dropped_low_ranked_event" :: neu,
          by rw [h2, List.append_assoc]; rfl, ?_⟩, ?_⟩
        · intro m hm
          rcases List.mem_cons.mp hm with he | hmem
          · exact he
          · exact h3 m hmem
        · intro hf hsz
          exact hpost (by omega) hsz
      · rw [dropEventsLoop2, if_neg hc]
        refine ⟨fun h => h, ⟨[], by simp, by simp⟩, ?_⟩
        intro _ hsz
        by_cases h1 : 1 < sel.length
        · exact absurd ⟨hsz, h1⟩ hc
        · show sel.length ≤ 1
          omega

/-- Shape of the pack produced by the final stage of
`build_evidence_pack`: the meta block's log fields, the preserved
selection, and the budget disjunction. -/
theorem finishPack_analysis (ns : ℚ → String) (sv btl : Json) (topk mc : ℤ)
    (selC : List (List (String × Json))) (appC : List String) :
    ∃ selD appD,
      dropEventsLoop2 ns sv btl topk mc selC.length selC appC =
        (selD, appD) ∧
      (∃ d, appD = appC ++ d ∧ ∀ m ∈ d, m = "dropped_low_ranked_event") ∧
      (selC ≠ [] → selD ≠ []) ∧
      Json.get? (finishPack ns sv btl topk mc selC appC) "selected_events" =
        some (.arr (selD.map Json.obj)) ∧
      metaLookup (finishPack ns sv btl topk mc selC appC) "trimming_count" =
        some (.num appD.length) ∧
      (metaLookup (finishPack ns sv btl topk mc selC appC)
          "trimming_applied" = some (.arr ((appD.take 12).map Json.str)) ∨
        metaLookup (finishPack ns sv btl topk mc selC appC)
          "trimming_applied" = some (.arr [.str "meta_compacted"])) ∧
      ((serializedSizeChars ns (delMeta
          (finishPack ns sv btl topk mc selC appC) "final_chars") : ℤ)
            ≤ mc ∨
        selD.length ≤ 1) := by
  obtain ⟨hne, ⟨d, hd, hdm⟩, hpost⟩ := dropEventsLoop2_spec ns sv btl topk mc
    selC.length selC appC
  rcases hrd : dropEventsLoop2 ns sv btl topk mc selC.length selC appC with
    ⟨selD, appD⟩
  simp only [hrd] at hne hd hpost
  refine ⟨selD, appD, rfl, ⟨d, hd, hdm⟩, hne, ?_⟩
  by_cases hfc : mc < ((serializedSizeChars ns
      (packMeta sv btl topk mc selD appD)) : ℤ)
  · have hfp : finishPack ns sv btl topk mc selC appC =
        setMeta (setMeta (setMeta (packMeta sv btl topk mc selD appD)
          "final_chars" (.num (serializedSizeChars ns
            (packMeta sv btl topk mc selD appD))))
          "trimming_applied" (.arr [.str "meta_compacted"])) "final_chars"
          (.num (serializedSizeChars ns (setMeta (setMeta
            (packMeta sv btl topk mc selD appD) "final_chars"
            (.num (serializedSizeChars ns
              (packMeta sv btl topk mc selD appD))))
            "trimming_applied" (.arr [.str "meta_compacted"])))) := by
      simp only [finishPack, hrd]
      rw [if_pos hfc]
    rw [hfp]
    refine ⟨?_, ?_, Or.inr ?_, Or.inr (hpost (le_refl _) hfc)⟩
    · simp [setMeta, packMeta, Json.get?, alLookup, alSet]
    · simp [setMeta, packMeta, metaLookup, Json.get?, alLookup, alSet]
    · simp [setMeta, packMeta, metaLookup, Json.get?, alLookup, alSet]
  · have hfp : finishPack ns sv btl topk mc selC appC =
        setMeta (packMeta sv btl topk mc selD appD) "final_chars"
          (.num (serializedSizeChars ns
            (packMeta sv btl topk mc selD appD))) := by
      simp only [finishPack, hrd]
      rw [if_neg hfc]
    rw [hfp]
    refine ⟨?_, ?_, Or.inl ?_, Or.inl ?_⟩
    · simp [setMeta, packMeta, Json.get?, alLookup, alSet]
    · simp [setMeta, packMeta, metaLookup, Json.get?, alLookup, alSet]
    · simp [setMeta, packMeta, metaLookup, Json.get?, alLookup, alSet]
    · have hdel : delMeta (setMeta (packMeta sv btl topk mc selD appD)
          "final_chars" (.num (serializedSizeChars ns
            (packMeta sv btl topk mc selD appD))))
          "final_chars" = packMeta sv btl topk mc selD appD := by
        simp [delMeta, setMeta, packMeta, alLookup, alSet, alDel]
      rw [hdel]
      exact not_lt.mp hfc

/-- When events exist, the initial selection is never empty. -/
theorem selectEvents_ne_nil (ranked : List (List (String × Json)))
    (events : List Json) (topk : ℤ) (h : events ≠ []) :
    selectEvents ranked events topk ≠ [] := by
  simp only [selectEvents]
  rw [if_neg (by simpa using h)]
  by_cases h0 :
      ((ranked.take (max 0 topk).toNat).map trimmed_event).isEmpty = true
  · rw [if_pos h0]
    simp
  · rw [if_neg h0]
    simpa using h0

/-- The guarded first pass preserves the event count and produces only
line-drop log entries. -/
theorem phaseA_spec (ns : ℚ → String) (sv btl : Json) (mc : ℤ)
    (sel sel2 : List (List (String × Json))) (app2 : List String)
    (fc2 : Nat) (h : phaseA ns sv btl mc sel = some (sel2, app2, fc2)) :
    sel2.length = sel.length ∧
    ∀ m ∈ app2, ∃ i : Nat,
      m = "dropped_evidence_lines:event_index=" ++ toString i := by
  rw [phaseA] at h
  by_cases hc : mc < ((serializedSizeChars ns (packJson sv btl sel)) : ℤ) ∧
      ¬ sel.isEmpty = true
  · rw [if_pos hc] at h
    obtain ⟨h1, neu, h2, h3⟩ := dropLinesLoop_spec ns sv btl mc
      (List.range sel.length).reverse sel [] _ sel2 app2 fc2 h
    refine ⟨h1, ?_⟩
    rw [h2, List.nil_append]
    exact h3
  · rw [if_neg hc, Option.some.injEq, Prod.mk.injEq] at h
    obtain ⟨h1, h2, h3⟩ := h
    refine ⟨by rw [← h1], ?_⟩
    simp

/-- The guarded third pass preserves the event count and appends only
shrink log entries. -/
theorem phaseC_spec (ns : ℚ → String) (sv btl : Json) (mc : ℤ)
    (sel sel2 : List (List (String × Json))) (app app2 : List String)
    (fc fc2 : Nat)
    (h : phaseC ns sv btl mc (sel, app, fc) = some (sel2, app2, fc2)) :
    sel2.length = sel.length ∧
    ∃ c, app2 = app ++ c ∧ ∀ m ∈ c, ∃ i : Nat,
      m = "shrunk_to_hit_line:event_index=" ++ toString i := by
  rw [phaseC] at h
  by_cases hc : mc < ((fc : Nat) : ℤ) ∧ ¬ sel.isEmpty = true
  · rw [if_pos hc] at h
    exact shrinkLoop_spec ns sv btl mc (List.range sel.length).reverse
      sel app fc sel2 app2 fc2 h
  · rw [if_neg hc, Option.some.injEq, Prod.mk.injEq] at h
    obtain ⟨h1, h2, h3⟩ := h
    exact ⟨by rw [← h1], [], by simp, by simp⟩

/-- Full analysis of a successful `build_evidence_pack` run: the trimming
log is ordered line-drops, then event-drops, then shrinks, then more
event-drops; the meta block records its length and its first twelve entries
(or the compaction placeholder); the selection stays non-empty; and the
pack without `final_chars` meets the budget unless one event remains. -/
theorem build_analysis (ps : Json → String) (sf : String → Option ℚ)
    (si : String → Option ℤ) (ns : ℚ → String)
    (output : List (String × Json)) (topk mc : ℤ) (pack : Json)
    (hb : build_evidence_pack ps sf si ns output topk mc = some pack) :
    ∃ (selD : List (List (String × Json))) (a b c d : List String),
      (∀ m ∈ a, ∃ i : Nat,
        m = "dropped_evidence_lines:event_index=" ++ toString i) ∧
      (∀ m ∈ b, m = "dropped_low_ranked_event") ∧
      (∀ m ∈ c, ∃ i : Nat,
        m = "shrunk_to_hit_line:event_index=" ++ toString i) ∧
      (∀ m ∈ d, m = "dropped_low_ranked_event") ∧
      (eventsOf output ≠ [] → selD ≠ []) ∧
      Json.get? pack "selected_events" = some (.arr (selD.map Json.obj)) ∧
      metaLookup pack "trimming_count" =
        some (.num (a ++ b ++ c ++ d).length) ∧
      (metaLookup pack "trimming_applied" =
          some (.arr (((a ++ b ++ c ++ d).take 12).map Json.str)) ∨
        metaLookup pack "trimming_applied" =
          some (.arr [.str "meta_compacted"])) ∧
      ((serializedSizeChars ns (delMeta pack "final_chars") : ℤ) ≤ mc ∨
        selD.length ≤ 1) := by
  simp only [build_evidence_pack] at hb
  cases hrank : rank_events ps sf si (eventsOf output) with
  | none => simp [hrank] at hb
  | some ranked =>
  simp only [hrank] at hb
  cases hts : timeline_summary output with
  | none => simp [hts] at hb
  | some btl =>
  simp only [hts] at hb
  cases hA : phaseA ns ((alLookup output "schema_version").getD .null) btl
      mc (selectEvents ranked (eventsOf output) topk) with
  | none => simp [hA] at hb
  | some tA =>
  obtain ⟨selA, appA, fcA⟩ := tA
  simp only [hA] at hb
  rcases hrB : dropEventsLoop ns
      ((alLookup output "schema_version").getD .null) btl mc selA.length
      selA appA fcA with ⟨selB, appB, fcB⟩
  rw [hrB] at hb
  cases hC : phaseC ns ((alLookup output "schema_version").getD .null) btl
      mc (selB, appB, fcB) with
  | none => simp [hC] at hb
  | some tC =>
  obtain ⟨selC, appC, fcC⟩ := tC
  simp only [hC] at hb
  rw [Option.some.injEq] at hb
  obtain ⟨h1A, haA⟩ := phaseA_spec ns _ btl mc _ selA appA fcA hA
  obtain ⟨hneB, b, hb2, hbm⟩ := dropEventsLoop_spec ns
    ((alLookup output "schema_version").getD .null) btl mc selA.length
    selA appA fcA
  simp only [hrB] at hneB hb2
  obtain ⟨h1C, c, hc2, hcm⟩ := phaseC_spec ns _ btl mc selB selC appB appC
    fcB fcC hC
  obtain ⟨selD, appD, hrd, ⟨d, hd2, hdm⟩, hneD, hget, hcount, happl, hbud⟩ :=
    finishPack_analysis ns ((alLookup output "schema_version").getD .null)
      btl topk mc selC appC
  rw [hb] at hget hcount happl hbud
  have happD : appD = appA ++ b ++ c ++ d := by
    rw [hd2, hc2, hb2]
  refine ⟨selD, appA, b, c, d, haA, hbm, hcm, hdm, ?_, hget, ?_, ?_, hbud⟩
  · intro hev
    refine hneD ?_
    have hA1 : selA ≠ [] := by
      intro he
      have := selectEvents_ne_nil ranked (eventsOf output) topk hev
      rw [he] at h1A
      simp only [List.length_nil] at h1A
      exact this (List.eq_nil_of_length_eq_zero h1A.symm)
    have hB1 : selB ≠ [] := hneB hA1
    intro he
    rw [he] at h1C
    simp only [List.length_nil] at h1C
    exact hB1 (List.eq_nil_of_length_eq_zero h1C.symm)
  · rw [← happD]
    exact hcount
  · rw [← happD]
    exact happl

set_option maxRecDepth 10000 in
/-- C2 counterexample: `final_chars` is added to the meta block after the
last budget check, so the returned pack's actual serialized size can exceed
`max_chars` while two selected events remain — refuting "size ≤ maxChars OR
exactly one selected event" for the returned pack. -/
theorem evidence_budget_counterexample :
    eventsOf evBudgetOutput ≠ [] ∧
    ∃ pack sel,
      build_evidence_pack ps0 sf0 si0 numStrDefault evBudgetOutput 8 259 =
        some pack ∧
      Json.get? pack "selected_events" = some (.arr sel) ∧
      sel.length = 2 ∧
      (259 : ℤ) < (serializedSizeChars numStrDefault pack : ℤ) := by
  refine ⟨List.cons_ne_nil _ _, _, _, rfl, rfl, rfl, by decide⟩

/-- C2 (amended): a successful `build_evidence_pack` run on a non-empty
events list always selects at least one event, and the returned pack,
measured without the late-added `final_chars` meta entry, fits the budget
unless exactly one selected event remains. -/
theorem build_evidence_pack_budget (ps : Json → String)
    (sf : String → Option ℚ) (si : String → Option ℤ) (ns : ℚ → String)
    (output : List (String × Json)) (topk mc : ℤ) (pack : Json)
    (hev : eventsOf output ≠ [])
    (hb : build_evidence_pack ps sf si ns output topk mc = some pack) :
    ∃ sel : List (List (String × Json)),
      Json.get? pack "selected_events" = some (.arr (sel.map Json.obj)) ∧
      sel ≠ [] ∧
      ((serializedSizeChars ns (delMeta pack "final_chars") : ℤ) ≤ mc ∨
        sel.length = 1) := by
  obtain ⟨selD, a, b, c, d, _, _, _, _, hne, hget, _, _, hbud⟩ :=
    build_analysis ps sf si ns output topk mc pack hb
  refine ⟨selD, hget, hne hev, ?_⟩
  rcases hbud with h | h
  · exact Or.inl h
  · right
    have hpos : 0 < selD.length := List.length_pos.mpr (hne hev)
    omega

set_option maxRecDepth 10000 in
/-- Witness for C2 (amended): the concrete two-event output satisfies the
hypotheses and the conclusion. -/
theorem build_evidence_pack_budget_witness :
    eventsOf evBudgetOutput ≠ [] ∧
    ∃ pack,
      build_evidence_pack ps0 sf0 si0 numStrDefault evBudgetOutput 8 259 =
        some pack ∧
      ∃ sel : List (List (String × Json)),
        Json.get? pack "selected_events" =
          some (.arr (sel.map Json.obj)) ∧
        sel ≠ [] ∧
        ((serializedSizeChars numStrDefault
            (delMeta pack "final_chars") : ℤ) ≤ 259 ∨
          sel.length = 1) :=
  ⟨List.cons_ne_nil _ _, _, rfl,
    build_evidence_pack_budget ps0 sf0 si0 numStrDefault evBudgetOutput
      8 259 _ (List.cons_ne_nil _ _) rfl⟩

set_option maxRecDepth 40000 in
/-- C3 counterexample: over budget with a single event, the first
degradation applied is dropping the evidence `lines` wholesale — the hit
(anchor) line included — not shrinking to the hit line: the returned pack's
log shows one `dropped_evidence_lines` entry and the evidence window has no
`lines` key at all. -/
theorem evidence_trim_order_counterexample :
    ∃ pack,
      build_evidence_pack ps0 sf0 si0 numStrDefault evTrimOutput 8 600 =
        some pack ∧
      metaLookup pack "trimming_applied" =
        some (.arr [.str "dropped_evidence_lines:event_index=0"]) ∧
      metaLookup pack "trimming_count" = some (.num 1) ∧
      Json.get? pack "selected_events" = some (.arr
        [.obj [("event_id", .str "a"),
          ("where", .obj [("line_range", .obj [("start", .num 5)])]),
          ("evidence", .arr [.obj [("ref", .str "r"), ("kind", .str "k"),
            ("start_line", .num 1), ("end_line", .num 9)]])]]) ∧
      alHasKey [("ref", Json.str "r"), ("kind", Json.str "k"),
        ("start_line", Json.num 1), ("end_line", Json.num 9)]
        "lines" = false := by
  refine ⟨_, rfl, rfl, rfl, rfl, by decide⟩

/-- C3 (amended): on every successful run the trimming log is, in order:
whole-`lines` drops (walking events from last to first), then low-ranked
event drops, then shrink-to-hit-line steps, then more event drops performed
after the meta block is attached; `trimming_count` is the full log's
length, and `trimming_applied` holds the log's FIRST twelve entries — or is
replaced wholesale by `["meta_compacted"]` as the last resort. -/
theorem build_evidence_pack_trim_order (ps : Json → String)
    (sf : String → Option ℚ) (si : String → Option ℤ) (ns : ℚ → String)
    (output : List (String × Json)) (topk mc : ℤ) (pack : Json)
    (hb : build_evidence_pack ps sf si ns output topk mc = some pack) :
    ∃ (a b c d : List String),
      (∀ m ∈ a, ∃ i : Nat,
        m = "dropped_evidence_lines:event_index=" ++ toString i) ∧
      (∀ m ∈ b, m = "dropped_low_ranked_event") ∧
      (∀ m ∈ c, ∃ i : Nat,
        m = "shrunk_to_hit_line:event_index=" ++ toString i) ∧
      (∀ m ∈ d, m = "dropped_low_ranked_event") ∧
      metaLookup pack "trimming_count" =
        some (.num (a ++ b ++ c ++ d).length) ∧
      (metaLookup pack "trimming_applied" =
          some (.arr (((a ++ b ++ c ++ d).take 12).map Json.str)) ∨
        metaLookup pack "trimming_applied" =
          some (.arr [.str "meta_compacted"])) := by
  obtain ⟨selD, a, b, c, d, ha, hbm, hcm, hdm, _, _, hcount, happl, _⟩ :=
    build_analysis ps sf si ns output topk mc pack hb
  exact ⟨a, b, c, d, ha, hbm, hcm, hdm, hcount, happl⟩

set_option maxRecDepth 40000 in
/-- Witness for C3 (amended): the concrete single-event run satisfies the
hypothesis and exhibits the log decomposition. -/
theorem build_evidence_pack_trim_order_witness :
    ∃ pack,
      build_evidence_pack ps0 sf0 si0 numStrDefault evTrimOutput 8 600 =
        some pack ∧
      ∃ (a b c d : List String),
        (∀ m ∈ a, ∃ i : Nat,
          m = "dropped_evidence_lines:event_index=" ++ toString i) ∧
        (∀ m ∈ b, m = "dropped_low_ranked_event") ∧
        (∀ m ∈ c, ∃ i : Nat,
          m = "shrunk_to_hit_line:event_index=" ++ toString i) ∧
        (∀ m ∈ d, m = "dropped_low_ranked_event") ∧
        metaLookup pack "trimming_count" =
          some (.num (a ++ b ++ c ++ d).length) ∧
        (metaLookup pack "trimming_applied" =
            some (.arr (((a ++ b ++ c ++ d).take 12).map Json.str)) ∨
          metaLookup pack "trimming_applied" =
            some (.arr [.str "meta_compacted"])) :=
  ⟨_, rfl,
    build_evidence_pack_trim_order ps0 sf0 si0 numStrDefault evTrimOutput
      8 600 _ rfl⟩

/-- C6 counterexample: a model reply that wraps a valid synthesis under
`llm_synthesis` while ALSO carrying `evidence_pack` among its top-level
keys is NOT replaced by the fallback: the echo check runs after unwrapping,
so the inner synthesis is kept (its summary "s" survives), not the fixed
failure summary the fallback would carry. -/
theorem llm_step_counterexample :
    alHasKey echoWrapFields "evidence_pack" = true ∧
    Json.get? (llm_synthesis_step (fun _ => "invalid") (.obj [])
        (.obj echoWrapFields) "m" 1 0) "executive_summary" =
      some (.str "s") ∧
    Json.get? (llm_fallback "ValueError"
        "Failed to generate or validate LLM synthesis"
        "LLM echoed input evidence pack instead of producing llm_synthesis"
        "m" 1 0 (sortedKeys echoWrapFields)) "executive_summary" =
      some (.str "LLM synthesis failed; see errors.") ∧
    ("s" = "LLM synthesis failed; see errors." → False) :=
  ⟨rfl, rfl, rfl, by decide⟩

/-- C6 (amended): the pipeline substitutes the fixed fallback payload when
the model's JSON is not an object, when the candidate — AFTER unwrapping a
dict-valued `llm_synthesis` key — has `evidence_pack` or `selected_events`
among its top-level keys, or when the repaired candidate still fails
validation; the fallback carries zero confidence, the fixed failure
summary, empty arrays, and an errors[0] entry with the failure's type,
message, detail, model, timeout, prompt length and the candidate's sorted
top-level keys; and substituting it never flips the output validation
gate, so a run whose output validates still exits 0. -/
theorem llm_fallback_on_failures (vmsg : Json → String) (output : Json)
    (model : String) (timeout_s prompt_len : ℤ) :
    (∀ candidate : Json, candidate.isObj = false →
      llm_synthesis_step vmsg output candidate model timeout_s prompt_len =
        llm_fallback "ValueError"
          "Failed to generate or validate LLM synthesis"
          "LLM returned non-object JSON" model timeout_s prompt_len []) ∧
    (∀ cf0 : List (String × Json),
      (alHasKey (unwrapCandidate cf0).1 "evidence_pack" ||
        alHasKey (unwrapCandidate cf0).1 "selected_events") = true →
      llm_synthesis_step vmsg output (.obj cf0) model timeout_s prompt_len =
        llm_fallback "ValueError"
          "Failed to generate or validate LLM synthesis"
          "LLM echoed input evidence pack instead of producing llm_synthesis"
          model timeout_s prompt_len (unwrapCandidate cf0).2) ∧
    (∀ cf0 : List (String × Json),
      (alHasKey (unwrapCandidate cf0).1 "evidence_pack" ||
        alHasKey (unwrapCandidate cf0).1 "selected_events") = false →
      validateSynthesis (.obj (repair_llm_synthesis (unwrapCandidate cf0).1
        (select_best_llm_event_id output))) = false →
      llm_synthesis_step vmsg output (.obj cf0) model timeout_s prompt_len =
        llm_fallback "ValueError"
          "Failed to generate or validate LLM synthesis"
          (vmsg (.obj (repair_llm_synthesis (unwrapCandidate cf0).1
            (select_best_llm_event_id output))))
          model timeout_s prompt_len (unwrapCandidate cf0).2) ∧
    (∀ (et m d mo : String) (ts pl : ℤ) (ks : List String),
      Json.get? (llm_fallback et m d mo ts pl ks) "overall_confidence" =
        some (.num 0) ∧
      Json.get? (llm_fallback et m d mo ts pl ks) "executive_summary" =
        some (.str "LLM synthesis failed; see errors.") ∧
      Json.get? (llm_fallback et m d mo ts pl ks) "root_cause_hypotheses" =
        some (.arr []) ∧
      Json.get? (llm_fallback et m d mo ts pl ks)
        "recommended_next_actions" = some (.arr []) ∧
      Json.get? (llm_fallback et m d mo ts pl ks) "missing_evidence" =
        some (.arr []) ∧
      Json.get? (llm_fallback et m d mo ts pl ks) "errors" =
        some (.arr [.obj
          [("type", .str et), ("message", .str m), ("detail", .str d),
           ("model", .str mo), ("timeout_s", .num ts),
           ("prompt_len", .num pl),
           ("candidate_keys", .arr (ks.map Json.str))]])) ∧
    (∀ (data : List (String × Json)) (v : Json),
      validate_without_jsonschema data = true →
      validate_exit_code (alSet data "llm_synthesis" v) = 0) := by
  refine ⟨?_, ?_, ?_, ?_, ?_⟩
  · intro candidate h
    cases candidate with
    | obj cf0 => simp [Json.isObj] at h
    | null => rfl
    | bool b => rfl
    | num q => rfl
    | str s => rfl
    | arr l => rfl
  · intro cf0 h
    simp only [llm_synthesis_step]
    rw [if_pos h]
  · intro cf0 h1 h2
    simp only [llm_synthesis_step]
    rw [if_neg (by simp [h1]), if_neg (by simp [h2])]
  · intro et m d mo ts pl ks
    exact ⟨rfl, rfl, rfl, rfl, rfl, rfl⟩
  · intro data v hv
    rw [validate_exit_code, if_pos ?_]
    simp only [validate_without_jsonschema, Bool.and_eq_true] at hv ⊢
    obtain ⟨⟨⟨⟨⟨⟨⟨h1, h2⟩, h3⟩, h4⟩, h5⟩, h6⟩, h7⟩, h8⟩ := hv
    refine ⟨⟨⟨⟨⟨⟨⟨?_, ?_⟩, ?_⟩, ?_⟩, ?_⟩, ?_⟩, ?_⟩, ?_⟩
    · exact alHasKey_alSet_mono _ _ _ data h1
    · exact alHasKey_alSet_mono _ _ _ data h2
    · exact alHasKey_alSet_mono _ _ _ data h3
    · exact alHasKey_alSet_mono _ _ _ data h4
    · rw [alLookup_alSet_ne _ _ _ (by decide) data]
      exact h5
    · rw [alLookup_alSet_ne _ _ _ (by decide) data]
      exact h6
    · rw [alLookup_alSet_ne _ _ _ (by decide) data]
      exact h7
    · rw [alLookup_alSet_ne _ _ _ (by decide) data]
      exact h8

/-- Witness for C6 (amended): a non-object candidate is replaced by the
concrete fallback payload. -/
theorem llm_fallback_on_failures_witness :
    Json.isObj .null = false ∧
    llm_synthesis_step (fun _ => "") (.obj []) .null "m" 1 0 =
      llm_fallback "ValueError"
        "Failed to generate or validate LLM synthesis"
        "LLM returned non-object JSON" "m" 1 0 [] :=
  ⟨rfl, (llm_fallback_on_failures (fun _ => "") (.obj []) "m" 1 0).1
    .null rfl⟩

/-! ### Frame lemmas for the heap model (C10) -/

/-- Allocation preserves every existing cell. -/
theorem heap_get_append (h : Heap) (v : HVal) (a : Nat)
    (ha : a < h.length) : (h ++ [v])[a]? = h[a]? := by
  rw [List.getElem?_append, if_pos ha]

/-- `heapExt` is reflexive. -/
theorem heapExt_refl (n0 : Nat) (h : Heap) : heapExt n0 h h :=
  ⟨le_refl _, fun _ _ => rfl⟩

/-- `heapExt` composes. -/
theorem heapExt_trans {n0 : Nat} {h1 h2 h3 : Heap}
    (e1 : heapExt n0 h1 h2) (e2 : heapExt n0 h2 h3) : heapExt n0 h1 h3 :=
  ⟨le_trans e1.1 e2.1, fun a ha => (e2.2 a ha).trans (e1.2 a ha)⟩

/-- Allocation is a frame-preserving extension. -/
theorem heapExt_append (n0 : Nat) (h : Heap) (v : HVal)
    (hn : n0 ≤ h.length) : heapExt n0 h (h ++ [v]) :=
  ⟨by simp, fun a ha => heap_get_append h v a (lt_of_lt_of_le ha hn)⟩

/-- Writing at or above `n0` is a frame-preserving extension. -/
theorem heapExt_set (n0 : Nat) (h : Heap) (b : Nat) (v : HVal)
    (hb : n0 ≤ b) : heapExt n0 h (h.set b v) :=
  ⟨by rw [List.length_set], fun a ha =>
    List.getElem?_set_ne (by omega)⟩

/-- An empty fresh segment is trivially closed. -/
theorem freshSeg_init (n0 : Nat) (h : Heap) (hn : h.length ≤ n0) :
    freshSeg n0 h := by
  intro b v hv hb
  rw [List.getElem?_eq_none (le_trans hn hb)] at hv
  exact Option.noConfusion hv

/-- Allocating a cell whose children are fresh keeps the segment closed. -/
theorem freshSeg_append (n0 : Nat) (h : Heap) (v : HVal)
    (hf : freshSeg n0 h) (hv : ∀ c ∈ HVal.children v, n0 ≤ c) :
    freshSeg n0 (h ++ [v]) := by
  intro b w hw hb c hc
  by_cases hlt : b < h.length
  · rw [heap_get_append h v b hlt] at hw
    exact hf b w hw hb c hc
  · have hb2 : b < h.length + 1 := by
      by_contra hge
      have hlen : (h ++ [v]).length ≤ b := by
        simp only [List.length_append, List.length_singleton]
        omega
      rw [List.getElem?_eq_none hlen] at hw
      exact Option.noConfusion hw
    have hbe : b = h.length := by omega
    subst hbe
    have hv2 : (h ++ [v])[h.length]? = some v := by
      rw [List.getElem?_append_right (le_refl _)]
      simp
    rw [hv2] at hw
    injection hw with hw
    subst hw
    exact hv c hc

/-- Overwriting a cell with one whose children are fresh keeps the segment
closed. -/
theorem freshSeg_set (n0 : Nat) (h : Heap) (b : Nat) (v : HVal)
    (hf : freshSeg n0 h) (hv : ∀ c ∈ HVal.children v, n0 ≤ c) :
    freshSeg n0 (h.set b v) := by
  intro b2 w hw hb2 c hc
  by_cases he : b = b2
  · subst he
    by_cases hlt : b < h.length
    · have hv2 : (h.set b v)[b]? = some v := by
        simp [List.getElem?_set_self, hlt]
      rw [hv2] at hw
      injection hw with hw
      subst hw
      exact hv c hc
    · have hlen : (h.set b v).length ≤ b := by
        rw [List.length_set]
        omega
      rw [List.getElem?_eq_none hlen] at hw
      exact Option.noConfusion hw
  · rw [List.getElem?_set_ne he] at hw
    exact hf b2 w hw hb2 c hc

/-- A value found by `alLookup` is among the mapped values. -/
theorem mem_map_snd_of_alLookup {α : Type} (f : List (String × α))
    (k : String) (v : α) (hv : alLookup f k = some v) :
    v ∈ f.map Prod.snd :=
  List.mem_map.mpr ⟨(k, v), mem_of_alLookup k v f hv, rfl⟩

/-- `alDel` only removes values. -/
theorem mem_map_snd_alDel {α : Type} (f : List (String × α)) (k : String)
    (c : α) (hc : c ∈ (alDel f k).map Prod.snd) : c ∈ f.map Prod.snd := by
  induction f with
  | nil =>
      simp only [alDel, List.map_nil] at hc
      exact absurd hc (List.not_mem_nil _)
  | cons kv rest ih =>
      obtain ⟨k1, v1⟩ := kv
      simp only [alDel] at hc
      by_cases he : k1 = k
      · rw [if_pos he] at hc
        simp only [List.map_cons, List.mem_cons]
        exact Or.inr hc
      · rw [if_neg he] at hc
        simp only [List.map_cons, List.mem_cons] at hc ⊢
        rcases hc with h | h
        · exact Or.inl h
        · exact Or.inr (ih h)

/-- A value of `alSet f k v` is `v` or an original value. -/
theorem mem_map_snd_alSet {α : Type} (f : List (String × α)) (k : String)
    (v c : α) (hc : c ∈ (alSet f k v).map Prod.snd) :
    c = v ∨ c ∈ f.map Prod.snd := by
  induction f with
  | nil =>
      simp only [alSet, List.map_cons, List.map_nil,
        List.mem_singleton] at hc
      exact Or.inl hc
  | cons kv rest ih =>
      obtain ⟨k1, v1⟩ := kv
      simp only [alSet] at hc
      by_cases he : k1 = k
      · rw [if_pos he] at hc
        simp only [List.map_cons, List.mem_cons] at hc ⊢
        rcases hc with h | h
        · exact Or.inl h
        · exact Or.inr (Or.inr h)
      · rw [if_neg he] at hc
        simp only [List.map_cons, List.mem_cons] at hc ⊢
        rcases hc with h | h
        · exact Or.inr (Or.inl h)
        · rcases ih h with h2 | h2
          · exact Or.inl h2
          · exact Or.inr (Or.inr h2)

/-- Allocating a childless cell: frame facts. -/
theorem heapAllocLeaf_spec (h : Heap) (v : HVal)
    (hv : HVal.children v = []) :
    h.length ≤ (h ++ [v]).length ∧
    h.length ≤ h.length ∧
    (∀ a, a < h.length → (h ++ [v])[a]? = h[a]?) ∧
    (∀ n0, n0 ≤ h.length → freshSeg n0 h → freshSeg n0 (h ++ [v])) := by
  refine ⟨by simp, le_refl _, fun a ha => heap_get_append h v a ha,
    fun n0 hn hf => freshSeg_append n0 h v hf ?_⟩
  rw [hv]
  intro c hc
  exact absurd hc (List.not_mem_nil _)

mutual

/-- `heapFromJson` only appends: it never touches an existing cell, its
root address is fresh, and it keeps the fresh segment closed. -/
theorem heapFromJson_spec : ∀ (h : Heap) (j : Json),
    h.length ≤ (heapFromJson h j).1.length ∧
    h.length ≤ (heapFromJson h j).2 ∧
    (∀ a, a < h.length → (heapFromJson h j).1[a]? = h[a]?) ∧
    (∀ n0, n0 ≤ h.length → freshSeg n0 h →
      freshSeg n0 (heapFromJson h j).1)
  | h, .null => heapAllocLeaf_spec h .null rfl
  | h, .bool b => heapAllocLeaf_spec h (.bool b) rfl
  | h, .num q => heapAllocLeaf_spec h (.num q) rfl
  | h, .str s => heapAllocLeaf_spec h (.str s) rfl
  | h, .arr l => by
      obtain ⟨h1, h2, h3, h4⟩ := heapFromJsonList_spec h l
      have e : heapFromJson h (.arr l) =
          ((heapFromJsonList h l).1 ++ [HVal.arr (heapFromJsonList h l).2],
           (heapFromJsonList h l).1.length) := rfl
      simp only [e]
      refine ⟨?_, h1, ?_, ?_⟩
      · simp only [List.length_append, List.length_singleton]
        omega
      · intro a ha
        rw [heap_get_append _ _ _ (lt_of_lt_of_le ha h1)]
        exact h3 a ha
      · intro n0 hn hf
        refine freshSeg_append n0 _ _ (h4 n0 hn hf) ?_
        intro c hc
        simp only [HVal.children] at hc
        exact le_trans hn (h2 c hc)
  | h, .obj f => by
      obtain ⟨h1, h2, h3, h4⟩ := heapFromJsonFields_spec h f
      have e : heapFromJson h (.obj f) =
          ((heapFromJsonFields h f).1 ++
            [HVal.obj (heapFromJsonFields h f).2],
           (heapFromJsonFields h f).1.length) := rfl
      simp only [e]
      refine ⟨?_, h1, ?_, ?_⟩
      · simp only [List.length_append, List.length_singleton]
        omega
      · intro a ha
        rw [heap_get_append _ _ _ (lt_of_lt_of_le ha h1)]
        exact h3 a ha
      · intro n0 hn hf
        refine freshSeg_append n0 _ _ (h4 n0 hn hf) ?_
        intro c hc
        simp only [HVal.children] at hc
        rcases List.mem_map.mp hc with ⟨kv, hkv, hce⟩
        subst hce
        exact le_trans hn (h2 kv hkv)

/-- `heapFromJsonList`: frame facts, with every returned address fresh. -/
theorem heapFromJsonList_spec : ∀ (h : Heap) (l : List Json),
    h.length ≤ (heapFromJsonList h l).1.length ∧
    (∀ x ∈ (heapFromJsonList h l).2, h.length ≤ x) ∧
    (∀ a, a < h.length → (heapFromJsonList h l).1[a]? = h[a]?) ∧
    (∀ n0, n0 ≤ h.length → freshSeg n0 h →
      freshSeg n0 (heapFromJsonList h l).1)
  | h, [] => by
      refine ⟨le_refl _, ?_, fun a _ => rfl, fun n0 _ hf => hf⟩
      intro x hx
      exact absurd hx (List.not_mem_nil _)
  | h, x :: xs => by
      obtain ⟨a1, a2, a3, a4⟩ := heapFromJson_spec h x
      obtain ⟨b1, b2, b3, b4⟩ :=
        heapFromJsonList_spec (heapFromJson h x).1 xs
      have e : heapFromJsonList h (x :: xs) =
          ((heapFromJsonList (heapFromJson h x).1 xs).1,
           (heapFromJson h x).2 ::
             (heapFromJsonList (heapFromJson h x).1 xs).2) := rfl
      simp only [e]
      refine ⟨le_trans a1 b1, ?_, ?_, ?_⟩
      · intro y hy
        rcases List.mem_cons.mp hy with he | ht
        · subst he
          exact a2
        · exact le_trans a1 (b2 y ht)
      · intro a ha
        rw [b3 a (lt_of_lt_of_le ha a1)]
        exact a3 a ha
      · intro n0 hn hf
        exact b4 n0 (le_trans hn a1) (a4 n0 hn hf)

/-- `heapFromJsonFields`: frame facts, with every returned value address
fresh. -/
theorem heapFromJsonFields_spec : ∀ (h : Heap) (f : List (String × Json)),
    h.length ≤ (heapFromJsonFields h f).1.length ∧
    (∀ kv ∈ (heapFromJsonFields h f).2, h.length ≤ kv.2) ∧
    (∀ a, a < h.length → (heapFromJsonFields h f).1[a]? = h[a]?) ∧
    (∀ n0, n0 ≤ h.length → freshSeg n0 h →
      freshSeg n0 (heapFromJsonFields h f).1)
  | h, [] => by
      refine ⟨le_refl _, ?_, fun a _ => rfl, fun n0 _ hf => hf⟩
      intro kv hkv
      exact absurd hkv (List.not_mem_nil _)
  | h, (k, v) :: rest => by
      obtain ⟨a1, a2, a3, a4⟩ := heapFromJson_spec h v
      obtain ⟨b1, b2, b3, b4⟩ :=
        heapFromJsonFields_spec (heapFromJson h v).1 rest
      have e : heapFromJsonFields h ((k, v) :: rest) =
          ((heapFromJsonFields (heapFromJson h v).1 rest).1,
           (k, (heapFromJson h v).2) ::
             (heapFromJsonFields (heapFromJson h v).1 rest).2) := rfl
      simp only [e]
      refine ⟨le_trans a1 b1, ?_, ?_, ?_⟩
      · intro kv hkv
        rcases List.mem_cons.mp hkv with he | ht
        · subst he
          exact a2
        · exact le_trans a1 (b2 kv ht)
      · intro a ha
        rw [b3 a (lt_of_lt_of_le ha a1)]
        exact a3 a ha
      · intro n0 hn hf
        exact b4 n0 (le_trans hn a1) (a4 n0 hn hf)

end

/-- The `_drop_evidence_lines` window loop only rewrites window cells in
the fresh segment. -/
theorem dropLinesItems_spec (n0 : Nat) : ∀ (items : List Nat) (h : Heap),
    (∀ it ∈ items, n0 ≤ it) → freshSeg n0 h →
    (dropLinesItems h items).2.length = h.length ∧
    (∀ a, a < n0 → (dropLinesItems h items).2[a]? = h[a]?) ∧
    freshSeg n0 (dropLinesItems h items).2
  | [], h, _, hf => ⟨rfl, fun _ _ => rfl, hf⟩
  | it :: rest, h, hits, hf => by
      have hit : n0 ≤ it := hits it (List.mem_cons_self _ _)
      have hrest : ∀ x ∈ rest, n0 ≤ x := fun x hx =>
        hits x (List.mem_cons_of_mem _ hx)
      simp only [dropLinesItems]
      cases hread : h[it]? with
      | none =>
          simp only [hread]
          exact dropLinesItems_spec n0 rest h hrest hf
      | some v =>
          cases v with
          | null =>
              simp only [hread]
              exact dropLinesItems_spec n0 rest h hrest hf
          | bool b =>
              simp only [hread]
              exact dropLinesItems_spec n0 rest h hrest hf
          | num q =>
              simp only [hread]
              exact dropLinesItems_spec n0 rest h hrest hf
          | str str1 =>
              simp only [hread]
              exact dropLinesItems_spec n0 rest h hrest hf
          | arr l =>
              simp only [hread]
              exact dropLinesItems_spec n0 rest h hrest hf
          | obj itf =>
              simp only [hread]
              by_cases hk : alHasKey itf "lines"
              · rw [if_pos hk]
                have hfresh1 :
                    freshSeg n0 (h.set it (.obj (alDel itf "lines"))) := by
                  refine freshSeg_set n0 h it _ hf ?_
                  intro c hc
                  simp only [HVal.children] at hc
                  exact hf it (.obj itf) hread hit c
                    (mem_map_snd_alDel itf "lines" c hc)
                obtain ⟨r1, r2, r3⟩ := dropLinesItems_spec n0 rest
                  (h.set it (.obj (alDel itf "lines"))) hrest hfresh1
                refine ⟨r1.trans (List.length_set h it _), ?_, r3⟩
                intro a ha
                exact (r2 a ha).trans (List.getElem?_set_ne (by omega))
              · rw [if_neg hk]
                exact dropLinesItems_spec n0 rest h hrest hf

/-- `_drop_evidence_lines` on the heap never touches a cell below `n0`
when the event address is fresh. -/
theorem heapDropLines_spec (n0 : Nat) (h : Heap) (ev : Nat)
    (r : Bool × Heap) (hev : n0 ≤ ev) (hf : freshSeg n0 h)
    (hr : heapDropLines h ev = some r) :
    r.2.length = h.length ∧ (∀ a, a < n0 → r.2[a]? = h[a]?) ∧
    freshSeg n0 r.2 := by
  simp only [heapDropLines] at hr
  cases hread : h[ev]? with
  | none => simp [hread] at hr
  | some v =>
      cases v with
      | null => simp [hread] at hr
      | bool b => simp [hread] at hr
      | num q => simp [hread] at hr
      | str str1 => simp [hread] at hr
      | arr l => simp [hread] at hr
      | obj ef =>
          simp only [hread] at hr
          cases hel : alLookup ef "evidence" with
          | none =>
              simp only [hel, Option.some.injEq] at hr
              subst hr
              exact ⟨rfl, fun _ _ => rfl, hf⟩
          | some e =>
              simp only [hel] at hr
              have he : n0 ≤ e := hf ev (.obj ef) hread hev e
                (mem_map_snd_of_alLookup ef "evidence" e hel)
              cases hre : h[e]? with
              | none => simp [hre] at hr
              | some w =>
                  cases w with
                  | null => simp [hre] at hr
                  | bool b => simp [hre] at hr
                  | num q => simp [hre] at hr
                  | arr items =>
                      simp only [hre, Option.some.injEq] at hr
                      subst hr
                      have hitems : ∀ it ∈ items, n0 ≤ it := fun it hit =>
                        hf e (.arr items) hre he it hit
                      exact dropLinesItems_spec n0 items h hitems hf
                  | str str1 =>
                      simp only [hre, Option.some.injEq] at hr
                      subst hr
                      exact ⟨rfl, fun _ _ => rfl, hf⟩
                  | obj f2 =>
                      simp only [hre, Option.some.injEq] at hr
                      subst hr
                      exact ⟨rfl, fun _ _ => rfl, hf⟩

/-- The `_shrink_event_lines_to_hit_line` window loop allocates the copied
hit line and rewrites only window cells in the fresh segment. -/
theorem shrinkItems_spec (n0 fuel : Nat) (q : ℚ) :
    ∀ (items : List Nat) (h : Heap) (r : Bool × Heap),
    (∀ it ∈ items, n0 ≤ it) → n0 ≤ h.length → freshSeg n0 h →
    shrinkItems fuel q h items = some r →
    h.length ≤ r.2.length ∧ (∀ a, a < n0 → r.2[a]? = h[a]?) ∧
    freshSeg n0 r.2
  | [], h, r, _, hn, hf, hr => by
      simp only [shrinkItems, Option.some.injEq] at hr
      subst hr
      exact ⟨le_refl _, fun _ _ => rfl, hf⟩
  | it :: rest, h, r, hits, hn, hf, hr => by
      have hit : n0 ≤ it := hits it (List.mem_cons_self _ _)
      have hrest : ∀ x ∈ rest, n0 ≤ x := fun x hx =>
        hits x (List.mem_cons_of_mem _ hx)
      simp only [shrinkItems] at hr
      cases hread : h[it]? with
      | none =>
          simp only [hread] at hr
          cases hrec : shrinkItems fuel q h rest with
          | none => simp [hrec] at hr
          | some r2 =>
              obtain ⟨ch2, h2⟩ := r2
              simp only [hrec, Option.some.injEq] at hr
              subst hr
              exact shrinkItems_spec n0 fuel q rest h (ch2, h2) hrest hn
                hf hrec
      | some v =>
          cases v with
          | null =>
              simp only [hread] at hr
              cases hrec : shrinkItems fuel q h rest with
              | none => simp [hrec] at hr
              | some r2 =>
                  obtain ⟨ch2, h2⟩ := r2
                  simp only [hrec, Option.some.injEq] at hr
                  subst hr
                  exact shrinkItems_spec n0 fuel q rest h (ch2, h2) hrest hn
                    hf hrec
          | bool b =>
              simp only [hread] at hr
              cases hrec : shrinkItems fuel q h rest with
              | none => simp [hrec] at hr
              | some r2 =>
                  obtain ⟨ch2, h2⟩ := r2
                  simp only [hrec, Option.some.injEq] at hr
                  subst hr
                  exact shrinkItems_spec n0 fuel q rest h (ch2, h2) hrest hn
                    hf hrec
          | num q2 =>
              simp only [hread] at hr
              cases hrec : shrinkItems fuel q h rest with
              | none => simp [hrec] at hr
              | some r2 =>
                  obtain ⟨ch2, h2⟩ := r2
                  simp only [hrec, Option.some.injEq] at hr
                  subst hr
                  exact shrinkItems_spec n0 fuel q rest h (ch2, h2) hrest hn
                    hf hrec
          | str str1 =>
              simp only [hread] at hr
              cases hrec : shrinkItems fuel q h rest with
              | none => simp [hrec] at hr
              | some r2 =>
                  obtain ⟨ch2, h2⟩ := r2
                  simp only [hrec, Option.some.injEq] at hr
                  subst hr
                  exact shrinkItems_spec n0 fuel q rest h (ch2, h2) hrest hn
                    hf hrec
          | arr l =>
              simp only [hread] at hr
              cases hrec : shrinkItems fuel q h rest with
              | none => simp [hrec] at hr
              | some r2 =>
                  obtain ⟨ch2, h2⟩ := r2
                  simp only [hrec, Option.some.injEq] at hr
                  subst hr
                  exact shrinkItems_spec n0 fuel q rest h (ch2, h2) hrest hn
                    hf hrec
          | obj itf =>
              simp only [hread] at hr
              cases hll : alLookup itf "lines" with
              | none =>
                  simp only [hll] at hr
                  cases hrec : shrinkItems fuel q h rest with
                  | none => simp [hrec] at hr
                  | some r2 =>
                      obtain ⟨ch2, h2⟩ := r2
                      simp only [hrec, Option.some.injEq] at hr
                      subst hr
                      exact shrinkItems_spec n0 fuel q rest h (ch2, h2)
                        hrest hn hf hrec
              | some la =>
                  simp only [hll] at hr
                  cases hla : h[la]? with
                  | none =>
                      simp only [hla] at hr
                      cases hrec : shrinkItems fuel q h rest with
                      | none => simp [hrec] at hr
                      | some r2 =>
                          obtain ⟨ch2, h2⟩ := r2
                          simp only [hrec, Option.some.injEq] at hr
                          subst hr
                          exact shrinkItems_spec n0 fuel q rest h (ch2, h2)
                            hrest hn hf hrec
                  | some w =>
                      cases w with
                      | null =>
                          simp only [hla] at hr
                          cases hrec : shrinkItems fuel q h rest with
                          | none => simp [hrec] at hr
                          | some r2 =>
                              obtain ⟨ch2, h2⟩ := r2
                              simp only [hrec, Option.some.injEq] at hr
                              subst hr
                              exact shrinkItems_spec n0 fuel q rest h (ch2, h2)
                                hrest hn hf hrec
                      | bool b =>
                          simp only [hla] at hr
                          cases hrec : shrinkItems fuel q h rest with
                          | none => simp [hrec] at hr
                          | some r2 =>
                              obtain ⟨ch2, h2⟩ := r2
                              simp only [hrec, Option.some.injEq] at hr
                              subst hr
                              exact shrinkItems_spec n0 fuel q rest h (ch2, h2)
                                hrest hn hf hrec
                      | num q2 =>
                          simp only [hla] at hr
                          cases hrec : shrinkItems fuel q h rest with
                          | none => simp [hrec] at hr
                          | some r2 =>
                              obtain ⟨ch2, h2⟩ := r2
                              simp only [hrec, Option.some.injEq] at hr
                              subst hr
                              exact shrinkItems_spec n0 fuel q rest h (ch2, h2)
                                hrest hn hf hrec
                      | str str1 =>
                          simp only [hla] at hr
                          cases hrec : shrinkItems fuel q h rest with
                          | none => simp [hrec] at hr
                          | some r2 =>
                              obtain ⟨ch2, h2⟩ := r2
                              simp only [hrec, Option.some.injEq] at hr
                              subst hr
                              exact shrinkItems_spec n0 fuel q rest h (ch2, h2)
                                hrest hn hf hrec
                      | obj f2 =>
                          simp only [hla] at hr
                          cases hrec : shrinkItems fuel q h rest with
                          | none => simp [hrec] at hr
                          | some r2 =>
                              obtain ⟨ch2, h2⟩ := r2
                              simp only [hrec, Option.some.injEq] at hr
                              subst hr
                              exact shrinkItems_spec n0 fuel q rest h (ch2, h2)
                                hrest hn hf hrec
                      | arr lineAddrs =>
                          simp only [hla] at hr
                          by_cases hemp : lineAddrs.isEmpty
                          · rw [if_pos hemp] at hr
                            cases hrec : shrinkItems fuel q h rest with
                            | none => simp [hrec] at hr
                            | some r2 =>
                                obtain ⟨ch2, h2⟩ := r2
                                simp only [hrec, Option.some.injEq] at hr
                                subst hr
                                exact shrinkItems_spec n0 fuel q rest h
                                  (ch2, h2) hrest hn hf hrec
                          · rw [if_neg hemp] at hr
                            cases hjson : heapToJson fuel h
                                (shrinkHit h q lineAddrs) with
                            | none => simp [hjson] at hr
                            | some hj =>
                                simp only [hjson] at hr
                                obtain ⟨c1, c2, c3, c4⟩ :=
                                  heapFromJson_spec h hj
                                have hfA : freshSeg n0
                                    ((heapFromJson h hj).1 ++
                                      [HVal.arr [(heapFromJson h hj).2]]) := by
                                  refine freshSeg_append n0 _ _
                                    (c4 n0 hn hf) ?_
                                  intro c hc
                                  simp only [HVal.children,
                                    List.mem_singleton] at hc
                                  subst hc
                                  exact le_trans hn c2
                                have hf1 : freshSeg n0
                                    (((heapFromJson h hj).1 ++
                                      [HVal.arr [(heapFromJson h hj).2]]).set
                                      it (HVal.obj (alSet itf "lines"
                                        (heapFromJson h hj).1.length))) := by
                                  refine freshSeg_set n0 _ it _ hfA ?_
                                  intro c hc
                                  simp only [HVal.children] at hc
                                  rcases mem_map_snd_alSet itf "lines"
                                      (heapFromJson h hj).1.length c hc with
                                    he | hm
                                  · subst he
                                    exact le_trans hn c1
                                  · exact hf it (.obj itf) hread hit c hm
                                have hlen1 : h.length ≤
                                    (((heapFromJson h hj).1 ++
                                      [HVal.arr [(heapFromJson h hj).2]]).set
                                      it (HVal.obj (alSet itf "lines"
                                        (heapFromJson h hj).1.length))).length := by
                                  rw [List.length_set]
                                  simp only [List.length_append,
                                    List.length_singleton]
                                  omega
                                have hget1 : ∀ a, a < n0 →
                                    (((heapFromJson h hj).1 ++
                                      [HVal.arr [(heapFromJson h hj).2]]).set
                                      it (HVal.obj (alSet itf "lines"
                                        (heapFromJson h hj).1.length)))[a]? =
                                      h[a]? := by
                                  intro a ha
                                  rw [List.getElem?_set_ne (by omega)]
                                  rw [heap_get_append _ _ a
                                    (lt_of_lt_of_le (lt_of_lt_of_le ha hn) c1)]
                                  exact c3 a (lt_of_lt_of_le ha hn)
                                cases hrec : shrinkItems fuel q
                                    (((heapFromJson h hj).1 ++
                                      [HVal.arr [(heapFromJson h hj).2]]).set
                                      it (HVal.obj (alSet itf "lines"
                                        (heapFromJson h hj).1.length)))
                                    rest with
                                | none => simp [hrec] at hr
                                | some r2 =>
                                    obtain ⟨ch2, h2⟩ := r2
                                    simp only [hrec, Option.some.injEq] at hr
                                    subst hr
                                    obtain ⟨s1, s2, s3⟩ :=
                                      shrinkItems_spec n0 fuel q rest _
                                        (ch2, h2) hrest
                                        (le_trans hn hlen1) hf1 hrec
                                    refine ⟨le_trans hlen1 s1, ?_, s3⟩
                                    intro a ha
                                    exact (s2 a ha).trans (hget1 a ha)

/-- `_shrink_event_lines_to_hit_line` on the heap never touches a cell
below `n0` when the event address is fresh. -/
theorem heapShrink_spec (n0 fuel : Nat) (h : Heap) (ev : Nat)
    (r : Bool × Heap) (hev : n0 ≤ ev) (hn : n0 ≤ h.length)
    (hf : freshSeg n0 h) (hr : heapShrink fuel h ev = some r) :
    h.length ≤ r.2.length ∧ (∀ a, a < n0 → r.2[a]? = h[a]?) ∧
    freshSeg n0 r.2 := by
  simp only [heapShrink] at hr
  cases hread : h[ev]? with
  | none => simp [hread] at hr
  | some v =>
      cases v with
      | null => simp [hread] at hr
      | bool b => simp [hread] at hr
      | num q2 => simp [hread] at hr
      | str str1 => simp [hread] at hr
      | arr l => simp [hread] at hr
      | obj ef =>
          simp only [hread] at hr
          cases hcs : heapChainStart h ef with
          | none => simp [hcs] at hr
          | some sv =>
              simp only [hcs] at hr
              cases hiv : hvalIntValue sv with
              | none =>
                  simp only [hiv, Option.some.injEq] at hr
                  subst hr
                  exact ⟨le_refl _, fun _ _ => rfl, hf⟩
              | some q =>
                  simp only [hiv] at hr
                  cases hel : alLookup ef "evidence" with
                  | none =>
                      simp only [hel, Option.some.injEq] at hr
                      subst hr
                      exact ⟨le_refl _, fun _ _ => rfl, hf⟩
                  | some e =>
                      simp only [hel] at hr
                      have he : n0 ≤ e := hf ev (.obj ef) hread hev e
                        (mem_map_snd_of_alLookup ef "evidence" e hel)
                      cases hre : h[e]? with
                      | none => simp [hre] at hr
                      | some w =>
                          cases w with
                          | null => simp [hre] at hr
                          | bool b => simp [hre] at hr
                          | num q3 => simp [hre] at hr
                          | arr items =>
                              simp only [hre] at hr
                              have hitems : ∀ it ∈ items, n0 ≤ it :=
                                fun it hit => hf e (.arr items) hre he it hit
                              exact shrinkItems_spec n0 fuel q items h r
                                hitems hn hf hr
                          | str str1 =>
                              simp only [hre, Option.some.injEq] at hr
                              subst hr
                              exact ⟨le_refl _, fun _ _ => rfl, hf⟩
                          | obj f2 =>
                              simp only [hre, Option.some.injEq] at hr
                              subst hr
                              exact ⟨le_refl _, fun _ _ => rfl, hf⟩

/-- Frame triples compose. -/
theorem frame_comp {n0 : Nat} {h1 h2 h3 : Heap}
    (a : h1.length ≤ h2.length ∧ (∀ x, x < n0 → h2[x]? = h1[x]?) ∧
      freshSeg n0 h2)
    (b : h2.length ≤ h3.length ∧ (∀ x, x < n0 → h3[x]? = h2[x]?) ∧
      freshSeg n0 h3) :
    h1.length ≤ h3.length ∧ (∀ x, x < n0 → h3[x]? = h1[x]?) ∧
    freshSeg n0 h3 :=
  ⟨le_trans a.1 b.1, fun x hx => (b.2.1 x hx).trans (a.2.1 x hx), b.2.2⟩

/-- A meta-field update allocates the value and rewrites only the meta
cell, which sits in the fresh segment. -/
theorem heapMetaSet_spec (n0 : Nat) (h : Heap) (packAddr : Nat)
    (k : String) (v : Json) (h2 : Heap) (hp : n0 ≤ packAddr)
    (hn : n0 ≤ h.length) (hf : freshSeg n0 h)
    (hr : heapMetaSet h packAddr k v = some h2) :
    h.length ≤ h2.length ∧ (∀ a, a < n0 → h2[a]? = h[a]?) ∧
    freshSeg n0 h2 := by
  simp only [heapMetaSet] at hr
  cases hread : h[packAddr]? with
  | none => simp [hread] at hr
  | some w =>
      cases w with
      | null => simp [hread] at hr
      | bool b => simp [hread] at hr
      | num q => simp [hread] at hr
      | str str1 => simp [hread] at hr
      | arr l => simp [hread] at hr
      | obj pf =>
          simp only [hread] at hr
          cases hml : alLookup pf "evidence_pack_meta" with
          | none => simp [hml] at hr
          | some ma =>
              simp only [hml] at hr
              have hma : n0 ≤ ma := hf packAddr (.obj pf) hread hp ma
                (mem_map_snd_of_alLookup pf "evidence_pack_meta" ma hml)
              cases hmr : h[ma]? with
              | none => simp [hmr] at hr
              | some w2 =>
                  cases w2 with
                  | null => simp [hmr] at hr
                  | bool b => simp [hmr] at hr
                  | num q => simp [hmr] at hr
                  | str str1 => simp [hmr] at hr
                  | arr l => simp [hmr] at hr
                  | obj mf =>
                      simp only [hmr, Option.some.injEq] at hr
                      subst hr
                      obtain ⟨c1, c2, c3, c4⟩ := heapFromJson_spec h v
                      refine ⟨?_, ?_, ?_⟩
                      · rw [List.length_set]
                        exact c1
                      · intro a ha
                        rw [List.getElem?_set_ne (by omega)]
                        exact c3 a (lt_of_lt_of_le ha hn)
                      · refine freshSeg_set n0 _ ma _ (c4 n0 hn hf) ?_
                        intro c hc
                        simp only [HVal.children] at hc
                        rcases mem_map_snd_alSet mf k (heapFromJson h v).2
                            c hc with he | hm
                        · subst he
                          exact le_trans hn c2
                        · exact hf ma (.obj mf) hmr hma c hm

/-- The in-place pop loop rewrites only the selected-events cell. -/
theorem heapPopLoop_spec (fuel : Nat) (ns : ℚ → String) (mc : ℤ)
    (packAddr selListAddr n0 : Nat) (hsl : n0 ≤ selListAddr) :
    ∀ (fuelB : Nat) (h : Heap) (app : List String) (fc : Nat)
      (r : Heap × List String × Nat),
      n0 ≤ h.length → freshSeg n0 h →
      heapPopLoop fuel ns mc packAddr selListAddr fuelB h app fc =
        some r →
      h.length ≤ r.1.length ∧ (∀ a, a < n0 → r.1[a]? = h[a]?) ∧
      freshSeg n0 r.1
  | 0, h, app, fc, r, hn, hf, hr => by
      simp only [heapPopLoop, Option.some.injEq] at hr
      subst hr
      exact ⟨le_refl _, fun _ _ => rfl, hf⟩
  | fuelB + 1, h, app, fc, r, hn, hf, hr => by
      simp only [heapPopLoop] at hr
      cases hread : h[selListAddr]? with
      | none => simp [hread] at hr
      | some w =>
          cases w with
          | null => simp [hread] at hr
          | bool b => simp [hread] at hr
          | num q => simp [hread] at hr
          | str str1 => simp [hread] at hr
          | obj f => simp [hread] at hr
          | arr addrs =>
              simp only [hread] at hr
              by_cases hcond : mc < (fc : ℤ) ∧ 1 < addrs.length
              · rw [if_pos hcond] at hr
                have hstep : h.length ≤
                    (h.set selListAddr (.arr addrs.dropLast)).length ∧
                    (∀ a, a < n0 →
                      (h.set selListAddr (.arr addrs.dropLast))[a]? =
                        h[a]?) ∧
                    freshSeg n0 (h.set selListAddr (.arr addrs.dropLast)) := by
                  refine ⟨le_of_eq (List.length_set h _ _).symm,
                    fun a ha => List.getElem?_set_ne (by omega), ?_⟩
                  refine freshSeg_set n0 h selListAddr _ hf ?_
                  intro c hc
                  simp only [HVal.children] at hc
                  exact hf selListAddr (.arr addrs) hread hsl c
                    (List.dropLast_subset addrs hc)
                cases hps : heapPackSize fuel ns
                    (h.set selListAddr (.arr addrs.dropLast)) packAddr with
                | none => simp [hps] at hr
                | some fc2 =>
                    simp only [hps] at hr
                    exact frame_comp hstep
                      (heapPopLoop_spec fuel ns mc packAddr selListAddr n0
                        hsl fuelB _ _ fc2 r
                        (le_trans hn hstep.1) hstep.2.2 hr)
              · rw [if_neg hcond] at hr
                simp only [Option.some.injEq] at hr
                subst hr
                exact ⟨le_refl _, fun _ _ => rfl, hf⟩

/-- The first trimming pass rewrites only deep-copied event cells. -/
theorem heapDropLoop_spec (fuel : Nat) (ns : ℚ → String) (mc : ℤ)
    (packAddr : Nat) (selAddrs : List Nat) (n0 : Nat)
    (hsel : ∀ x ∈ selAddrs, n0 ≤ x) :
    ∀ (idxs : List Nat) (h : Heap) (app : List String) (fc : Nat)
      (r : Heap × List String × Nat),
      n0 ≤ h.length → freshSeg n0 h →
      heapDropLoop fuel ns mc packAddr selAddrs idxs h app fc = some r →
      h.length ≤ r.1.length ∧ (∀ a, a < n0 → r.1[a]? = h[a]?) ∧
      freshSeg n0 r.1
  | [], h, app, fc, r, hn, hf, hr => by
      simp only [heapDropLoop, Option.some.injEq] at hr
      subst hr
      exact ⟨le_refl _, fun _ _ => rfl, hf⟩
  | idx :: rest, h, app, fc, r, hn, hf, hr => by
      simp only [heapDropLoop] at hr
      cases hsa : selAddrs[idx]? with
      | none => simp [hsa] at hr
      | some ev =>
          simp only [hsa] at hr
          have hev : n0 ≤ ev := hsel ev (List.getElem?_mem hsa)
          cases hdl : heapDropLines h ev with
          | none => simp [hdl] at hr
          | some pr =>
              obtain ⟨changed, h1⟩ := pr
              simp only [hdl] at hr
              obtain ⟨d1, d2, d3⟩ := heapDropLines_spec n0 h ev
                (changed, h1) hev hf hdl
              have hstep : h.length ≤ h1.length ∧
                  (∀ a, a < n0 → h1[a]? = h[a]?) ∧ freshSeg n0 h1 :=
                ⟨le_of_eq d1.symm, d2, d3⟩
              cases changed with
              | false =>
                  rw [if_neg (by simp)] at hr
                  exact heapDropLoop_spec fuel ns mc packAddr selAddrs n0
                    hsel rest h app fc r hn hf hr
              | true =>
                  rw [if_pos rfl] at hr
                  cases hps : heapPackSize fuel ns h1 packAddr with
                  | none => simp [hps] at hr
                  | some fc2 =>
                      simp only [hps] at hr
                      by_cases hle : (fc2 : ℤ) ≤ mc
                      · rw [if_pos hle] at hr
                        simp only [Option.some.injEq] at hr
                        subst hr
                        exact hstep
                      · rw [if_neg hle] at hr
                        exact frame_comp hstep
                          (heapDropLoop_spec fuel ns mc packAddr selAddrs
                            n0 hsel rest h1 _ fc2 r
                            (le_trans hn hstep.1) d3 hr)

/-- The third trimming pass rewrites only deep-copied event cells and
allocates the copied hit lines. -/
theorem heapShrinkLoop_spec (fuel : Nat) (ns : ℚ → String) (mc : ℤ)
    (packAddr : Nat) (selAddrs : List Nat) (n0 : Nat)
    (hsel : ∀ x ∈ selAddrs, n0 ≤ x) :
    ∀ (idxs : List Nat) (h : Heap) (app : List String) (fc : Nat)
      (r : Heap × List String × Nat),
      n0 ≤ h.length → freshSeg n0 h →
      heapShrinkLoop fuel ns mc packAddr selAddrs idxs h app fc = some r →
      h.length ≤ r.1.length ∧ (∀ a, a < n0 → r.1[a]? = h[a]?) ∧
      freshSeg n0 r.1
  | [], h, app, fc, r, hn, hf, hr => by
      simp only [heapShrinkLoop, Option.some.injEq] at hr
      subst hr
      exact ⟨le_refl _, fun _ _ => rfl, hf⟩
  | idx :: rest, h, app, fc, r, hn, hf, hr => by
      simp only [heapShrinkLoop] at hr
      cases hsa : selAddrs[idx]? with
      | none => simp [hsa] at hr
      | some ev =>
          simp only [hsa] at hr
          have hev : n0 ≤ ev := hsel ev (List.getElem?_mem hsa)
          cases hdl : heapShrink fuel h ev with
          | none => simp [hdl] at hr
          | some pr =>
              obtain ⟨changed, h1⟩ := pr
              simp only [hdl] at hr
              obtain ⟨d1, d2, d3⟩ := heapShrink_spec n0 fuel h ev
                (changed, h1) hev hn hf hdl
              have hstep : h.length ≤ h1.length ∧
                  (∀ a, a < n0 → h1[a]? = h[a]?) ∧ freshSeg n0 h1 :=
                ⟨d1, d2, d3⟩
              cases changed with
              | false =>
                  rw [if_neg (by simp)] at hr
                  exact heapShrinkLoop_spec fuel ns mc packAddr selAddrs n0
                    hsel rest h app fc r hn hf hr
              | true =>
                  rw [if_pos rfl] at hr
                  cases hps : heapPackSize fuel ns h1 packAddr with
                  | none => simp [hps] at hr
                  | some fc2 =>
                      simp only [hps] at hr
                      by_cases hle : (fc2 : ℤ) ≤ mc
                      · rw [if_pos hle] at hr
                        simp only [Option.some.injEq] at hr
                        subst hr
                        exact hstep
                      · rw [if_neg hle] at hr
                        exact frame_comp hstep
                          (heapShrinkLoop_spec fuel ns mc packAddr selAddrs
                            n0 hsel rest h1 _ fc2 r
                            (le_trans hn hstep.1) d3 hr)

/-- The final drop loop rewrites only the selected-events cell and the
meta cell, both in the fresh segment. -/
theorem heapPopLoop2_spec (fuel : Nat) (ns : ℚ → String) (mc : ℤ)
    (packAddr selListAddr n0 : Nat) (hp : n0 ≤ packAddr)
    (hsl : n0 ≤ selListAddr) :
    ∀ (fuelB : Nat) (h : Heap) (app : List String)
      (r : Heap × List String),
      n0 ≤ h.length → freshSeg n0 h →
      heapPopLoop2 fuel ns mc packAddr selListAddr fuelB h app = some r →
      h.length ≤ r.1.length ∧ (∀ a, a < n0 → r.1[a]? = h[a]?) ∧
      freshSeg n0 r.1
  | 0, h, app, r, hn, hf, hr => by
      simp only [heapPopLoop2, Option.some.injEq] at hr
      subst hr
      exact ⟨le_refl _, fun _ _ => rfl, hf⟩
  | fuelB + 1, h, app, r, hn, hf, hr => by
      simp only [heapPopLoop2] at hr
      cases hps : heapPackSize fuel ns h packAddr with
      | none => simp [hps] at hr
      | some sz =>
          simp only [hps] at hr
          cases hread : h[selListAddr]? with
          | none => simp [hread] at hr
          | some w =>
              cases w with
              | null => simp [hread] at hr
              | bool b => simp [hread] at hr
              | num q => simp [hread] at hr
              | str str1 => simp [hread] at hr
              | obj f => simp [hread] at hr
              | arr addrs =>
                  simp only [hread] at hr
                  by_cases hcond : mc < (sz : ℤ) ∧ 1 < addrs.length
                  · rw [if_pos hcond] at hr
                    have hstep : h.length ≤
                        (h.set selListAddr (.arr addrs.dropLast)).length ∧
                        (∀ a, a < n0 →
                          (h.set selListAddr (.arr addrs.dropLast))[a]? =
                            h[a]?) ∧
                        freshSeg n0
                          (h.set selListAddr (.arr addrs.dropLast)) := by
                      refine ⟨le_of_eq (List.length_set h _ _).symm,
                        fun a ha => List.getElem?_set_ne (by omega), ?_⟩
                      refine freshSeg_set n0 h selListAddr _ hf ?_
                      intro c hc
                      simp only [HVal.children] at hc
                      exact hf selListAddr (.arr addrs) hread hsl c
                        (List.dropLast_subset addrs hc)
                    have hn1 : n0 ≤
                        (h.set selListAddr (.arr addrs.dropLast)).length :=
                      le_trans hn hstep.1
                    cases hm1 : heapMetaSet
                        (h.set selListAddr (.arr addrs.dropLast)) packAddr
                        "events_included"
                        (Json.num addrs.dropLast.length) with
                    | none =>
                        rw [hm1] at hr
                        exact Option.noConfusion hr
                    | some h2 =>
                        simp only [hm1] at hr
                        have t1 := heapMetaSet_spec n0 _ packAddr _ _ h2
                          hp hn1 hstep.2.2 hm1
                        have hn2 : n0 ≤ h2.length := le_trans hn1 t1.1
                        cases hm2 : heapMetaSet h2 packAddr
                            "trimming_applied"
                            (Json.arr (((app ++
                              ["dropped_low_ranked_event"]).take 12).map
                                Json.str)) with
                        | none =>
                        rw [hm2] at hr
                        exact Option.noConfusion hr
                        | some h3 =>
                            simp only [hm2] at hr
                            have t2 := heapMetaSet_spec n0 h2 packAddr _ _
                              h3 hp hn2 t1.2.2 hm2
                            have hn3 : n0 ≤ h3.length := le_trans hn2 t2.1
                            cases hm3 : heapMetaSet h3 packAddr
                                "trimming_count"
                                (Json.num (app ++
                                  ["dropped_low_ranked_event"]).length) with
                            | none =>
                        rw [hm3] at hr
                        exact Option.noConfusion hr
                            | some h4 =>
                                simp only [hm3] at hr
                                have t3 := heapMetaSet_spec n0 h3 packAddr
                                  _ _ h4 hp hn3 t2.2.2 hm3
                                have hn4 : n0 ≤ h4.length :=
                                  le_trans hn3 t3.1
                                exact frame_comp hstep (frame_comp t1
                                  (frame_comp t2 (frame_comp t3
                                    (heapPopLoop2_spec fuel ns mc packAddr
                                      selListAddr n0 hp hsl fuelB h4 _ r
                                      hn4 t3.2.2 hr))))
                  · rw [if_neg hcond] at hr
                    simp only [Option.some.injEq] at hr
                    subst hr
                    exact ⟨le_refl _, fun _ _ => rfl, hf⟩

/-- The final stage rewrites only the pack cell, the meta cell and the
selected-events cell, all in the fresh segment. -/
theorem heapFinish_spec (n0 fuel : Nat) (ns : ℚ → String) (h : Heap)
    (packAddr selListAddr : Nat) (top_k mc : ℤ) (addrsC : List Nat)
    (appC : List String) (r : Heap × Nat)
    (hp : n0 ≤ packAddr) (hsl : n0 ≤ selListAddr) (hn : n0 ≤ h.length)
    (hf : freshSeg n0 h)
    (hr : heapFinish fuel ns h packAddr selListAddr top_k mc addrsC appC =
      some r) :
    h.length ≤ r.1.length ∧ (∀ a, a < n0 → r.1[a]? = h[a]?) ∧
    freshSeg n0 r.1 := by
  simp only [heapFinish] at hr
  obtain ⟨c1, c2, c3, c4⟩ :=
    heapFromJson_spec h (finishMetaJson top_k mc addrsC appC)
  cases hread : (heapFromJson h
      (finishMetaJson top_k mc addrsC appC)).1[packAddr]? with
  | none => simp [hread] at hr
  | some w =>
      cases w with
      | null => simp [hread] at hr
      | bool b => simp [hread] at hr
      | num q => simp [hread] at hr
      | str str1 => simp [hread] at hr
      | arr l => simp [hread] at hr
      | obj pf =>
          simp only [hread] at hr
          have halloc : h.length ≤ (heapFromJson h
              (finishMetaJson top_k mc addrsC appC)).1.length ∧
              (∀ a, a < n0 → (heapFromJson h
                (finishMetaJson top_k mc addrsC appC)).1[a]? = h[a]?) ∧
              freshSeg n0 (heapFromJson h
                (finishMetaJson top_k mc addrsC appC)).1 :=
            ⟨c1, fun a ha => c3 a (lt_of_lt_of_le ha hn), c4 n0 hn hf⟩
          have hset : (heapFromJson h
              (finishMetaJson top_k mc addrsC appC)).1.length ≤
              ((heapFromJson h (finishMetaJson top_k mc addrsC
                appC)).1.set packAddr (.obj (alSet pf "evidence_pack_meta"
                  (heapFromJson h (finishMetaJson top_k mc addrsC
                    appC)).2))).length ∧
              (∀ a, a < n0 → ((heapFromJson h (finishMetaJson top_k mc
                addrsC appC)).1.set packAddr (.obj (alSet pf
                  "evidence_pack_meta" (heapFromJson h (finishMetaJson
                    top_k mc addrsC appC)).2)))[a]? =
                (heapFromJson h (finishMetaJson top_k mc addrsC
                  appC)).1[a]?) ∧
              freshSeg n0 ((heapFromJson h (finishMetaJson top_k mc addrsC
                appC)).1.set packAddr (.obj (alSet pf "evidence_pack_meta"
                  (heapFromJson h (finishMetaJson top_k mc addrsC
                    appC)).2))) := by
            refine ⟨le_of_eq (List.length_set _ _ _).symm,
              fun a ha => List.getElem?_set_ne (by omega), ?_⟩
            refine freshSeg_set n0 _ packAddr _ halloc.2.2 ?_
            intro c hc
            simp only [HVal.children] at hc
            rcases mem_map_snd_alSet pf "evidence_pack_meta"
                (heapFromJson h (finishMetaJson top_k mc addrsC appC)).2
                c hc with he | hm
            · subst he
              exact le_trans hn c2
            · exact halloc.2.2 packAddr (.obj pf) hread hp c hm
          have hpre := frame_comp halloc hset
          cases hpl : heapPopLoop2 fuel ns mc packAddr selListAddr
              addrsC.length ((heapFromJson h (finishMetaJson top_k mc
                addrsC appC)).1.set packAddr (.obj (alSet pf
                  "evidence_pack_meta" (heapFromJson h (finishMetaJson
                    top_k mc addrsC appC)).2))) appC with
          | none => simp [hpl] at hr
          | some rD =>
              obtain ⟨hD, appD⟩ := rD
              simp only [hpl] at hr
              have tD := heapPopLoop2_spec fuel ns mc packAddr selListAddr
                n0 hp hsl addrsC.length _ appC (hD, appD)
                (le_trans hn hpre.1) hpre.2.2 hpl
              have hpre2 := frame_comp hpre tD
              have hnD : n0 ≤ hD.length := le_trans hn hpre2.1
              cases hps : heapPackSize fuel ns hD packAddr with
              | none => simp [hps] at hr
              | some fc3 =>
                  simp only [hps] at hr
                  cases hms : heapMetaSet hD packAddr "final_chars"
                      (Json.num fc3) with
                  | none => simp [hms] at hr
                  | some h4 =>
                      simp only [hms] at hr
                      have t4 := heapMetaSet_spec n0 hD packAddr _ _ h4
                        hp hnD tD.2.2 hms
                      have hpre3 := frame_comp hpre2 t4
                      have hn4 : n0 ≤ h4.length := le_trans hn hpre3.1
                      by_cases hover : mc < (fc3 : ℤ)
                      · rw [if_pos hover] at hr
                        cases hms2 : heapMetaSet h4 packAddr
                            "trimming_applied"
                            (Json.arr [Json.str "meta_compacted"]) with
                        | none => simp [hms2] at hr
                        | some h5 =>
                            simp only [hms2] at hr
                            have t5 := heapMetaSet_spec n0 h4 packAddr _ _
                              h5 hp hn4 t4.2.2 hms2
                            have hpre4 := frame_comp hpre3 t5
                            have hn5 : n0 ≤ h5.length :=
                              le_trans hn hpre4.1
                            cases hps2 : heapPackSize fuel ns h5
                                packAddr with
                            | none => simp [hps2] at hr
                            | some fc4 =>
                                simp only [hps2] at hr
                                cases hms3 : heapMetaSet h5 packAddr
                                    "final_chars" (Json.num fc4) with
                                | none => simp [hms3] at hr
                                | some h6 =>
                                    simp only [hms3,
                                      Option.some.injEq] at hr
                                    subst hr
                                    have t6 := heapMetaSet_spec n0 h5
                                      packAddr _ _ h6 hp hn5 t5.2.2 hms3
                                    exact frame_comp hpre4 t6
                      · rw [if_neg hover] at hr
                        simp only [Option.some.injEq] at hr
                        subst hr
                        exact hpre3

/-- C10: `build_evidence_pack` never mutates its input. In the heap model
every cell of the input heap — the output dict, its events list, every
event object, their evidence entries and lines — is unchanged after a
successful `heapBuild` run: all trimming and line-dropping writes land in
cells allocated by the run itself (the `_trimmed_event` deep copies and
the fresh pack, meta and selected-events structures). -/
theorem heapBuild_frame (fuel : Nat) (ps : Json → String)
    (sf : String → Option ℚ) (si : String → Option ℤ) (ns : ℚ → String)
    (h0 : Heap) (outAddr : Nat) (top_k mc : ℤ) (hres : Heap)
    (resAddr : Nat)
    (hr : heapBuild fuel ps sf si ns h0 outAddr top_k mc =
      some (hres, resAddr)) :
    h0.length ≤ hres.length ∧ ∀ a, a < h0.length → hres[a]? = h0[a]? := by
  simp only [heapBuild] at hr
  cases hoj : heapToJson fuel h0 outAddr with
  | none => simp [hoj] at hr
  | some outJ =>
  simp only [hoj] at hr
  cases outJ with
  | null => exact Option.noConfusion hr
  | bool b => exact Option.noConfusion hr
  | num q => exact Option.noConfusion hr
  | str str1 => exact Option.noConfusion hr
  | arr l => exact Option.noConfusion hr
  | obj outF =>
  cases hrank : rank_events ps sf si (eventsOf outF) with
  | none => simp [hrank] at hr
  | some ranked =>
  simp only [hrank] at hr
  cases hts : timeline_summary outF with
  | none => simp [hts] at hr
  | some btlJ =>
  simp only [hts] at hr
  set SV := heapFromJson h0 ((alLookup outF "schema_version").getD
    Json.null) with hSV
  set RS := heapFromJsonList SV.1
    ((selectEvents ranked (eventsOf outF) top_k).map Json.obj) with hRS
  set RB := heapFromJson RS.1 btlJ with hRB
  set H1 := RB.1 ++ [HVal.arr RS.2] with hH1
  set SL := RB.1.length with hSL
  set H2 := H1 ++ [HVal.obj
    [("schema_version", SV.2), ("boot_timeline", RB.2),
     ("selected_events", SL)]] with hH2
  set PK := H1.length with hPK
  have hfs0 : freshSeg h0.length h0 := freshSeg_init _ _ (le_refl _)
  obtain ⟨s1, s2, s3, s4⟩ := heapFromJson_spec h0
    ((alLookup outF "schema_version").getD Json.null)
  rw [← hSV] at s1 s2 s3 s4
  obtain ⟨l1, l2, l3, l4⟩ := heapFromJsonList_spec SV.1
    ((selectEvents ranked (eventsOf outF) top_k).map Json.obj)
  rw [← hRS] at l1 l2 l3 l4
  obtain ⟨b1, b2, b3, b4⟩ := heapFromJson_spec RS.1 btlJ
  rw [← hRB] at b1 b2 b3 b4
  have T01 : h0.length ≤ RB.1.length ∧
      (∀ a, a < h0.length → RB.1[a]? = h0[a]?) ∧
      freshSeg h0.length RB.1 := by
    refine frame_comp (frame_comp ⟨s1, fun a ha => s3 a ha,
      s4 h0.length (le_refl _) hfs0⟩
      ⟨l1, fun a ha => l3 a (lt_of_lt_of_le ha s1), ?_⟩)
      ⟨b1, fun a ha => b3 a (lt_of_lt_of_le ha (le_trans s1 l1)), ?_⟩
    · exact l4 h0.length s1 (s4 h0.length (le_refl _) hfs0)
    · exact b4 h0.length (le_trans s1 l1)
        (l4 h0.length s1 (s4 h0.length (le_refl _) hfs0))
  have hselRS : ∀ x ∈ RS.2, h0.length ≤ x := fun x hx =>
    le_trans s1 (l2 x hx)
  have hSL0 : h0.length ≤ SL := by
    rw [hSL]
    exact T01.1
  have TH1 : RB.1.length ≤ H1.length ∧
      (∀ a, a < h0.length → H1[a]? = RB.1[a]?) ∧
      freshSeg h0.length H1 := by
    rw [hH1]
    refine ⟨by simp, fun a ha =>
      heap_get_append _ _ _ (lt_of_lt_of_le ha T01.1), ?_⟩
    refine freshSeg_append _ _ _ T01.2.2 ?_
    intro c hc
    simp only [HVal.children] at hc
    exact hselRS c hc
  have hPK0 : h0.length ≤ PK := by
    rw [hPK]
    exact le_trans T01.1 TH1.1
  have TH2 : H1.length ≤ H2.length ∧
      (∀ a, a < h0.length → H2[a]? = H1[a]?) ∧
      freshSeg h0.length H2 := by
    rw [hH2]
    refine ⟨by simp, fun a ha => heap_get_append _ _ _
      (lt_of_lt_of_le ha (le_trans T01.1 TH1.1)), ?_⟩
    refine freshSeg_append _ _ _ TH1.2.2 ?_
    intro c hc
    simp only [HVal.children, List.map_cons, List.map_nil,
      List.mem_cons, List.mem_singleton] at hc
    rcases hc with he | he | he | he
    · rw [he]
      exact s2
    · rw [he]
      exact le_trans (le_trans s1 l1) b2
    · rw [he]
      exact hSL0
    · exact absurd he (List.not_mem_nil _)
  have T02 : h0.length ≤ H2.length ∧
      (∀ a, a < h0.length → H2[a]? = h0[a]?) ∧
      freshSeg h0.length H2 :=
    frame_comp T01 (frame_comp TH1 TH2)
  cases hps : heapPackSize fuel ns H2 PK with
  | none => simp [hps] at hr
  | some fc0 =>
  simp only [hps] at hr
  cases hA : (if mc < (fc0 : ℤ) ∧ ¬ RS.2 = [] then
      heapDropLoop fuel ns mc PK RS.2 (List.range RS.2.length).reverse
        H2 [] fc0
    else some (H2, [], fc0)) with
  | none => simp [hA] at hr
  | some tA =>
  simp only [hA] at hr
  obtain ⟨hA1, appA, fcA⟩ := tA
  have TA : H2.length ≤ hA1.length ∧
      (∀ a, a < h0.length → hA1[a]? = H2[a]?) ∧
      freshSeg h0.length hA1 := by
    by_cases hcond : mc < (fc0 : ℤ) ∧ ¬ RS.2 = []
    · rw [if_pos hcond] at hA
      exact heapDropLoop_spec fuel ns mc PK RS.2 h0.length hselRS _
        H2 [] fc0 (hA1, appA, fcA) T02.1 T02.2.2 hA
    · rw [if_neg hcond] at hA
      simp only [Option.some.injEq, Prod.mk.injEq] at hA
      obtain ⟨e1, _, _⟩ := hA
      subst e1
      exact ⟨le_refl _, fun _ _ => rfl, T02.2.2⟩
  have T0A : h0.length ≤ hA1.length ∧
      (∀ a, a < h0.length → hA1[a]? = h0[a]?) ∧
      freshSeg h0.length hA1 := frame_comp T02 TA
  cases hB : heapPopLoop fuel ns mc PK SL RS.2.length hA1 appA fcA with
  | none => simp [hB] at hr
  | some tB =>
  simp only [hB] at hr
  obtain ⟨hB1, appB, fcB⟩ := tB
  have TB := heapPopLoop_spec fuel ns mc PK SL h0.length hSL0
    RS.2.length hA1 appA fcA (hB1, appB, fcB) T0A.1 T0A.2.2 hB
  have T0B : h0.length ≤ hB1.length ∧
      (∀ a, a < h0.length → hB1[a]? = h0[a]?) ∧
      freshSeg h0.length hB1 := frame_comp T0A TB
  cases hrB : hB1[SL]? with
  | none => simp [hrB] at hr
  | some wB =>
  cases wB with
  | null => simp [hrB] at hr
  | bool b => simp [hrB] at hr
  | num q => simp [hrB] at hr
  | str str1 => simp [hrB] at hr
  | obj f => simp [hrB] at hr
  | arr addrsB =>
  simp only [hrB] at hr
  have haddrsB : ∀ x ∈ addrsB, h0.length ≤ x := fun x hx =>
    T0B.2.2 SL (.arr addrsB) hrB hSL0 x hx
  cases hC : (if mc < (fcB : ℤ) ∧ ¬ addrsB = [] then
      heapShrinkLoop fuel ns mc PK addrsB
        (List.range addrsB.length).reverse hB1 appB fcB
    else some (hB1, appB, fcB)) with
  | none => simp [hC] at hr
  | some tC =>
  simp only [hC] at hr
  obtain ⟨hC1, appC, fcC⟩ := tC
  have TC : hB1.length ≤ hC1.length ∧
      (∀ a, a < h0.length → hC1[a]? = hB1[a]?) ∧
      freshSeg h0.length hC1 := by
    by_cases hcond : mc < (fcB : ℤ) ∧ ¬ addrsB = []
    · rw [if_pos hcond] at hC
      exact heapShrinkLoop_spec fuel ns mc PK addrsB h0.length haddrsB _
        hB1 appB fcB (hC1, appC, fcC) T0B.1 T0B.2.2 hC
    · rw [if_neg hcond] at hC
      simp only [Option.some.injEq, Prod.mk.injEq] at hC
      obtain ⟨e1, _, _⟩ := hC
      subst e1
      exact ⟨le_refl _, fun _ _ => rfl, T0B.2.2⟩
  have T0C : h0.length ≤ hC1.length ∧
      (∀ a, a < h0.length → hC1[a]? = h0[a]?) ∧
      freshSeg h0.length hC1 := frame_comp T0B TC
  cases hrC : hC1[SL]? with
  | none => simp [hrC] at hr
  | some wC =>
  cases wC with
  | null => simp [hrC] at hr
  | bool b => simp [hrC] at hr
  | num q => simp [hrC] at hr
  | str str1 => simp [hrC] at hr
  | obj f => simp [hrC] at hr
  | arr addrsC =>
  simp only [hrC] at hr
  have TF := heapFinish_spec h0.length fuel ns hC1 PK SL top_k mc
    addrsC appC (hres, resAddr) hPK0 hSL0 T0C.1 T0C.2.2 hr
  exact ⟨(frame_comp T0C TF).1, (frame_comp T0C TF).2.1⟩

set_option maxRecDepth 40000 in
/-- Witness for C10: a concrete two-event run returns a heap in which
every cell of the input heap is unchanged. -/
theorem heapBuild_frame_witness :
    ∃ r : Heap × Nat,
      heapBuild 100 ps0 sf0 si0 numStrDefault testHeap0.1 testHeap0.2
        8 259 = some r ∧
      testHeap0.1.length ≤ r.1.length ∧
      ∀ a, a < testHeap0.1.length → r.1[a]? = testHeap0.1[a]? := by
  refine ⟨_, rfl, heapBuild_frame 100 ps0 sf0 si0 numStrDefault
    testHeap0.1 testHeap0.2 8 259 _ _ rfl⟩

end BiosTriage
